import Mathlib

/-!
# Protolib: the PNM exporter, the command line parser and the utilities

A shallow embedding of `protolib::PnmExporter<TChannelType>` (`src/PnmExporter.h`)
at its default instantiation `TChannelType = uint8_t` (the only one the repository
uses, see `src/main.cpp`), of `protolib::ArgsParser` (`src/ArgsParser.cpp`) and of
the functions `parseString`, `genPermutations` and `genCombinations`
(`src/Utils.cpp`, `src/Utils.h`), followed by theorems about them.

Conventions of the embedding

* `size_t` values are natural numbers below `2 ^ 64`; every `size_t`
  operation that can leave that range is written with an explicit
  `% 2 ^ 64` (`sizeT`).
* `uint8_t` samples are natural numbers below `256`; the compound assignment
  `|=` on a `uint8_t` element converts back with `% 256`.
* `int` values are integers in `[-2 ^ 31, 2 ^ 31)`; a signed operation whose
  result leaves that range is undefined behaviour.
* `std::vector<uint8_t>` is `List Nat`.  `at` is the checked access (it throws
  `std::out_of_range`), `operator[]` the unchecked one (outside the storage it
  is undefined behaviour).
* `std::vector::resize` beyond `max_size()` (`2 ^ 63 - 1` elements) throws
  `std::length_error`.  Memory and the call stack themselves are unbounded: an
  allocation of at most `max_size()` elements succeeds, `std::bad_alloc` is not
  part of the model.
* An operation that can throw or run into undefined behaviour returns an
  `Outcome`, a resizing one a `ResizeOutcome`, the constructor a
  `CreateOutcome`; the encoder functions return an `Option` whose `none` means
  that no output is produced: undefined behaviour, a loop that cannot finish,
  or the `std::length_error` of an oversized `binData`.
* The `std::ofstream` of the encoder functions is the list of bytes inserted
  into it, `std::endl` is the byte `10`; the state in which the constructor of
  the stream leaves it (`OfStream`) enters `saveToPath` only.
* A `std::string` is a `List Char`, positions in it are `size_t` values and
  `std::string::npos` is `2 ^ 64 - 1`; a `std::map` is the list of its entries, a
  `std::set` the list of its elements.
* A recursion or a loop without a structural bound takes fuel; the functions
  without a fuel argument supply enough of it wherever the program returns.
-/

namespace protolib

/-! ## Machine arithmetic -/

/-- The number of values of `size_t`. -/
def SIZE_MOD : Nat := 2 ^ 64

/-- Conversion of a mathematical result to `size_t` (wrap-around). -/
def sizeT (n : Nat) : Nat := n % SIZE_MOD

/-- Largest length of a `std::vector<uint8_t>` (`max_size()`, `PTRDIFF_MAX`). -/
def VECTOR_MAX_SIZE : Nat := 2 ^ 63 - 1

/-- `std::numeric_limits<uint8_t>::max()`. -/
def CHANNEL_MAX : Nat := 255

/-- Conversion of a mathematical result to `unsigned` (32 bits). -/
def toUnsigned (n : Nat) : Nat := n % 2 ^ 32

/-- Whether an integer is a value of `int` (32 bits). -/
def inIntRange (i : Int) : Bool := decide (-(2 : Int) ^ 31 ≤ i) && decide (i < (2 : Int) ^ 31)

/-- The result of a signed `int` operation: outside the range of `int` the
behaviour is undefined (`none`). -/
def checkedInt (i : Int) : Option Int := if inIntRange i then some i else none

/-- Conversion of a `size_t` argument to an `int` parameter: reduction modulo
`2 ^ 32` into the signed range. -/
def sizeToInt (n : Nat) : Int :=
  if n % 2 ^ 32 < 2 ^ 31 then ((n % 2 ^ 32 : Nat) : Int) else ((n % 2 ^ 32 : Nat) : Int) - (2 : Int) ^ 32

/-! ## Text output -/

/-- The bytes of a text (all texts written by the exporter are ASCII). -/
def strBytes (s : String) : List Nat := s.toList.map Char.toNat

/-- The bytes of the decimal representation, as `operator<<` and
`std::to_string` print an unsigned value. -/
def decimal (n : Nat) : List Nat := (Nat.toDigits 10 n).map Char.toNat

/-- The byte written by `std::endl`. -/
def endl : List Nat := [10]

/-! ## The data model -/

/-- The `enum class PnmImageType`, enumerators `1 .. 6`. -/
inductive PnmImageType where
  | PBM_ASCII
  | PGM_ASCII
  | PPM_ASCII
  | PBM_BIN
  | PGM_BIN
  | PPM_BIN
  deriving DecidableEq, Repr

/-- The value `static_cast<int>(type)`. -/
def PnmImageType.toInt : PnmImageType → Int
  | .PBM_ASCII => 1
  | .PGM_ASCII => 2
  | .PPM_ASCII => 3
  | .PBM_BIN => 4
  | .PGM_BIN => 5
  | .PPM_BIN => 6

/-- The enumerator `static_cast<PnmImageType>(i)`, when `i` names one. -/
def PnmImageType.ofInt (i : Int) : Option PnmImageType :=
  if i = 1 then some .PBM_ASCII
  else if i = 2 then some .PGM_ASCII
  else if i = 3 then some .PPM_ASCII
  else if i = 4 then some .PBM_BIN
  else if i = 5 then some .PGM_BIN
  else if i = 6 then some .PPM_BIN
  else none

/-- The `struct PixelColor`: `r`, `g`, `b` for RGB images, `y` otherwise. -/
structure PixelColor where
  r : Nat
  g : Nat
  b : Nat
  y : Nat
  deriving DecidableEq, Repr

/-- The constructor `PixelColor(ry, g, b)`: `r` and `y` both receive `ry`. -/
def PixelColor.make (ry g b : Nat) : PixelColor := ⟨ry, g, b, ry⟩

/-- The private members of `PnmExporter<uint8_t>`. -/
structure PnmExporter where
  mImageType : PnmImageType
  mWidth : Nat
  mHeight : Nat
  mPixelData : List Nat
  deriving DecidableEq, Repr

/-- The result of a member function that can throw. -/
inductive Outcome where
  | ok (e : PnmExporter)
  | out_of_range (e : PnmExporter)
  | undefined
  deriving DecidableEq, Repr

/-- The result of a member function that resizes the storage: it returns, or
`std::vector::resize` throws `std::length_error`; `e` is the object after the
call in both cases. -/
inductive ResizeOutcome where
  | ok (e : PnmExporter)
  | length_error (e : PnmExporter)
  deriving DecidableEq, Repr

/-- The object after a resizing member function, whether it returned or threw. -/
def ResizeOutcome.state : ResizeOutcome → PnmExporter
  | .ok e => e
  | .length_error e => e

/-- The result of the constructor: the new object, or the exception
`std::length_error`, which leaves no object. -/
inductive CreateOutcome where
  | ok (e : PnmExporter)
  | length_error
  deriving DecidableEq, Repr

/-- Sequencing of two steps: an exception or undefined behaviour of the first
one ends the execution. -/
def Outcome.andThen (o : Outcome) (f : PnmExporter → Outcome) : Outcome :=
  match o with
  | .ok e => f e
  | .out_of_range e => .out_of_range e
  | .undefined => .undefined

namespace PnmExporter

/-- The member `getMagicNumber`: `"P" + std::to_string(static_cast<int>(mImageType))`. -/
def getMagicNumber (e : PnmExporter) : List Nat :=
  strBytes "P" ++ decimal e.mImageType.toInt.toNat

/-- The member `isBinFormat`. -/
def isBinFormat (e : PnmExporter) : Bool := decide (e.mImageType.toInt > 3)

/-- The member `getNumberOfChannels`. -/
def getNumberOfChannels (e : PnmExporter) : Nat :=
  if e.mImageType = .PPM_ASCII ∨ e.mImageType = .PPM_BIN then 3 else 1

/-- The elements of a vector after a call `v.resize(n)` that returns:
truncation, or growth by zeros. -/
def resizedElements (v : List Nat) (n : Nat) : List Nat :=
  v.take n ++ List.replicate (n - v.length) 0

/-- The call `v.resize(n)` of `std::vector`: a size above `max_size()` throws
`std::length_error` (`none`) and leaves the vector as it was. -/
def vectorResize (v : List Nat) (n : Nat) : Option (List Nat) :=
  if n ≤ VECTOR_MAX_SIZE then some (resizedElements v n) else none

/-- The member `resizePixelData`: `mPixelData.resize(mWidth * mHeight *
getNumberOfChannels())`, the product being computed in `size_t`. -/
def resizePixelData (e : PnmExporter) : ResizeOutcome :=
  match vectorResize e.mPixelData (sizeT (sizeT (e.mWidth * e.mHeight) * e.getNumberOfChannels)) with
  | some pixelData => .ok { e with mPixelData := pixelData }
  | none => .length_error e

/-- The constructor `PnmExporter(width, height, type)`: the members are
initialised, then `resizePixelData` runs; its exception leaves the constructor. -/
def create (width height : Nat) (type : PnmImageType) : CreateOutcome :=
  match resizePixelData ⟨type, width, height, []⟩ with
  | .ok e => .ok e
  | .length_error _ => .length_error

/-- The default argument `type = PnmImageType::PPM_BIN` of the constructor. -/
def createDefault (width height : Nat) : CreateOutcome :=
  create width height .PPM_BIN

/-- The member `getWidth`. -/
def getWidth (e : PnmExporter) : Nat := e.mWidth

/-- The member `getHeight`. -/
def getHeight (e : PnmExporter) : Nat := e.mHeight

/-- The member `getImageType`. -/
def getImageType (e : PnmExporter) : PnmImageType := e.mImageType

/-- The member `getPixelData`. -/
def getPixelData (e : PnmExporter) : List Nat := e.mPixelData

/-- The member `setWidth`: the member is assigned, then `resizePixelData` runs. -/
def setWidth (e : PnmExporter) (width : Nat) : ResizeOutcome :=
  resizePixelData { e with mWidth := width }

/-- The member `setHeight`: the member is assigned, then `resizePixelData` runs. -/
def setHeight (e : PnmExporter) (height : Nat) : ResizeOutcome :=
  resizePixelData { e with mHeight := height }

/-- The member `setPixelData`: the vector is copied, then `resizePixelData` runs. -/
def setPixelData (e : PnmExporter) (pixelData : List Nat) : ResizeOutcome :=
  resizePixelData { e with mPixelData := pixelData }

/-- The member `swapBtwnASCIIandBIN`. -/
def swapBtwnASCIIandBIN (e : PnmExporter) : PnmExporter :=
  let enumPos := e.mImageType.toInt
  match PnmImageType.ofInt (enumPos + (if e.isBinFormat then -3 else 3)) with
  | some t => { e with mImageType := t }
  | none => e

/-- The member `clear`: `std::fill` with `TChannelType()`. -/
def clear (e : PnmExporter) : PnmExporter :=
  { e with mPixelData := e.mPixelData.map (fun _ => 0) }

/-! ### Pixel access -/

/-- The result of the member `getPixel`. -/
inductive ReadOutcome where
  | value (c : PixelColor)
  | out_of_range
  | undefined
  deriving DecidableEq, Repr

/-- The member `getPixel`. The colour starts as `PixelColor()`, all zero; `at`
guards the first access only. -/
def getPixel (e : PnmExporter) (x y : Nat) : ReadOutcome :=
  if e.getNumberOfChannels = 3 then
    let startPos := sizeT (3 * sizeT (sizeT (y * e.mWidth) + x))
    match e.mPixelData[sizeT (startPos + 2)]? with
    | none => .out_of_range
    | some b =>
      match e.mPixelData[startPos]?, e.mPixelData[sizeT (startPos + 1)]? with
      | some r, some g => .value ⟨r, g, b, 0⟩
      | _, _ => .undefined
  else
    match e.mPixelData[sizeT (sizeT (y * e.mWidth) + x)]? with
    | none => .out_of_range
    | some v => .value ⟨0, 0, 0, v⟩

/-- The member `setPixel`. `at` guards the write of `color.b` only; the writes
of `color.r` and `color.g` use `operator[]`. -/
def setPixel (e : PnmExporter) (x y : Nat) (color : PixelColor) : Outcome :=
  if e.getNumberOfChannels = 3 then
    let startPos := sizeT (3 * sizeT (sizeT (y * e.mWidth) + x))
    if sizeT (startPos + 2) < e.mPixelData.length then
      let d1 := e.mPixelData.set (sizeT (startPos + 2)) color.b
      if startPos < d1.length ∧ sizeT (startPos + 1) < d1.length then
        .ok { e with mPixelData := (d1.set startPos color.r).set (sizeT (startPos + 1)) color.g }
      else .undefined
    else .out_of_range e
  else
    let pos := sizeT (sizeT (y * e.mWidth) + x)
    if pos < e.mPixelData.length then
      let v := if (e.mImageType = .PBM_ASCII ∨ e.mImageType = .PBM_BIN) ∧ color.y > 1
               then 1 else color.y
      .ok { e with mPixelData := e.mPixelData.set pos v }
    else .out_of_range e

/-- The member `setPixels(color)`: every sample is overwritten, by position
modulo three for RGB images, by `color.y` otherwise. -/
def setPixelsAll (e : PnmExporter) (color : PixelColor) : PnmExporter :=
  if e.getNumberOfChannels = 3 then
    let channel := fun i => if i % 3 = 0 then color.r else if i % 3 = 1 then color.g else color.b
    { e with mPixelData := (List.range e.mPixelData.length).map channel }
  else
    { e with mPixelData := e.mPixelData.map (fun _ => color.y) }

/-- The inner loop of `setPixels(pred, color)`: the columns `x, x + 1, ...` of
row `y`, `n` of them. A predicate that runs into undefined behaviour returns
`none`. -/
def setPixelsRow (pred : Nat → Nat → Option Bool) (color : PixelColor) (y : Nat) :
    Nat → Nat → PnmExporter → Outcome
  | 0, _, e => .ok e
  | n + 1, x, e =>
    match pred x y with
    | none => .undefined
    | some true => (e.setPixel x y color).andThen (setPixelsRow pred color y n (x + 1))
    | some false => setPixelsRow pred color y n (x + 1) e

/-- The outer loop of `setPixels(pred, color)`: the rows `y, y + 1, ...`, `n` of
them. -/
def setPixelsRows (pred : Nat → Nat → Option Bool) (color : PixelColor) :
    Nat → Nat → PnmExporter → Outcome
  | 0, _, e => .ok e
  | n + 1, y, e =>
    (setPixelsRow pred color y e.mWidth 0 e).andThen (setPixelsRows pred color n (y + 1))

/-- The member template `setPixels(pred, color)`. -/
def setPixels (e : PnmExporter) (pred : Nat → Nat → Option Bool) (color : PixelColor) :
    Outcome :=
  setPixelsRows pred color e.mHeight 0 e

/-- The lambda of `addCircle`, with `int` parameters and `int` arithmetic. -/
def circlePred (cx cy radius : Int) (x y : Nat) : Option Bool :=
  (checkedInt (sizeToInt x - cx)).bind fun dx =>
  (checkedInt (dx * dx)).bind fun dx2 =>
  (checkedInt (sizeToInt y - cy)).bind fun dy =>
  (checkedInt (dy * dy)).bind fun dy2 =>
  (checkedInt (dx2 + dy2)).bind fun sum =>
  (checkedInt (radius * radius)).bind fun r2 =>
  some (decide (sum < r2))

/-- The member `addCircle`. -/
def addCircle (e : PnmExporter) (cx cy radius : Int) (color : PixelColor) : Outcome :=
  e.setPixels (circlePred cx cy radius) color

/-- The lambda of `addRectangle`. -/
def rectanglePred (xLeft yTop xRight yBottom : Int) (x y : Nat) : Option Bool :=
  some (decide (sizeToInt x ≥ xLeft) && decide (sizeToInt x ≤ xRight) &&
        decide (sizeToInt y ≥ yTop) && decide (sizeToInt y ≤ yBottom))

/-- The member `addRectangle`. -/
def addRectangle (e : PnmExporter) (xLeft yTop width height : Int) (color : PixelColor) :
    Outcome :=
  match checkedInt (xLeft + width), checkedInt (yTop + height) with
  | some xRight, some yBottom => e.setPixels (rectanglePred xLeft yTop xRight yBottom) color
  | _, _ => .undefined

/-! ### The encoder -/

/-- The loop of `saveAscii` from index `i` on, over the samples not yet
written. The modulus by zero is undefined behaviour. -/
def saveAsciiLoop (valuesPerRow : Nat) : Nat → List Nat → List Nat → Option (List Nat)
  | _, [], output => some output
  | i, v :: rest, output =>
    if valuesPerRow = 0 then none
    else if (i + 1) % valuesPerRow = 0 then
      saveAsciiLoop valuesPerRow (i + 1) rest
        (output ++ decimal (toUnsigned v) ++ strBytes " " ++ endl)
    else
      saveAsciiLoop valuesPerRow (i + 1) rest (output ++ decimal (toUnsigned v) ++ strBytes " ")

/-- The member `saveAscii`. -/
def saveAscii (e : PnmExporter) (output : List Nat) : Option (List Nat) :=
  saveAsciiLoop (sizeT (e.mWidth * e.getNumberOfChannels)) 0 e.mPixelData output

/-- The innermost loop of `saveBinary`, `n` iterations from `k` on:
`binData[bdPos] |= mPixelData[y * mWidth + x + k] << (upperBound - 1 - k)`.
Both accesses are unchecked. -/
def packLoop (e : PnmExporter) (y x upperBound bdPos : Nat) :
    Nat → Nat → List Nat → Option (List Nat)
  | 0, _, binData => some binData
  | n + 1, k, binData =>
    match e.mPixelData[sizeT (sizeT (sizeT (y * e.mWidth) + x) + k)]?, binData[bdPos]? with
    | some px, some byte =>
      packLoop e y x upperBound bdPos n (k + 1)
        (binData.set bdPos ((byte ||| (px <<< (upperBound - 1 - k))) % 256))
    | _, _ => none

/-- The loop over `x` of `saveBinary` (`x += 8, ++bdPos`), for row `y`. The
fuel bounds the number of byte groups; running out of it means that `x`
wrapped around and the loop cannot finish. -/
def groupLoop (e : PnmExporter) (y : Nat) :
    Nat → Nat → Nat → List Nat → Option (Nat × List Nat)
  | 0, x, bdPos, binData => if x < e.mWidth then none else some (bdPos, binData)
  | fuel + 1, x, bdPos, binData =>
    if x < e.mWidth then
      let upperBound := if e.mWidth - x > 8 then 8 else e.mWidth - x
      match packLoop e y x upperBound bdPos upperBound 0 binData with
      | none => none
      | some binData1 => groupLoop e y fuel (sizeT (x + 8)) (sizeT (bdPos + 1)) binData1
    else some (bdPos, binData)

/-- The loop over `y` of `saveBinary`, `n` rows from `y` on. -/
def rowLoop (e : PnmExporter) : Nat → Nat → Nat → List Nat → Option (List Nat)
  | 0, _, _, binData => some binData
  | n + 1, y, bdPos, binData =>
    match groupLoop e y (e.mWidth / 8 + 1) 0 bdPos binData with
    | none => none
    | some (bdPos1, binData1) => rowLoop e n (y + 1) bdPos1 binData1

/-- The packed bytes `binData` that `saveBinary` computes for `PBM_BIN`.  The
constructor of `binData` throws `std::length_error` for a size above
`max_size()`; then, as when the loops run into undefined behaviour, there are no
packed bytes (`none`). -/
def packBitmap (e : PnmExporter) : Option (List Nat) :=
  if sizeT ((e.mWidth / 8 + (if e.mWidth % 8 = 0 then 0 else 1)) * e.mHeight)
      ≤ VECTOR_MAX_SIZE then
    rowLoop e e.mHeight 0 0
      (List.replicate
        (sizeT ((e.mWidth / 8 + (if e.mWidth % 8 = 0 then 0 else 1)) * e.mHeight)) 0)
  else none

/-- The member `saveBinary`. -/
def saveBinary (e : PnmExporter) (output : List Nat) : Option (List Nat) :=
  if e.mImageType = .PBM_BIN then
    (packBitmap e).map fun binData => output ++ binData
  else
    some (output ++ e.mPixelData)

/-- The header that `save` prints before the data. -/
def saveHeader (e : PnmExporter) : List Nat :=
  let output := e.getMagicNumber ++ endl
  let output := output ++ decimal e.mWidth ++ strBytes " " ++ decimal e.mHeight ++ endl
  if e.mImageType ≠ .PBM_ASCII ∧ e.mImageType ≠ .PBM_BIN then
    output ++ decimal (toUnsigned CHANNEL_MAX) ++ endl
  else output

/-- The member `save`: the bytes inserted into the stream. -/
def save (e : PnmExporter) : Option (List Nat) :=
  if !e.isBinFormat then e.saveAscii e.saveHeader else e.saveBinary e.saveHeader

/-! ### Predicates used by the theorems -/

/-- The length invariant `len == width * height * channelCount`, the product
being the `size_t` expression of `resizePixelData`. -/
def LengthInvariant (e : PnmExporter) : Prop :=
  e.mPixelData.length = sizeT (sizeT (e.mWidth * e.mHeight) * e.getNumberOfChannels)

instance (e : PnmExporter) : Decidable (LengthInvariant e) := by
  unfold LengthInvariant; infer_instance

/-- The length invariant `len == width * height * channelCount` with the product
of the natural numbers, which no wrap-around affects. -/
def ExactLengthInvariant (e : PnmExporter) : Prop :=
  e.mPixelData.length = e.mWidth * e.mHeight * e.getNumberOfChannels

instance (e : PnmExporter) : Decidable (ExactLengthInvariant e) := by
  unfold ExactLengthInvariant; infer_instance

/-- The vector `new` is the vector `old` resized: the elements below both lengths
are kept, the elements at or beyond the old length are zero. -/
def ResizedFrom (old new : List Nat) : Prop :=
  (∀ i, i < old.length → i < new.length → new[i]? = old[i]?) ∧
    (∀ i, old.length ≤ i → i < new.length → new[i]? = some 0)

/-- The buffer `s` has the format, the dimensions and the storage length of `e`. -/
def SameShape (e s : PnmExporter) : Prop :=
  s.mImageType = e.mImageType ∧ s.mWidth = e.mWidth ∧ s.mHeight = e.mHeight ∧
    s.mPixelData.length = e.mPixelData.length

/-- The ASCII body in the words of the specification: for each row
`y = 0 .. height - 1`, the `width * channelCount` samples of the row, each as
a decimal number followed by one space, and then one line break. -/
def asciiBodySpec (e : PnmExporter) : List Nat :=
  (List.range e.mHeight).flatMap fun y =>
    ((e.mPixelData.drop (y * (e.mWidth * e.getNumberOfChannels))).take
      (e.mWidth * e.getNumberOfChannels)).flatMap (fun v => decimal v ++ strBytes " ") ++
    strBytes "\n"

/-- The value that the innermost loop of `saveBinary` leaves in one byte: `n`
iterations from `k` on, starting from `byte`, over the samples at `base + k`. -/
def orFold (data : List Nat) (base upperBound : Nat) : Nat → Nat → Nat → Nat
  | 0, _, byte => byte
  | n + 1, k, byte =>
    orFold data base upperBound n (k + 1)
      ((byte ||| (data.getD (base + k) 0 <<< (upperBound - 1 - k))) % 256)

/-- The byte of row `y`, group `g`: what the innermost loop accumulates, from
zero, over the pixels `8 * g ..` of the row. -/
def groupByte (e : PnmExporter) (y g : Nat) : Nat :=
  let upperBound := if e.mWidth - 8 * g > 8 then 8 else e.mWidth - 8 * g
  orFold e.mPixelData (y * e.mWidth + 8 * g) upperBound upperBound 0 0

/-- The number of bytes of a packed row, as `saveBinary` computes it. -/
def rowBytes (e : PnmExporter) : Nat := e.mWidth / 8 + (if e.mWidth % 8 = 0 then 0 else 1)

/-- The colour that `getPixel` reads where `setPixel` stored `color`. -/
def storedColor (e : PnmExporter) (color : PixelColor) : PixelColor :=
  if e.getNumberOfChannels = 3 then ⟨color.r, color.g, color.b, 0⟩
  else ⟨0, 0, 0, if (e.mImageType = .PBM_ASCII ∨ e.mImageType = .PBM_BIN) ∧ color.y > 1
                 then 1 else color.y⟩

/-- The buffer has one of the two bitmap formats. -/
def IsBitmap (e : PnmExporter) : Prop :=
  e.mImageType = .PBM_ASCII ∨ e.mImageType = .PBM_BIN

/-- Every stored sample is 0 or 1. -/
def BitSamples (e : PnmExporter) : Prop := ∀ v ∈ e.mPixelData, v = 0 ∨ v = 1

end PnmExporter

/-- The property `p` holds of the buffer an operation leaves behind, be it by a
normal return or by an exception. -/
def Outcome.Always (p : PnmExporter → Prop) : Outcome → Prop
  | .ok e => p e
  | .out_of_range e => p e
  | .undefined => True

/-! ### The caller of `save` -/

/-- The state of the `std::ofstream` of `save`: whether a file is open, whether
`failbit` is set, and the bytes written to the file. -/
structure OfStream where
  isOpen : Bool
  failbit : Bool
  written : List Nat
  deriving DecidableEq, Repr

/-- The constructor `std::ofstream(fileName, mode)`: `canOpen` tells whether the
file system lets the path be opened for writing.  When it does not, no file is
open and `failbit` is set.  The exception mask of the new stream is `goodbit`, and
`save` never changes it: no operation on the stream throws. -/
def OfStream.construct (canOpen : Bool) : OfStream := ⟨canOpen, !canOpen, []⟩

/-- An insertion into the stream (`operator<<`, `write`): a stream whose `failbit`
is set ignores it. -/
def OfStream.insert (s : OfStream) (bytes : List Nat) : OfStream :=
  if s.failbit then s else { s with written := s.written ++ bytes }

/-- What the caller of `save(fileName)` observes: whether an error reaches it, and
the bytes of the file that was written (`none` when no file was opened). -/
structure SaveReport where
  error : Bool
  file : Option (List Nat)
  deriving DecidableEq, Repr

/-- The member `save(fileName)` together with the file system: the insertions of
`save` go, in their order, into the stream that the constructor of
`std::ofstream` leaves.  The member has the return type `void`, holds no `throw`
and no test of the stream, and the stream throws nothing: the caller is told of
no error, whatever the state of the stream. -/
def PnmExporter.saveToPath (e : PnmExporter) (canOpen : Bool) : Option SaveReport :=
  (save e).map fun bytes =>
    let output := (OfStream.construct canOpen).insert bytes
    ⟨false, if output.isOpen then some output.written else none⟩

/-! ### The class `ArgsParser` -/

/-- The class `ArgsParser`. The `std::map` `mOptions` is the list of its entries,
at most one for a key; the modelled members do not depend on their order. -/
structure ArgsParser where
  mOptionsPrefix : Char
  mProgramName : List Char
  mOptions : List (List Char × List (List Char))
  deriving DecidableEq, Repr

/-- The result of the constructor of `ArgsParser`. -/
inductive ParseOutcome where
  | ok (p : ArgsParser)
  | invalid_argument
  deriving DecidableEq, Repr

namespace ArgsParser

/-- The call `m.find(key)` of `std::map`: the mapped value, `none` for `end()`. -/
def mapFind (m : List (List Char × List (List Char))) (key : List Char) :
    Option (List (List Char)) :=
  match m with
  | [] => none
  | (k, v) :: rest => if k = key then some v else mapFind rest key

/-- The call `m.insert({key, value})` of `std::map`: without effect when the key
is present. -/
def mapInsert (m : List (List Char × List (List Char))) (key : List Char)
    (value : List (List Char)) : List (List Char × List (List Char)) :=
  match mapFind m key with
  | some _ => m
  | none => m ++ [(key, value)]

/-- The loop of `initOptionsMap` over `argv[i]`, `argv[i + 1]`, ..., and the
insertion after it; `none` is the exception `std::invalid_argument`. -/
def initLoop (optionsPrefix : Char) :
    List (List Char) → List Char → List (List Char) →
      List (List Char × List (List Char)) → Option (List (List Char × List (List Char)))
  | [], lastOption, lastOptionArgs, mOptions => some (mapInsert mOptions lastOption lastOptionArgs)
  | tmp :: rest, lastOption, lastOptionArgs, mOptions =>
    match tmp with
    | [] => none
    | c :: _ =>
      if c = optionsPrefix then
        initLoop optionsPrefix rest tmp []
          (if lastOption ≠ [] then mapInsert mOptions lastOption lastOptionArgs else mOptions)
      else if lastOption = [] then none
      else initLoop optionsPrefix rest lastOption (lastOptionArgs ++ [tmp]) mOptions

/-- The member `initOptionsMap`, on `argv[1 ..]`. -/
def initOptionsMap (optionsPrefix : Char) (args : List (List Char)) :
    Option (List (List Char × List (List Char))) :=
  initLoop optionsPrefix args [] [] []

/-- The constructor `ArgsParser(argc, argv, optionsPrefix)`, with `argc` the
length of `argv`. -/
def create (argv : List (List Char)) (optionsPrefix : Char) : ParseOutcome :=
  match argv with
  | [] => .invalid_argument
  | programName :: args =>
    match initOptionsMap optionsPrefix args with
    | none => .invalid_argument
    | some mOptions => .ok ⟨optionsPrefix, programName, mOptions⟩

/-- The loop of `containsOnlyValidOptions` over the entries of `mOptions`. -/
def validLoop (allowedOptions : List (List Char)) :
    List (List Char × List (List Char)) → Bool
  | [] => true
  | foundOpt :: rest => if foundOpt.1 ∈ allowedOptions then validLoop allowedOptions rest else false

/-- The member `containsOnlyValidOptions`; the `std::set` is the list of its
elements. -/
def containsOnlyValidOptions (p : ArgsParser) (allowedOptions : List (List Char)) : Bool :=
  validLoop allowedOptions p.mOptions

/-- The member `getProgramName`. -/
def getProgramName (p : ArgsParser) : List Char := p.mProgramName

/-- The member `getOption(optionName)`. -/
def getOption (p : ArgsParser) (optionName : List Char) : Bool :=
  (mapFind p.mOptions optionName).isSome

/-- The member `getOption(optionName, optionArgs)`: the result and the new value
of `optionArgs`. -/
def getOptionArgs (p : ArgsParser) (optionName : List Char) (optionArgs : List (List Char)) :
    Bool × List (List Char) :=
  match mapFind p.mOptions optionName with
  | none => (false, optionArgs)
  | some args => (true, args)

/-- The call `s.substr(pos)` of `std::string`; `none` is `std::out_of_range`. -/
def substrFrom (s : List Char) (pos : Nat) : Option (List Char) :=
  if pos > s.length then none else some (s.drop pos)

/-- The loop over the characters of one argument in
`getOption(optionName, optionArgs, valueDelim)`, from index `i` on: the final
`lastDelimPos` and `optionArgs`. -/
def delimLoop (valueDelim : Char) :
    List Char → Nat → Nat → List Char → List (List Char) → Nat × List (List Char)
  | [], _, lastDelimPos, _, optionArgs => (lastDelimPos, optionArgs)
  | c :: rest, i, lastDelimPos, tmp, optionArgs =>
    if c = valueDelim then delimLoop valueDelim rest (i + 1) i [] (optionArgs ++ [tmp])
    else delimLoop valueDelim rest (i + 1) lastDelimPos (tmp ++ [c]) optionArgs

/-- The loop over the arguments of the option in
`getOption(optionName, optionArgs, valueDelim)`. -/
def delimArgs (valueDelim : Char) :
    List (List Char) → List (List Char) → Option (List (List Char))
  | [], optionArgs => some optionArgs
  | opt :: rest, optionArgs =>
    match delimLoop valueDelim opt 0 0 [] optionArgs with
    | (lastDelimPos, optionArgs1) =>
      if lastDelimPos ≠ sizeT (opt.length + SIZE_MOD - 1) then
        match substrFrom opt (sizeT (lastDelimPos + 1)) with
        | none => none
        | some piece => delimArgs valueDelim rest (optionArgs1 ++ [piece])
      else delimArgs valueDelim rest optionArgs1

/-- The member `getOption(optionName, optionArgs, valueDelim)`: the result and
the new value of `optionArgs`; `none` is an exception of `substr`. -/
def getOptionDelim (p : ArgsParser) (optionName : List Char) (optionArgs : List (List Char))
    (valueDelim : Char) : Option (Bool × List (List Char)) :=
  match mapFind p.mOptions optionName with
  | none => some (false, optionArgs)
  | some args => (delimArgs valueDelim args []).map fun out => (true, out)

end ArgsParser


/-- The command line of the unit test of `ArgsParser`. -/
def argvComplete : List (List Char) :=
  ["program.exe".toList, "/files".toList, "inFile1;inFile2;inFile3".toList,
    "oFile1;oFile2;oFile3".toList, "/testFlag".toList]

/-- The parser of the unit test of `ArgsParser`. -/
def parsedComplete : ArgsParser :=
  ⟨'/', "program.exe".toList,
    [("/files".toList, ["inFile1;inFile2;inFile3".toList, "oFile1;oFile2;oFile3".toList]),
      ("/testFlag".toList, [])]⟩

/-- The options of a command line in the words of the specification: its
prefixed arguments. -/
def optionsOf (optionsPrefix : Char) (args : List (List Char)) : List (List Char) :=
  args.filter fun a => a.head? = some optionsPrefix


/-! ### The function `parseString` -/

/-- The constant `std::string::npos`. -/
def NPOS : Nat := SIZE_MOD - 1

/-- The search of `std::string::find` through the characters `rest` that start
at position `pos`: the first position where `str` begins, `NPOS` if there is none. -/
def findFrom (str : List Char) : List Char → Nat → Nat
  | [], pos => if str.isPrefixOf [] then pos else NPOS
  | c :: rest, pos => if str.isPrefixOf (c :: rest) then pos else findFrom str rest (pos + 1)

/-- The call `input.find(str, pos)` of `std::string`. -/
def stringFind (input str : List Char) (pos : Nat) : Nat :=
  if pos > input.length then NPOS else findFrom str (input.drop pos) pos

/-- The call `input.substr(pos, count)` of `std::string`; `none` is
`std::out_of_range`. -/
def substr (input : List Char) (pos count : Nat) : Option (List Char) :=
  if pos > input.length then none else some ((input.drop pos).take count)

/-- The lambda `findMinDelimPos` of `parseString`, with `currPos.first` as an
argument: the pair `(minPos, minPosDelLength)`. -/
def findMinDelimPos (input : List Char) (delimiters : List (List Char)) (currFirst : Nat) :
    Nat × Nat :=
  delimiters.foldl
    (fun acc str =>
      let pos := stringFind input str currFirst
      if pos < acc.1 then (pos, str.length) else acc)
    (NPOS, 0)

/-- The `while` loop of `parseString` and the statements after it, with the number
of rounds bounded by the fuel; `none` when `substr` throws or the fuel is used up. -/
def parseLoop (input : List Char) (delimiters : List (List Char)) :
    Nat → Nat → Nat → List (List Char) → Option (List (List Char))
  | 0, _, _, _ => none
  | fuel + 1, currFirst, lastPos, result =>
    let currPos := findMinDelimPos input delimiters currFirst
    if currPos.1 ≠ NPOS then
      match substr input lastPos (sizeT (currPos.1 + SIZE_MOD - lastPos)) with
      | none => none
      | some token =>
        let first := sizeT (currPos.1 + currPos.2)
        parseLoop input delimiters fuel first first (result ++ [token])
    else
      match substr input lastPos (sizeT (currPos.1 + SIZE_MOD - lastPos)) with
      | none => none
      | some residual => some (if residual ≠ [] then result ++ [residual] else result)

/-- The function `parseString`; the loop gets one round for each position of the
input and one more. -/
def parseString (input : List Char) (delimiters : List (List Char)) :
    Option (List (List Char)) :=
  parseLoop input delimiters (input.length + 1) 0 0 []

/-- The string `str` begins at position `p` of `input`. -/
def OccursAt (input str : List Char) (p : Nat) : Prop :=
  p ≤ input.length ∧ str <+: input.drop p

instance (input str : List Char) (p : Nat) : Decidable (OccursAt input str p) := by
  unfold OccursAt; infer_instance

/-- The splitting in the words of the specification: `Splits input delimiters start ts`
says that `ts` are the tokens of `input` from position `start` on, where each token
ends at the smallest position at or after its start where any delimiter begins, the
next token starts behind a delimiter that begins there, and what is left once no
delimiter begins any more is the last token, unless it is empty. -/
inductive Splits (input : List Char) (delimiters : List (List Char)) :
    Nat → List (List Char) → Prop where
  | residual (start : Nat)
      (hnone : ∀ d ∈ delimiters, ∀ q, start ≤ q → ¬ OccursAt input d q) :
      Splits input delimiters start (if input.drop start ≠ [] then [input.drop start] else [])
  | token (start p : Nat) (d : List Char) (rest : List (List Char))
      (hstart : start ≤ p) (hd : d ∈ delimiters) (hocc : OccursAt input d p)
      (hmin : ∀ e ∈ delimiters, ∀ q, start ≤ q → q < p → ¬ OccursAt input e q)
      (hrest : Splits input delimiters (p + d.length) rest) :
      Splits input delimiters start ((input.drop start).take (p - start) :: rest)

/-! ### The function `genPermutations` -/

/-- The function `genPermutations` with the depth of the recursion bounded by the
fuel; no permutations are returned where the fuel is used up. -/
def genPermutationsFuel {T : Type} : Nat → List T → List (List T)
  | 0, possibleValues => if possibleValues.length ≤ 1 then [possibleValues] else []
  | fuel + 1, possibleValues =>
    if possibleValues.length ≤ 1 then [possibleValues]
    else
      (List.range possibleValues.length).flatMap fun i =>
        match possibleValues[i]? with
        | none => []
        | some x =>
          (genPermutationsFuel fuel (possibleValues.eraseIdx i)).map fun vct => x :: vct

/-- The function `genPermutations`: each call of the recursion is on a vector that
is one element shorter, so the size of the vector is enough fuel. -/
def genPermutations {T : Type} (possibleValues : List T) : List (List T) :=
  genPermutationsFuel possibleValues.length possibleValues

/-! ### The function `genCombinations` -/

/-- The loop `for (int j = ...; j >= 0; --j) localCopy.erase(localCopy.begin() + j)`
of `genCombinations` with `j + 1` rounds to go; `none` is an `erase` at or past the
end. -/
def eraseLoop {T : Type} : Nat → List T → Option (List T)
  | 0, localCopy => some localCopy
  | j + 1, localCopy =>
    if j < localCopy.length then eraseLoop j (localCopy.eraseIdx j) else none

/-- The vector `localCopy` of round `i` of `genCombinations` after the loop that
erases the preceding values, which starts at `static_cast<int>(i) - allowRepetition`;
`none` when the subtraction overflows or an `erase` is past the end. -/
def erasePreceding {T : Type} (possibleValues : List T) (i : Nat) (allowRepetition : Bool) :
    Option (List T) :=
  match checkedInt (sizeToInt i - (if allowRepetition then 1 else 0)) with
  | none => none
  | some j => if j < 0 then some possibleValues else eraseLoop (j.toNat + 1) possibleValues

/-- The loop over `i` of `genCombinations`, from index `i` on, where `remaining` are
the values `possibleValues[i ..]` and `recurse` is the recursive call. -/
def combLoop {T : Type} (recurse : List T → Option (List (List T))) (possibleValues : List T)
    (allowRepetition : Bool) : List T → Nat → List (List T) → Option (List (List T))
  | [], _, result => some result
  | x :: remaining, i, result =>
    match erasePreceding possibleValues i allowRepetition with
    | none => none
    | some localCopy =>
      match recurse localCopy with
      | none => none
      | some restPerm =>
        combLoop recurse possibleValues allowRepetition remaining (i + 1)
          (result ++ restPerm.map fun vct => x :: vct)

/-- The function `genCombinations` with the depth of the recursion bounded by the
fuel; `none` when the behaviour is undefined or the fuel is used up. -/
def genCombinationsFuel {T : Type} : Nat → List T → Nat → Bool → Option (List (List T))
  | 0, possibleValues, k, allowRepetition =>
    if k = 1 then some (possibleValues.map fun el => [el])
    else combLoop (fun _ => none) possibleValues allowRepetition possibleValues 0 []
  | fuel + 1, possibleValues, k, allowRepetition =>
    if k = 1 then some (possibleValues.map fun el => [el])
    else
      combLoop (fun localCopy =>
          genCombinationsFuel fuel localCopy (sizeT (k + SIZE_MOD - 1)) allowRepetition)
        possibleValues allowRepetition possibleValues 0 []

/-- The function `genCombinations`.  For `k >= 1` the recursion goes `k - 1` calls
deep.  For `k = 0`, where `k - 1` wraps around to `2 ^ 64 - 1`, it goes on until
the vector is empty, which without repetition takes at most `size()` calls; with
repetition the vector does not shrink, and on a vector that is not empty the
recursion is still running after `size()` calls (`none`).  So `size() + k` is
enough fuel wherever the function returns. -/
def genCombinations {T : Type} (possibleValues : List T) (k : Nat) (allowRepetition : Bool) :
    Option (List (List T)) :=
  genCombinationsFuel (possibleValues.length + k) possibleValues k allowRepetition

/-- The rounds of `genCombinations` in closed form: the value at the front is put
before every result `rest` gives for the values from it on (with repetition) or
behind it (without). -/
def combRows {T : Type} (rest : List T → List (List T)) (allowRepetition : Bool) :
    List T → List (List T)
  | [] => []
  | x :: r =>
    ((rest (if allowRepetition then x :: r else r)).map fun vct => x :: vct)
      ++ combRows rest allowRepetition r

/-- The result of `genCombinations` for `k = m + 1` in closed form. -/
def combs {T : Type} (allowRepetition : Bool) : Nat → List T → List (List T)
  | 0 => fun xs => xs.map fun el => [el]
  | m + 1 => combRows (combs allowRepetition m) allowRepetition

/-- The tuples of the specification: `c` consists of the values of `xs` at the
indices `idx`. -/
def TakenAt {T : Type} (xs : List T) (idx : List Nat) (c : List T) : Prop :=
  idx.map (fun i => xs[i]?) = c.map some

/-! ### The standard packing and a decoder -/

/-- The standard byte of a group of up to eight pixels: the pixel at offset `k` is
bit `7 - k`, the most significant bit first, and the missing pixels are zero. -/
def msbFirstByte (bits : List Nat) : Nat :=
  ((List.range 8).map fun k => bits.getD k 0 * 2 ^ (7 - k)).sum

/-- The standard packing of the rows of a bitmap, in the words of the specification:
each row is cut into groups of eight horizontally consecutive pixels, every group is
one byte, most significant bit first. -/
def msbFirstPacking (e : PnmExporter) : List Nat :=
  (List.range e.mHeight).flatMap fun y =>
    (List.range e.rowBytes).map fun g =>
      msbFirstByte ((((e.mPixelData.drop (y * e.mWidth)).take e.mWidth).drop (8 * g)).take 8)

/-- A decoder of the packed body that `saveBinary` writes: the pixel `x` of row `y` is
read from the byte of its group, at the bit where the encoder put it. -/
def unpackBitmap (width height : Nat) (body : List Nat) : List Nat :=
  (List.range (width * height)).map fun i =>
    body.getD (i / width * (width / 8 + (if width % 8 = 0 then 0 else 1)) + i % width / 8) 0
      / 2 ^ (min 8 (width - 8 * (i % width / 8)) - 1 - i % width % 8) % 2

/-! ### Reading an ASCII body -/

/-- The splitting of a text at spaces (byte 32) and line breaks (byte 10): the
tokens after the ones already closed, where `current` is the token being read. Empty
tokens are dropped. -/
def splitTokensFrom : List Nat → List Nat → List (List Nat)
  | current, [] => if current = [] then [] else [current]
  | current, b :: rest =>
    if b = 32 ∨ b = 10 then
      if current = [] then splitTokensFrom [] rest else current :: splitTokensFrom [] rest
    else splitTokensFrom (current ++ [b]) rest

/-- The non-empty tokens of a text, split at spaces and line breaks. -/
def splitTokens (text : List Nat) : List (List Nat) := splitTokensFrom [] text

/-- The number that a token of decimal digits denotes. -/
def readDecimal (token : List Nat) : Nat :=
  token.foldl (fun acc digit => 10 * acc + (digit - 48)) 0

/-- The reading of an ASCII body in the words of the specification: split at spaces
and line breaks, every non-empty token read as a decimal number. -/
def parseAsciiBody (body : List Nat) : List Nat := (splitTokens body).map readDecimal

/-! ## Theorems -/

open PnmExporter

/-! ### The format tag -/

/-- Claim C5: `getMagicNumber` gives `P1` .. `P6` for the six format tags in
enumeration order, and two buffers have the same magic number exactly when
they have the same format tag. -/
theorem C5_getMagicNumber_bijective (e : PnmExporter) :
    e.getMagicNumber = (match e.mImageType with
      | .PBM_ASCII => strBytes "P1"
      | .PGM_ASCII => strBytes "P2"
      | .PPM_ASCII => strBytes "P3"
      | .PBM_BIN => strBytes "P4"
      | .PGM_BIN => strBytes "P5"
      | .PPM_BIN => strBytes "P6") ∧
    ∀ e2 : PnmExporter, e.getMagicNumber = e2.getMagicNumber ↔ e.mImageType = e2.mImageType := by
  obtain ⟨t, w, h, d⟩ := e
  constructor
  · cases t <;> simp only [getMagicNumber] <;> decide
  · rintro ⟨t2, w2, h2, d2⟩
    cases t <;> cases t2 <;> simp only [getMagicNumber] <;> decide

/-- Claim C8: `swapBtwnASCIIandBIN` applied twice gives back the original
format tag (indeed the original buffer). -/
theorem C8_swap_twice (e : PnmExporter) :
    e.swapBtwnASCIIandBIN.swapBtwnASCIIandBIN.getImageType = e.getImageType ∧
    e.swapBtwnASCIIandBIN.swapBtwnASCIIandBIN = e := by
  obtain ⟨t, w, h, d⟩ := e
  cases t <;> exact ⟨rfl, rfl⟩

/-- Claim C9: `swapBtwnASCIIandBIN` gives the other encoding of the same image
kind, so `isBinFormat` flips and `getNumberOfChannels` stays, and it leaves the
width, the height and the pixel data as they are. -/
theorem C9_swap_other_encoding (e : PnmExporter) :
    e.swapBtwnASCIIandBIN.mImageType = (match e.mImageType with
      | .PBM_ASCII => .PBM_BIN
      | .PGM_ASCII => .PGM_BIN
      | .PPM_ASCII => .PPM_BIN
      | .PBM_BIN => .PBM_ASCII
      | .PGM_BIN => .PGM_ASCII
      | .PPM_BIN => .PPM_ASCII) ∧
    e.swapBtwnASCIIandBIN.isBinFormat = !e.isBinFormat ∧
    e.swapBtwnASCIIandBIN.getNumberOfChannels = e.getNumberOfChannels ∧
    e.swapBtwnASCIIandBIN.mWidth = e.mWidth ∧
    e.swapBtwnASCIIandBIN.mHeight = e.mHeight ∧
    e.swapBtwnASCIIandBIN.mPixelData = e.mPixelData := by
  obtain ⟨t, w, h, d⟩ := e
  cases t <;> exact ⟨rfl, rfl, rfl, rfl, rfl, rfl⟩

/-! ### The length invariant -/

/-- The length after a `resize(n)` that returns is `n`. -/
theorem resizedElements_length (v : List Nat) (n : Nat) : (resizedElements v n).length = n := by
  simp only [resizedElements, List.length_append, List.length_take, List.length_replicate]
  omega

/-- A `resize(n)` with `n` at most `max_size()` returns. -/
theorem vectorResize_of_le (v : List Nat) {n : Nat} (h : n ≤ VECTOR_MAX_SIZE) :
    vectorResize v n = some (resizedElements v n) := if_pos h

/-- A `resize(n)` with `n` above `max_size()` throws. -/
theorem vectorResize_of_gt (v : List Nat) {n : Nat} (h : VECTOR_MAX_SIZE < n) :
    vectorResize v n = none := if_neg (Nat.not_le.mpr h)

/-- The member `resizePixelData` returns when the `size_t` product is at most
`max_size()`: the storage then has that many samples. -/
theorem resizePixelData_of_le (e : PnmExporter)
    (h : sizeT (sizeT (e.mWidth * e.mHeight) * e.getNumberOfChannels) ≤ VECTOR_MAX_SIZE) :
    resizePixelData e = .ok { e with mPixelData := (resizedElements e.mPixelData
      (sizeT (sizeT (e.mWidth * e.mHeight) * e.getNumberOfChannels))) } := by
  simp only [resizePixelData, vectorResize_of_le _ h]

/-- The member `resizePixelData` throws when the `size_t` product is above
`max_size()`: the object is left as it was. -/
theorem resizePixelData_of_gt (e : PnmExporter)
    (h : VECTOR_MAX_SIZE < sizeT (sizeT (e.mWidth * e.mHeight) * e.getNumberOfChannels)) :
    resizePixelData e = .length_error e := by
  simp only [resizePixelData, vectorResize_of_gt _ h]

/-- The object after `resizePixelData`: the storage is resized to the `size_t`
product, or the call threw and nothing changed. -/
theorem resizePixelData_state (e : PnmExporter) :
    (resizePixelData e).state = { e with mPixelData := (resizedElements e.mPixelData
        (sizeT (sizeT (e.mWidth * e.mHeight) * e.getNumberOfChannels))) } ∨
      (resizePixelData e).state = e := by
  by_cases h : sizeT (sizeT (e.mWidth * e.mHeight) * e.getNumberOfChannels) ≤ VECTOR_MAX_SIZE
  · left; rw [resizePixelData_of_le e h]; rfl
  · right; rw [resizePixelData_of_gt e (Nat.not_le.mp h)]; rfl

/-- A call of `resizePixelData` that returns establishes the length invariant of
the `size_t` product. -/
theorem resizePixelData_invariant (e s : PnmExporter) (h : resizePixelData e = .ok s) :
    LengthInvariant s := by
  by_cases hle : sizeT (sizeT (e.mWidth * e.mHeight) * e.getNumberOfChannels) ≤ VECTOR_MAX_SIZE
  · rw [resizePixelData_of_le e hle] at h
    injection h with h
    subst h
    simp only [LengthInvariant, resizedElements_length, getNumberOfChannels]
  · rw [resizePixelData_of_gt e (Nat.not_le.mp hle)] at h
    cases h

/-- A product of dimensions within `max_size()` is its own `size_t` value. -/
theorem sizeT_product {w h c : Nat} (hc : 1 ≤ c) (hle : w * h * c ≤ VECTOR_MAX_SIZE) :
    sizeT (sizeT (w * h) * c) = w * h * c := by
  have hm : VECTOR_MAX_SIZE < SIZE_MOD := by decide
  have hwh : w * h < SIZE_MOD := lt_of_le_of_lt (Nat.le_mul_of_pos_right _ hc) (by omega)
  rw [sizeT, sizeT, Nat.mod_eq_of_lt hwh, Nat.mod_eq_of_lt (by omega)]

/-- A call of `resizePixelData` whose product of dimensions is at most
`max_size()` returns and leaves exactly that many samples. -/
theorem resizePixelData_exact (e : PnmExporter)
    (hle : e.mWidth * e.mHeight * e.getNumberOfChannels ≤ VECTOR_MAX_SIZE) :
    ∃ s, resizePixelData e = .ok s ∧ s.mImageType = e.mImageType ∧ s.mWidth = e.mWidth ∧
      s.mHeight = e.mHeight ∧
      s.mPixelData = resizedElements e.mPixelData (e.mWidth * e.mHeight * e.getNumberOfChannels) ∧
      ExactLengthInvariant s := by
  have hch : 1 ≤ e.getNumberOfChannels := by
    unfold getNumberOfChannels; split <;> omega
  have hp := sizeT_product hch hle
  refine ⟨_, resizePixelData_of_le e (by rw [hp]; exact hle), rfl, rfl, rfl, by rw [hp], ?_⟩
  show (resizedElements e.mPixelData
    (sizeT (sizeT (e.mWidth * e.mHeight) * e.getNumberOfChannels))).length =
      e.mWidth * e.mHeight * e.getNumberOfChannels
  rw [resizedElements_length, hp]

/-- The elements after resizing the empty vector are zeros. -/
theorem resizedElements_nil (n : Nat) : resizedElements [] n = List.replicate n 0 := by
  simp [resizedElements]

/-- The constructor, when the `size_t` product is at most `max_size()`: it
returns the buffer with the arguments as members and that many zero samples. -/
theorem create_of_le (width height : Nat) (type : PnmImageType)
    (h : sizeT (sizeT (width * height) * (if type = .PPM_ASCII ∨ type = .PPM_BIN then 3 else 1))
      ≤ VECTOR_MAX_SIZE) :
    create width height type = .ok ⟨type, width, height,
      List.replicate (sizeT (sizeT (width * height) *
        (if type = .PPM_ASCII ∨ type = .PPM_BIN then 3 else 1))) 0⟩ := by
  have h2 := resizePixelData_of_le ⟨type, width, height, []⟩ h
  simp only [create, h2, resizedElements_nil]
  rfl

/-- The constructor, when the `size_t` product is above `max_size()`: it throws
`std::length_error`. -/
theorem create_of_gt (width height : Nat) (type : PnmImageType)
    (h : VECTOR_MAX_SIZE <
      sizeT (sizeT (width * height) * (if type = .PPM_ASCII ∨ type = .PPM_BIN then 3 else 1))) :
    create width height type = .length_error := by
  have h2 := resizePixelData_of_gt ⟨type, width, height, []⟩ h
  simp only [create, h2]

/-- The constructor, when the product of the dimensions is at most `max_size()`:
it returns the buffer with exactly that many zero samples. -/
theorem create_exact (width height : Nat) (type : PnmImageType)
    (h : width * height * (if type = .PPM_ASCII ∨ type = .PPM_BIN then 3 else 1)
      ≤ VECTOR_MAX_SIZE) :
    create width height type = .ok ⟨type, width, height,
      List.replicate (width * height *
        (if type = .PPM_ASCII ∨ type = .PPM_BIN then 3 else 1)) 0⟩ := by
  have hch : 1 ≤ (if type = .PPM_ASCII ∨ type = .PPM_BIN then 3 else 1) := by split <;> omega
  have hp := sizeT_product hch h
  have := create_of_le width height type (by rw [hp]; exact h)
  rw [hp] at this
  exact this

/-- Every buffer has its own shape. -/
theorem sameShape_refl (e : PnmExporter) : SameShape e e := ⟨rfl, rfl, rfl, rfl⟩

/-- Having the same shape is transitive. -/
theorem sameShape_trans {a b c : PnmExporter} (h1 : SameShape a b) (h2 : SameShape b c) :
    SameShape a c :=
  ⟨h2.1.trans h1.1, h2.2.1.trans h1.2.1, h2.2.2.1.trans h1.2.2.1, h2.2.2.2.trans h1.2.2.2⟩

/-- The length invariant depends on the shape only. -/
theorem sameShape_invariant {e s : PnmExporter} (h : SameShape e s) (hi : LengthInvariant e) :
    LengthInvariant s := by
  obtain ⟨h1, h2, h3, h4⟩ := h
  simp only [LengthInvariant, getNumberOfChannels] at hi ⊢
  rw [h1, h2, h3, h4]; exact hi

/-- A weaker property holds of the same outcome. -/
theorem always_mono {p q : PnmExporter → Prop} (h : ∀ s, p s → q s) {o : Outcome}
    (ho : o.Always p) : o.Always q := by
  cases o with
  | ok e => exact h e ho
  | out_of_range e => exact h e ho
  | undefined => trivial

/-- A property that every step keeps holds after two steps in sequence. -/
theorem always_andThen {p q : PnmExporter → Prop} {o : Outcome} {f : PnmExporter → Outcome}
    (ho : o.Always p) (hpq : ∀ s, p s → q s) (hf : ∀ s, p s → (f s).Always q) :
    (o.andThen f).Always q := by
  cases o with
  | ok e => exact hf e ho
  | out_of_range e => exact hpq e ho
  | undefined => trivial

/-- The member `setPixel` keeps the shape, also when it throws. -/
theorem setPixel_sameShape (e : PnmExporter) (x y : Nat) (color : PixelColor) :
    (e.setPixel x y color).Always (SameShape e) := by
  unfold setPixel
  split
  · simp only []
    split
    · split
      · simp [Outcome.Always, SameShape]
      · trivial
    · exact sameShape_refl e
  · simp only []
    split
    · simp [Outcome.Always, SameShape]
    · exact sameShape_refl e

/-- The inner loop of `setPixels(pred, color)` keeps the shape. -/
theorem setPixelsRow_sameShape (pred : Nat → Nat → Option Bool) (color : PixelColor) (y : Nat)
    (n x : Nat) (e : PnmExporter) :
    (setPixelsRow pred color y n x e).Always (SameShape e) := by
  induction n generalizing x e with
  | zero => exact sameShape_refl e
  | succ n ih =>
    simp only [setPixelsRow]
    split
    · trivial
    · exact always_andThen (setPixel_sameShape e x y color) (fun _ h => h)
        (fun s hs => always_mono (fun _ h => sameShape_trans hs h) (ih (x + 1) s))
    · exact ih (x + 1) e

/-- The outer loop of `setPixels(pred, color)` keeps the shape. -/
theorem setPixelsRows_sameShape (pred : Nat → Nat → Option Bool) (color : PixelColor)
    (n y : Nat) (e : PnmExporter) :
    (setPixelsRows pred color n y e).Always (SameShape e) := by
  induction n generalizing y e with
  | zero => exact sameShape_refl e
  | succ n ih =>
    simp only [setPixelsRows]
    exact always_andThen (setPixelsRow_sameShape pred color y e.mWidth 0 e) (fun _ h => h)
      (fun s hs => always_mono (fun _ h => sameShape_trans hs h) (ih (y + 1) s))

/-- The member `setPixels(pred, color)` keeps the shape. -/
theorem setPixels_sameShape (e : PnmExporter) (pred : Nat → Nat → Option Bool)
    (color : PixelColor) : (e.setPixels pred color).Always (SameShape e) :=
  setPixelsRows_sameShape pred color e.mHeight 0 e

/-- The member `addRectangle` keeps the shape. -/
theorem addRectangle_sameShape (e : PnmExporter) (xLeft yTop width height : Int)
    (color : PixelColor) :
    (e.addRectangle xLeft yTop width height color).Always (SameShape e) := by
  unfold addRectangle
  split
  · exact setPixels_sameShape e _ color
  · trivial

/-- The exact length invariant depends on the shape only. -/
theorem sameShape_exactInvariant {e s : PnmExporter} (h : SameShape e s)
    (hi : ExactLengthInvariant e) : ExactLengthInvariant s := by
  obtain ⟨h1, h2, h3, h4⟩ := h
  simp only [ExactLengthInvariant, getNumberOfChannels] at hi ⊢
  rw [h1, h2, h3, h4]; exact hi

/-- Claim C10 (amended): a constructor call whose product `width * height *
channelCount` is at most `max_size()` returns a buffer with the length invariant
`len == width * height * channelCount`; on a buffer that satisfies the invariant,
`setWidth` and `setHeight` return and keep it whenever the product of the new
dimensions is at most `max_size()`, `setPixelData` returns and keeps it, and
`swapBtwnASCIIandBIN`, `clear`, `setPixel`, both `setPixels`, `addCircle` and
`addRectangle` keep it, whether they return or throw.  In every case a
constructor or resizing call that returns leaves the length equal to the
`size_t` value of the product, which is the product itself when that is at most
`max_size()`. -/
theorem C10_length_invariant (e : PnmExporter) (h : ExactLengthInvariant e)
    (hsz : e.mPixelData.length ≤ VECTOR_MAX_SIZE) :
    (∀ width height type,
      width * height * (PnmExporter.mk type width height []).getNumberOfChannels
          ≤ VECTOR_MAX_SIZE →
        ∃ s, create width height type = .ok s ∧ ExactLengthInvariant s) ∧
    (∀ width, width * e.mHeight * e.getNumberOfChannels ≤ VECTOR_MAX_SIZE →
      ∃ s, e.setWidth width = .ok s ∧ ExactLengthInvariant s) ∧
    (∀ height, e.mWidth * height * e.getNumberOfChannels ≤ VECTOR_MAX_SIZE →
      ∃ s, e.setHeight height = .ok s ∧ ExactLengthInvariant s) ∧
    (∀ pixelData, ∃ s, e.setPixelData pixelData = .ok s ∧ ExactLengthInvariant s) ∧
    ExactLengthInvariant e.swapBtwnASCIIandBIN ∧
    ExactLengthInvariant e.clear ∧
    (∀ x y color, (e.setPixel x y color).Always ExactLengthInvariant) ∧
    (∀ color, ExactLengthInvariant (e.setPixelsAll color)) ∧
    (∀ pred color, (e.setPixels pred color).Always ExactLengthInvariant) ∧
    (∀ cx cy radius color, (e.addCircle cx cy radius color).Always ExactLengthInvariant) ∧
    (∀ xLeft yTop width height color,
      (e.addRectangle xLeft yTop width height color).Always ExactLengthInvariant) ∧
    (∀ width height type s, create width height type = .ok s → LengthInvariant s) ∧
    (∀ width s, e.setWidth width = .ok s → LengthInvariant s) ∧
    (∀ height s, e.setHeight height = .ok s → LengthInvariant s) ∧
    (∀ pixelData s, e.setPixelData pixelData = .ok s → LengthInvariant s) ∧
    (∀ width height type s, create width height type = .ok s →
      width * height * (PnmExporter.mk type width height []).getNumberOfChannels
          ≤ VECTOR_MAX_SIZE → ExactLengthInvariant s) ∧
    (∀ width s, e.setWidth width = .ok s →
      width * e.mHeight * e.getNumberOfChannels ≤ VECTOR_MAX_SIZE → ExactLengthInvariant s) ∧
    (∀ height s, e.setHeight height = .ok s →
      e.mWidth * height * e.getNumberOfChannels ≤ VECTOR_MAX_SIZE → ExactLengthInvariant s) ∧
    (∀ pixelData s, e.setPixelData pixelData = .ok s → ExactLengthInvariant s) := by
  have hcreate : ∀ width height type,
      width * height * (PnmExporter.mk type width height []).getNumberOfChannels
          ≤ VECTOR_MAX_SIZE →
        ∃ s, create width height type = .ok s ∧ ExactLengthInvariant s := by
    intro width height type hle
    obtain ⟨s, hs, _, _, _, _, hex⟩ := resizePixelData_exact ⟨type, width, height, []⟩ hle
    exact ⟨s, by simp only [create, hs], hex⟩
  have hresize : ∀ b : PnmExporter,
      b.mWidth * b.mHeight * b.getNumberOfChannels ≤ VECTOR_MAX_SIZE →
        ∃ s, resizePixelData b = .ok s ∧ ExactLengthInvariant s := by
    intro b hle
    obtain ⟨s, hs, _, _, _, _, hex⟩ := resizePixelData_exact b hle
    exact ⟨s, hs, hex⟩
  have hdata : ∀ pixelData : List Nat,
      ∃ s, e.setPixelData pixelData = .ok s ∧ ExactLengthInvariant s := by
    intro pixelData
    exact hresize { e with mPixelData := pixelData }
      (by show e.mWidth * e.mHeight * e.getNumberOfChannels ≤ VECTOR_MAX_SIZE
          rw [← h]; exact hsz)
  have huniq : ∀ (b s : PnmExporter), resizePixelData b = .ok s →
      (∃ s2, resizePixelData b = .ok s2 ∧ ExactLengthInvariant s2) → ExactLengthInvariant s := by
    intro b s hs ⟨s2, hs2, hex⟩
    rw [hs] at hs2
    injection hs2 with hs2
    rw [hs2]
    exact hex
  have lift : ∀ o : Outcome, o.Always (SameShape e) → o.Always ExactLengthInvariant :=
    fun o ho => always_mono (fun s hs => sameShape_exactInvariant hs h) ho
  refine ⟨hcreate, fun width hle => hresize { e with mWidth := width } hle,
    fun height hle => hresize { e with mHeight := height } hle, hdata, ?_, ?_,
    fun x y c => lift _ (setPixel_sameShape e x y c), ?_,
    fun p c => lift _ (setPixels_sameShape e p c),
    fun cx cy r c => lift _ (setPixels_sameShape e _ c),
    fun a b c d col => lift _ (addRectangle_sameShape e a b c d col), ?_,
    fun _ s hs => resizePixelData_invariant _ s hs,
    fun _ s hs => resizePixelData_invariant _ s hs,
    fun _ s hs => resizePixelData_invariant _ s hs, ?_,
    fun width s hs hle => huniq _ s hs (hresize { e with mWidth := width } hle),
    fun height s hs hle => huniq _ s hs (hresize { e with mHeight := height } hle),
    fun pixelData s hs => huniq _ s hs (hdata pixelData)⟩
  · obtain ⟨t, w, ht, d⟩ := e
    cases t <;> exact h
  · simpa only [ExactLengthInvariant, clear, getNumberOfChannels, List.length_map] using h
  · intro color
    unfold setPixelsAll
    split
    · simpa only [ExactLengthInvariant, getNumberOfChannels, List.length_map, List.length_range]
        using h
    · simpa only [ExactLengthInvariant, getNumberOfChannels, List.length_map] using h
  · intro width height type s hs
    simp only [create] at hs
    split at hs
    · rename_i s2 hs2
      injection hs with hs
      subst hs
      exact resizePixelData_invariant _ _ hs2
    · cases hs
  · intro width height type s hs hle
    obtain ⟨s2, hs2, hex⟩ := hcreate width height type hle
    rw [hs] at hs2
    injection hs2 with hs2
    rw [hs2]
    exact hex

/-- Witness of C10 on the 2 x 2 RGB buffer. -/
theorem C10_length_invariant_witness :
    ExactLengthInvariant ⟨.PPM_BIN, 2, 2, [0, 0, 0, 0, 0, 0, 0, 0, 0, 0, 0, 0]⟩ ∧
    (∃ s, create 2 2 .PPM_BIN = .ok s ∧ ExactLengthInvariant s) ∧
    (∃ s, setWidth ⟨.PPM_BIN, 2, 2, [0, 0, 0, 0, 0, 0, 0, 0, 0, 0, 0, 0]⟩ 5 = .ok s ∧
      ExactLengthInvariant s) ∧
    (setPixel ⟨.PPM_BIN, 2, 2, [0, 0, 0, 0, 0, 0, 0, 0, 0, 0, 0, 0]⟩ 1 1
      (PixelColor.make 1 2 3)).Always ExactLengthInvariant :=
  ⟨by decide,
    (C10_length_invariant ⟨.PPM_BIN, 2, 2, [0, 0, 0, 0, 0, 0, 0, 0, 0, 0, 0, 0]⟩
      (by decide) (by decide)).1 2 2 .PPM_BIN (by decide),
    (C10_length_invariant ⟨.PPM_BIN, 2, 2, [0, 0, 0, 0, 0, 0, 0, 0, 0, 0, 0, 0]⟩
      (by decide) (by decide)).2.1 5 (by decide),
    (C10_length_invariant ⟨.PPM_BIN, 2, 2, [0, 0, 0, 0, 0, 0, 0, 0, 0, 0, 0, 0]⟩
      (by decide) (by decide)).2.2.2.2.2.2.1 1 1 _⟩

/-- Counterexample to C10 as stated: the constructor call with the dimensions
`2 ^ 32` by `2 ^ 32` returns a grayscale buffer without any sample, the product
having wrapped around to 0, so that the invariant `len == width * height *
channelCount` fails after construction; on the 2 x 2 buffer `1 2 3 4`, which
satisfies the invariant, `setWidth(2 ^ 62)` throws `std::length_error` and leaves
the width `2 ^ 62` with the four old samples, and `setWidth(2 ^ 63)` returns and
leaves no sample. -/
theorem C10_counterexample_wrapped_product :
    create (2 ^ 32) (2 ^ 32) .PGM_BIN = .ok ⟨.PGM_BIN, 2 ^ 32, 2 ^ 32, []⟩
    ∧ ¬ ExactLengthInvariant ⟨.PGM_BIN, 2 ^ 32, 2 ^ 32, []⟩
    ∧ ExactLengthInvariant ⟨.PGM_BIN, 2, 2, [1, 2, 3, 4]⟩
    ∧ setWidth ⟨.PGM_BIN, 2, 2, [1, 2, 3, 4]⟩ (2 ^ 62) =
        .length_error ⟨.PGM_BIN, 2 ^ 62, 2, [1, 2, 3, 4]⟩
    ∧ ¬ ExactLengthInvariant ⟨.PGM_BIN, 2 ^ 62, 2, [1, 2, 3, 4]⟩
    ∧ setWidth ⟨.PGM_BIN, 2, 2, [1, 2, 3, 4]⟩ (2 ^ 63) = .ok ⟨.PGM_BIN, 2 ^ 63, 2, []⟩
    ∧ ¬ ExactLengthInvariant ⟨.PGM_BIN, 2 ^ 63, 2, []⟩ := by
  refine ⟨by decide, by decide, by decide, by decide, by decide, by decide, by decide⟩

/-! ### The encoder: header and ASCII body -/

/-- The loop of `saveAscii` only appends to what the stream holds. -/
theorem saveAsciiLoop_append (valuesPerRow : Nat) (data : List Nat) (i : Nat)
    (output : List Nat) :
    saveAsciiLoop valuesPerRow i data output =
      (saveAsciiLoop valuesPerRow i data []).map (fun body => output ++ body) := by
  induction data generalizing i output with
  | nil => simp [saveAsciiLoop]
  | cons v rest ih =>
    simp only [saveAsciiLoop]
    split
    · rfl
    · split
      · rw [ih (i + 1) (output ++ decimal (toUnsigned v) ++ strBytes " " ++ endl),
          ih (i + 1) ([] ++ decimal (toUnsigned v) ++ strBytes " " ++ endl), Option.map_map]
        congr 1; funext body; simp [List.append_assoc]
      · rw [ih (i + 1) (output ++ decimal (toUnsigned v) ++ strBytes " "),
          ih (i + 1) ([] ++ decimal (toUnsigned v) ++ strBytes " "), Option.map_map]
        congr 1; funext body; simp [List.append_assoc]

/-- The remainder of a successor. -/
theorem succ_mod_cases (i m : Nat) (hm : 0 < m) :
    (i + 1) % m = if i % m + 1 = m then 0 else i % m + 1 := by
  have h := Nat.div_add_mod i m
  have hr := Nat.mod_lt i hm
  split
  · next heq =>
    have : i + 1 = m * (i / m + 1) := by rw [Nat.mul_add, Nat.mul_one]; omega
    rw [this, Nat.mul_mod_right]
  · next hne =>
    have : i + 1 = i % m + 1 + m * (i / m) := by omega
    rw [this, Nat.add_mul_mod_self_left, Nat.mod_eq_of_lt (by omega)]

/-- One row of `saveAscii`. -/
theorem saveAsciiLoop_row (vpr : Nat) (chunk rest : List Nat) (i : Nat) (output : List Nat)
    (hi : i % vpr + chunk.length = vpr) (hc : chunk ≠ []) :
    saveAsciiLoop vpr i (chunk ++ rest) output =
      saveAsciiLoop vpr (i + chunk.length) rest
        (output ++ chunk.flatMap (fun v => decimal (toUnsigned v) ++ strBytes " ") ++ endl) := by
  induction chunk generalizing i output with
  | nil => exact absurd rfl hc
  | cons v c ih =>
    have hpos : 0 < vpr := by simp only [List.length_cons] at hi; omega
    have hne : vpr ≠ 0 := by omega
    have hmod := succ_mod_cases i vpr hpos
    show saveAsciiLoop vpr i (v :: (c ++ rest)) output = _
    rw [saveAsciiLoop, if_neg hne]
    cases c with
    | nil =>
      have h1 : i % vpr + 1 = vpr := by simpa using hi
      rw [if_pos h1] at hmod
      rw [if_pos hmod]
      simp
    | cons w c2 =>
      have h1 : ¬ (i % vpr + 1 = vpr) := by simp only [List.length_cons] at hi; omega
      rw [if_neg h1] at hmod
      have h2 : (i + 1) % vpr + (w :: c2).length = vpr := by
        rw [hmod]; simp only [List.length_cons] at hi ⊢; omega
      rw [if_neg (by omega), ih (i + 1) _ h2 (by simp)]
      simp [List.append_assoc, Nat.add_assoc, Nat.add_comm 1]

/-- All rows of `saveAscii`, for a row length that is not zero. -/
theorem saveAsciiLoop_rows (vpr : Nat) (hv : 0 < vpr) (rows : Nat) (data : List Nat) (i : Nat)
    (output : List Nat) (hi : i % vpr = 0) (hlen : data.length = vpr * rows) :
    saveAsciiLoop vpr i data output = some (output ++ (List.range rows).flatMap (fun y =>
      ((data.drop (y * vpr)).take vpr).flatMap
        (fun v => decimal (toUnsigned v) ++ strBytes " ") ++ endl)) := by
  induction rows generalizing data i output with
  | zero =>
    have : data = [] := List.length_eq_zero.mp (by simpa using hlen)
    subst this
    simp [saveAsciiLoop]
  | succ n ih =>
    have hsplit : data = data.take vpr ++ data.drop vpr := (List.take_append_drop vpr data).symm
    have htl : (data.take vpr).length = vpr := by
      rw [List.length_take, hlen, Nat.mul_succ]; omega
    have hne : data.take vpr ≠ [] := by
      intro h0; rw [h0] at htl; simp at htl; omega
    have hdl : (data.drop vpr).length = vpr * n := by
      rw [List.length_drop, hlen, Nat.mul_succ]; omega
    have hi2 : (i + vpr) % vpr = 0 := by rw [Nat.add_mod_right]; exact hi
    conv_lhs => rw [hsplit]
    rw [saveAsciiLoop_row vpr _ _ i output (by rw [hi, htl]; omega) hne, htl,
      ih (data.drop vpr) (i + vpr) _ hi2 hdl, List.range_succ_eq_map]
    simp only [List.flatMap_cons, List.flatMap_map, Nat.zero_mul, List.drop_zero,
      List.append_assoc, Nat.succ_eq_add_one, List.drop_drop]
    congr 4
    apply List.flatMap_congr
    intro y _
    have : vpr + y * vpr = (y + 1) * vpr := by rw [Nat.add_mul, Nat.one_mul, Nat.add_comm]
    simp [Function.comp, this]

/-- There is at least one channel. -/
theorem getNumberOfChannels_pos (e : PnmExporter) : 1 ≤ e.getNumberOfChannels := by
  unfold getNumberOfChannels; split <;> omega

/-- A `uint8_t` sample is unchanged by the cast to `unsigned`. -/
theorem toUnsigned_sample {v : Nat} (h : v ≤ CHANNEL_MAX) : toUnsigned v = v := by
  unfold CHANNEL_MAX at h
  unfold toUnsigned
  omega

/-- Claim C6, amended: for an ASCII-format buffer that satisfies the length
invariant, `saveAscii` appends, when the width is not zero, the rows in order,
each row being its `width * channelCount` samples printed in decimal, every one
followed by a space, and then a line break; when the width is zero it appends
nothing. The 4 x 2 grayscale example gives `10 0 0 0 \n0 0 0 200 \n`. -/
theorem C6_saveAscii_body (e : PnmExporter) (hfmt : e.isBinFormat = false)
    (hlen : e.mPixelData.length = e.mWidth * e.mHeight * e.getNumberOfChannels)
    (hsize : e.mPixelData.length < SIZE_MOD)
    (hsample : ∀ v ∈ e.mPixelData, v ≤ CHANNEL_MAX) :
    (∀ output, e.saveAscii output =
      some (output ++ if e.mWidth = 0 then [] else asciiBodySpec e)) ∧
    save e = some (e.saveHeader ++ if e.mWidth = 0 then [] else asciiBodySpec e) ∧
    (∃ b, create 4 2 .PGM_ASCII = .ok b ∧
      (b.setPixel 0 0 (PixelColor.make 10 0 0)).andThen
          (fun s => s.setPixel 3 1 (PixelColor.make 200 0 0)) =
        .ok ⟨.PGM_ASCII, 4, 2, [10, 0, 0, 0, 0, 0, 0, 200]⟩) ∧
    saveAscii ⟨.PGM_ASCII, 4, 2, [10, 0, 0, 0, 0, 0, 0, 200]⟩ [] =
      some (strBytes "10 0 0 0 \n0 0 0 200 \n") := by
  have main : ∀ output, e.saveAscii output =
      some (output ++ if e.mWidth = 0 then [] else asciiBodySpec e) := by
    intro output
    unfold saveAscii
    by_cases hw : e.mWidth = 0
    · have : e.mPixelData = [] := List.length_eq_zero.mp (by rw [hlen, hw]; simp)
      simp [this, hw, saveAsciiLoop]
    · rw [if_neg hw]
      by_cases hh : e.mHeight = 0
      · have : e.mPixelData = [] := List.length_eq_zero.mp (by rw [hlen, hh]; simp)
        simp [this, hh, saveAsciiLoop, asciiBodySpec]
      · have hch := getNumberOfChannels_pos e
        have hvpos : 0 < e.mWidth * e.getNumberOfChannels :=
          Nat.mul_pos (Nat.pos_of_ne_zero hw) hch
        have hlen2 : e.mPixelData.length = e.mWidth * e.getNumberOfChannels * e.mHeight := by
          rw [hlen, Nat.mul_right_comm]
        have hle : e.mWidth * e.getNumberOfChannels ≤ e.mPixelData.length := by
          rw [hlen2]; exact Nat.le_mul_of_pos_right _ (Nat.pos_of_ne_zero hh)
        have hv : sizeT (e.mWidth * e.getNumberOfChannels) = e.mWidth * e.getNumberOfChannels :=
          Nat.mod_eq_of_lt (lt_of_le_of_lt hle hsize)
        rw [hv, saveAsciiLoop_rows _ hvpos e.mHeight e.mPixelData 0 output (Nat.zero_mod _) hlen2]
        unfold asciiBodySpec
        congr 2
        apply List.flatMap_congr
        intro y _
        congr 1
        apply List.flatMap_congr
        intro v hvmem
        rw [toUnsigned_sample (hsample v (List.mem_of_mem_drop (List.mem_of_mem_take hvmem)))]
  refine ⟨main, ?_, ⟨⟨.PGM_ASCII, 4, 2, [0, 0, 0, 0, 0, 0, 0, 0]⟩, by decide, by decide⟩,
    by decide⟩
  unfold save
  rw [hfmt]
  exact main _

/-- Witness of C6 on a 1 x 2 grayscale buffer. -/
theorem C6_saveAscii_body_witness :
    saveAscii ⟨.PGM_ASCII, 1, 2, [7, 8]⟩ [1] =
      some ([1] ++ if (1 : Nat) = 0 then []
        else asciiBodySpec ⟨.PGM_ASCII, 1, 2, [7, 8]⟩) :=
  (C6_saveAscii_body ⟨.PGM_ASCII, 1, 2, [7, 8]⟩ (by decide) (by decide) (by decide)
    (by decide)).1 [1]

/-- Counterexample to C6 as stated: the 0 x 2 `PGM_ASCII` buffer satisfies the
length invariant, the specification's body for it is two line breaks, and
`saveAscii` writes nothing. -/
theorem C6_counterexample_zero_width :
    ∃ b, create 0 2 .PGM_ASCII = .ok b ∧
      b.isBinFormat = false ∧
      b.mPixelData.length = b.mWidth * b.mHeight * b.getNumberOfChannels ∧
      b.saveAscii [] = some [] ∧
      asciiBodySpec b = strBytes "\n\n" ∧
      b.saveAscii [] ≠ some (asciiBodySpec b) :=
  ⟨⟨.PGM_ASCII, 0, 2, []⟩, by decide⟩

/-- Claim C7 (amended): for a `PGM_BIN` or `PPM_BIN` buffer the body that
`saveBinary` writes is `mPixelData` itself, in storage order, one byte for each
sample; it has `width * height * channelCount` bytes when the buffer satisfies the
length invariant, as does the buffer that the constructor returns for dimensions
whose product with the channel count is at most `max_size()`. -/
theorem C7_saveBinary_raw (e : PnmExporter)
    (hfmt : e.mImageType = .PGM_BIN ∨ e.mImageType = .PPM_BIN) :
    (∃ body, (∀ output, e.saveBinary output = some (output ++ body)) ∧
      save e = some (e.saveHeader ++ body) ∧
      body = e.mPixelData ∧
      (e.mPixelData.length = e.mWidth * e.mHeight * e.getNumberOfChannels →
        body.length = e.mWidth * e.mHeight * e.getNumberOfChannels)) ∧
    (∀ width height, width * height * e.getNumberOfChannels ≤ VECTOR_MAX_SIZE →
      ∃ b body, create width height e.mImageType = .ok b ∧
        (∀ output, b.saveBinary output = some (output ++ body)) ∧
        save b = some (b.saveHeader ++ body) ∧
        body = b.mPixelData ∧
        body.length = width * height * e.getNumberOfChannels) := by
  have hne : e.mImageType ≠ .PBM_BIN := by
    rcases hfmt with h | h <;> rw [h] <;> decide
  have hbin : e.isBinFormat = true := by
    unfold isBinFormat
    rcases hfmt with h | h <;> rw [h] <;> decide
  refine ⟨⟨e.mPixelData, fun output => ?_, ?_, rfl, fun hlen => hlen⟩,
    fun width height hle => ?_⟩
  · unfold saveBinary; rw [if_neg hne]
  · unfold save saveBinary; rw [hbin, if_neg hne]; rfl
  · refine ⟨_, _, create_exact width height e.mImageType hle, fun output => ?_, ?_, rfl, ?_⟩
    · unfold saveBinary; rw [if_neg hne]
    · unfold save saveBinary
      have hbin2 : isBinFormat ⟨e.mImageType, width, height,
          List.replicate (width * height *
            (if e.mImageType = .PPM_ASCII ∨ e.mImageType = .PPM_BIN then 3 else 1)) 0⟩ = true :=
        hbin
      rw [hbin2, if_neg hne]; rfl
    · rw [List.length_replicate]; rfl

/-- Witness of C7 on a 1 x 2 RGB buffer. -/
theorem C7_saveBinary_raw_witness :
    ∃ body, (∀ output, saveBinary ⟨.PPM_BIN, 1, 2, [1, 2, 3, 4, 5, 255]⟩ output =
        some (output ++ body)) ∧
      save ⟨.PPM_BIN, 1, 2, [1, 2, 3, 4, 5, 255]⟩ =
        some (saveHeader ⟨.PPM_BIN, 1, 2, [1, 2, 3, 4, 5, 255]⟩ ++ body) ∧
      body = [1, 2, 3, 4, 5, 255] ∧
      ([1, 2, 3, 4, 5, 255].length =
          1 * 2 * getNumberOfChannels ⟨.PPM_BIN, 1, 2, [1, 2, 3, 4, 5, 255]⟩ →
        body.length = 1 * 2 * getNumberOfChannels ⟨.PPM_BIN, 1, 2, [1, 2, 3, 4, 5, 255]⟩) :=
  (C7_saveBinary_raw ⟨.PPM_BIN, 1, 2, [1, 2, 3, 4, 5, 255]⟩ (by decide)).1

/-- Counterexample to C7 as stated: the constructor call with the dimensions
`2 ^ 32` by `2 ^ 32` returns a `PGM_BIN` buffer without any sample, and the body
that `saveBinary` writes for it has no byte, not `2 ^ 32 * 2 ^ 32 * 1` bytes. -/
theorem C7_counterexample_wrapped_size :
    create (2 ^ 32) (2 ^ 32) .PGM_BIN = .ok ⟨.PGM_BIN, 2 ^ 32, 2 ^ 32, []⟩
    ∧ saveBinary ⟨.PGM_BIN, 2 ^ 32, 2 ^ 32, []⟩ [] = some []
    ∧ ([] : List Nat).length ≠
        2 ^ 32 * 2 ^ 32 * getNumberOfChannels ⟨.PGM_BIN, 2 ^ 32, 2 ^ 32, []⟩ := by
  refine ⟨by decide, by decide, by decide⟩

/-! ### The encoder: the packed bitmap -/

/-- A value below `2 ^ 64` is not changed by the conversion to `size_t`. -/
theorem sizeT_of_lt {n : Nat} (h : n < SIZE_MOD) : sizeT n = n := Nat.mod_eq_of_lt h

/-- The innermost loop of `saveBinary`, when all its reads are inside the storage. -/
theorem packLoop_eq (e : PnmExporter) (y x ub : Nat) (pre post : List Nat)
    (hsz : e.mPixelData.length < SIZE_MOD) (n k byte : Nat)
    (hidx : y * e.mWidth + x + k + n ≤ e.mPixelData.length) :
    packLoop e y x ub pre.length n k (pre ++ byte :: post) =
      some (pre ++ orFold e.mPixelData (y * e.mWidth + x) ub n k byte :: post) := by
  induction n generalizing k byte with
  | zero => rfl
  | succ n ih =>
    have h1 : sizeT (y * e.mWidth) = y * e.mWidth := sizeT_of_lt (by omega)
    have h2 : sizeT (y * e.mWidth + x) = y * e.mWidth + x := sizeT_of_lt (by omega)
    have h3 : sizeT (y * e.mWidth + x + k) = y * e.mWidth + x + k := sizeT_of_lt (by omega)
    have hlt : y * e.mWidth + x + k < e.mPixelData.length := by omega
    have hget : e.mPixelData[y * e.mWidth + x + k]? =
        some (e.mPixelData.getD (y * e.mWidth + x + k) 0) := by
      rw [List.getD_eq_getElem?_getD, List.getElem?_eq_getElem hlt]; rfl
    have hb : (pre ++ byte :: post)[pre.length]? = some byte := by
      rw [List.getElem?_append_right (Nat.le_refl _), Nat.sub_self, List.getElem?_cons_zero]
    simp only [packLoop, h1, h2, h3, hget, hb]
    have hset : (pre ++ byte :: post).set pre.length
        ((byte ||| (e.mPixelData.getD (y * e.mWidth + x + k) 0 <<< (ub - 1 - k))) % 256) =
        pre ++ ((byte ||| (e.mPixelData.getD (y * e.mWidth + x + k) 0 <<< (ub - 1 - k))) % 256)
          :: post := by
      rw [List.set_append_right _ _ (Nat.le_refl _), Nat.sub_self]; rfl
    rw [hset, ih (k + 1) _ (by omega)]
    rfl

/-- The loop over the byte groups of one row: `d` groups from group `g` on. -/
theorem groupLoop_eq (e : PnmExporter) (y : Nat) (post : List Nat)
    (hsz : e.mPixelData.length ≤ VECTOR_MAX_SIZE)
    (hrow : (y + 1) * e.mWidth ≤ e.mPixelData.length) (d : Nat) :
    ∀ (g fuel : Nat) (pre : List Nat), e.mWidth ≤ 8 * (g + d) → 8 * (g + d) < e.mWidth + 8 →
      d ≤ fuel → pre.length + d < SIZE_MOD →
      groupLoop e y fuel (8 * g) pre.length (pre ++ List.replicate d 0 ++ post) =
        some (pre.length + d, pre ++ (List.range' g d).map (groupByte e y) ++ post) := by
  have hmax : VECTOR_MAX_SIZE + 8 < SIZE_MOD := by decide
  induction d with
  | zero =>
    intro g fuel pre h1 _ _ _
    have hx : ¬ 8 * g < e.mWidth := by omega
    cases fuel <;> simp [groupLoop, hx]
  | succ d ih =>
    intro g fuel pre h1 h2 hfuel hpre
    obtain ⟨f, rfl⟩ : ∃ f, fuel = f + 1 := ⟨fuel - 1, by omega⟩
    have hx : 8 * g < e.mWidth := by omega
    have hw : (y + 1) * e.mWidth = y * e.mWidth + e.mWidth := by
      rw [Nat.add_mul, Nat.one_mul]
    have hub : (if e.mWidth - 8 * g > 8 then 8 else e.mWidth - 8 * g) ≤ e.mWidth - 8 * g := by
      split <;> omega
    have hpack := packLoop_eq e y (8 * g) (if e.mWidth - 8 * g > 8 then 8 else e.mWidth - 8 * g)
      pre (List.replicate d 0 ++ post) (by omega)
      (if e.mWidth - 8 * g > 8 then 8 else e.mWidth - 8 * g) 0 0 (by omega)
    have hx8 : sizeT (8 * g + 8) = 8 * (g + 1) := by rw [sizeT_of_lt (by omega)]; omega
    have hbd : sizeT (pre.length + 1) = (pre ++ [groupByte e y g]).length := by
      rw [sizeT_of_lt (by omega)]; simp
    have hrep : pre ++ List.replicate (d + 1) 0 ++ post =
        pre ++ 0 :: (List.replicate d 0 ++ post) := by
      simp [List.replicate_succ]
    rw [hrep, groupLoop, if_pos hx]
    simp only [hpack, hx8, hbd]
    have hre : pre ++ orFold e.mPixelData (y * e.mWidth + 8 * g)
          (if e.mWidth - 8 * g > 8 then 8 else e.mWidth - 8 * g)
          (if e.mWidth - 8 * g > 8 then 8 else e.mWidth - 8 * g) 0 0 ::
          (List.replicate d 0 ++ post) =
        (pre ++ [groupByte e y g]) ++ List.replicate d 0 ++ post := by
      simp [groupByte]
    rw [hre, ih (g + 1) f (pre ++ [groupByte e y g]) (by omega) (by omega) (by omega)
      (by simp; omega)]
    simp [List.range'_succ, Nat.add_assoc, Nat.add_comm 1]

/-- The row byte count is the least number of groups of eight that cover the width. -/
theorem rowBytes_bounds (e : PnmExporter) :
    e.mWidth ≤ 8 * rowBytes e ∧ 8 * rowBytes e < e.mWidth + 8 ∧ rowBytes e ≤ e.mWidth / 8 + 1 ∧
      rowBytes e ≤ e.mWidth := by
  unfold rowBytes
  split <;> omega

/-- The loop over the rows: `n` rows from row `y` on. -/
theorem rowLoop_eq (e : PnmExporter) (hsz : e.mPixelData.length ≤ VECTOR_MAX_SIZE)
    (hlen : e.mPixelData.length = e.mWidth * e.mHeight) (n : Nat) :
    ∀ (y : Nat) (pre : List Nat), y + n = e.mHeight →
      pre.length + n * rowBytes e < SIZE_MOD →
      rowLoop e n y pre.length (pre ++ List.replicate (n * rowBytes e) 0) =
        some (pre ++ (List.range' y n).flatMap
          (fun r => (List.range' 0 (rowBytes e)).map (groupByte e r))) := by
  obtain ⟨hb1, hb2, hb3, _⟩ := rowBytes_bounds e
  induction n with
  | zero => intro y pre _ _; simp [rowLoop]
  | succ n ih =>
    intro y pre hy hpre
    have hmul : (n + 1) * rowBytes e = rowBytes e + n * rowBytes e := by
      rw [Nat.succ_mul, Nat.add_comm]
    have hrow : (y + 1) * e.mWidth ≤ e.mPixelData.length := by
      rw [hlen, Nat.mul_comm e.mWidth]
      exact Nat.mul_le_mul_right _ (by omega)
    have hg := groupLoop_eq e y (List.replicate (n * rowBytes e) 0) hsz hrow (rowBytes e) 0
      (e.mWidth / 8 + 1) pre (by omega) (by omega) hb3 (by omega)
    rw [Nat.mul_zero] at hg
    rw [hmul, List.replicate_add, ← List.append_assoc, rowLoop, hg]
    simp only []
    have hl : pre.length + rowBytes e =
        (pre ++ (List.range' 0 (rowBytes e)).map (groupByte e y)).length := by simp
    rw [hl, ih (y + 1) _ (by omega) (by rw [← hl]; omega)]
    simp [List.range'_succ, List.append_assoc]

/-- The packed bytes in closed form: row after row, group after group. -/
theorem packBitmap_eq (e : PnmExporter) (hsz : e.mPixelData.length ≤ VECTOR_MAX_SIZE)
    (hlen : e.mPixelData.length = e.mWidth * e.mHeight) :
    packBitmap e = some ((List.range e.mHeight).flatMap
      (fun y => (List.range (rowBytes e)).map (groupByte e y))) := by
  obtain ⟨_, _, _, hb4⟩ := rowBytes_bounds e
  have hmax : VECTOR_MAX_SIZE < SIZE_MOD := by decide
  have hle : rowBytes e * e.mHeight ≤ e.mPixelData.length := by
    rw [hlen]; exact Nat.mul_le_mul_right _ hb4
  have hsize : sizeT (rowBytes e * e.mHeight) = e.mHeight * rowBytes e := by
    rw [sizeT_of_lt (by omega), Nat.mul_comm]
  have h := rowLoop_eq e hsz hlen e.mHeight 0 [] (by omega)
    (by rw [Nat.mul_comm]; simp only [List.length_nil]; omega)
  simp only [List.length_nil, List.nil_append] at h
  have hfit : e.mHeight * rowBytes e ≤ VECTOR_MAX_SIZE := by
    rw [Nat.mul_comm]; omega
  unfold packBitmap
  rw [show e.mWidth / 8 + (if e.mWidth % 8 = 0 then 0 else 1) = rowBytes e from rfl, hsize,
    if_pos hfit, h]
  simp only [List.range_eq_range']

/-- The length of a concatenation of rows of one length. -/
theorem flatMap_uniform_length (f : Nat → List Nat) (c : Nat) (hf : ∀ y, (f y).length = c)
    (n : Nat) : ∀ s, ((List.range' s n).flatMap f).length = n * c := by
  induction n with
  | zero => intro s; simp
  | succ n ih =>
    intro s
    rw [List.range'_succ, List.flatMap_cons, List.length_append, hf, ih, Nat.succ_mul,
      Nat.add_comm]

/-- Indexing into a concatenation of rows of one length. -/
theorem flatMap_uniform_getElem? (f : Nat → List Nat) (c : Nat) (hf : ∀ y, (f y).length = c)
    (n : Nat) : ∀ s j g, j < n → g < c →
      ((List.range' s n).flatMap f)[j * c + g]? = (f (s + j))[g]? := by
  induction n with
  | zero => intro s j g hj; omega
  | succ n ih =>
    intro s j g hj hg
    rw [List.range'_succ, List.flatMap_cons]
    cases j with
    | zero =>
      rw [Nat.zero_mul, Nat.zero_add, List.getElem?_append_left (by rw [hf]; exact hg)]
      rfl
    | succ j =>
      have hge : (f s).length ≤ (j + 1) * c + g := by
        rw [hf, Nat.succ_mul]; omega
      have hsub : (j + 1) * c + g - (f s).length = j * c + g := by
        rw [hf, Nat.succ_mul]; omega
      rw [List.getElem?_append_right hge, hsub, ih (s + 1) j g (by omega) hg]
      congr 2; omega

/-- One step of the accumulation when the pixel is a bit: the bitwise or is a sum. -/
theorem orFold_step (n k a b ub : Nat) (hk : k + (n + 1) = ub) (hub : ub ≤ 8)
    (ha : a < 2 ^ k) (hb : b ≤ 1) :
    (2 ^ (n + 1) * a ||| b <<< n) % 256 = 2 ^ n * (2 * a + b) ∧ 2 * a + b < 2 ^ (k + 1) := by
  have hpow : 2 ^ (n + 1) = 2 ^ n * 2 := Nat.pow_succ 2 n
  have hpos : 0 < 2 ^ n := Nat.pos_pow_of_pos n (by omega)
  have hlt : b * 2 ^ n < 2 ^ (n + 1) := by
    rw [hpow]
    nlinarith
  have hor : 2 ^ (n + 1) * a ||| b * 2 ^ n = 2 ^ n * (2 * a + b) := by
    rw [← Nat.mul_add_lt_is_or hlt a, hpow]; ring
  have ha2 : 2 * a + b < 2 ^ (k + 1) := by
    rw [Nat.pow_succ]; omega
  have hbound : 2 ^ n * (2 * a + b) < 256 := by
    have h1 : 2 ^ n * (2 * a + b) < 2 ^ n * 2 ^ (k + 1) := Nat.mul_lt_mul_of_pos_left ha2 hpos
    have h2 : 2 ^ n * 2 ^ (k + 1) = 2 ^ ub := by rw [← Nat.pow_add]; congr 1; omega
    have h3 : 2 ^ ub ≤ 2 ^ 8 := Nat.pow_le_pow_right (by omega) hub
    omega
  rw [Nat.shiftLeft_eq, hor, Nat.mod_eq_of_lt hbound]
  exact ⟨rfl, ha2⟩

/-- The accumulated byte is the sum of the shifted bits. -/
theorem orFold_sum (data : List Nat) (base ub : Nat) (hub : ub ≤ 8) (n : Nat) :
    ∀ k a, k + n = ub → a < 2 ^ k →
      (∀ j, k ≤ j → j < ub → data.getD (base + j) 0 ≤ 1) →
      orFold data base ub n k (2 ^ n * a) = 2 ^ n * a +
        ((List.range' k n).map (fun j => data.getD (base + j) 0 <<< (ub - 1 - j))).sum := by
  induction n with
  | zero => intro k a _ _ _; simp [orFold]
  | succ n ih =>
    intro k a hk ha hbit
    have hsh : ub - 1 - k = n := by omega
    obtain ⟨hstep, ha2⟩ := orFold_step n k a _ ub hk hub ha (hbit k (Nat.le_refl _) (by omega))
    rw [orFold, hsh, hstep, ih (k + 1) _ (by omega) ha2 (fun j h1 h2 => hbit j (by omega) h2),
      List.range'_succ, List.map_cons, List.sum_cons, hsh, Nat.shiftLeft_eq, Nat.pow_succ 2 n]
    ring

/-- The accumulated byte uses the low `upperBound` bits only. -/
theorem orFold_lt (data : List Nat) (base ub : Nat) (hub : ub ≤ 8) (n : Nat) :
    ∀ k a, k + n = ub → a < 2 ^ k →
      (∀ j, k ≤ j → j < ub → data.getD (base + j) 0 ≤ 1) →
      orFold data base ub n k (2 ^ n * a) < 2 ^ ub := by
  induction n with
  | zero =>
    intro k a hk ha _
    rw [orFold, Nat.pow_zero, Nat.one_mul, ← hk]
    exact ha
  | succ n ih =>
    intro k a hk ha hbit
    have hsh : ub - 1 - k = n := by omega
    obtain ⟨hstep, ha2⟩ := orFold_step n k a _ ub hk hub ha (hbit k (Nat.le_refl _) (by omega))
    rw [orFold, hsh, hstep]
    exact ih (k + 1) _ (by omega) ha2 (fun j h1 h2 => hbit j (by omega) h2)

/-- The row byte count is the ceiling of `width / 8`. -/
theorem rowBytes_eq_ceil (e : PnmExporter) : rowBytes e = ⌈(e.mWidth : ℚ) / 8⌉₊ := by
  obtain ⟨h1, h2, _, _⟩ := rowBytes_bounds e
  by_cases hw : e.mWidth = 0
  · have : rowBytes e = 0 := by omega
    rw [this, hw]; simp
  · have hne : rowBytes e ≠ 0 := by omega
    symm
    rw [Nat.ceil_eq_iff hne]
    constructor
    · rw [lt_div_iff₀ (by norm_num : (0 : ℚ) < 8)]
      have : (rowBytes e - 1) * 8 < e.mWidth := by omega
      exact_mod_cast this
    · rw [div_le_iff₀ (by norm_num : (0 : ℚ) < 8)]
      have : e.mWidth ≤ rowBytes e * 8 := by omega
      exact_mod_cast this

/-- For `PBM_BIN`, `saveBinary` appends the packed bytes. -/
theorem saveBinary_bitmap (e : PnmExporter) (hfmt : e.mImageType = .PBM_BIN)
    (body : List Nat) (h : packBitmap e = some body) (output : List Nat) :
    e.saveBinary output = some (output ++ body) := by
  unfold saveBinary
  rw [if_pos hfmt, h]; rfl

/-- A bitmap has one channel. -/
theorem bitmap_length (e : PnmExporter) (hfmt : e.mImageType = .PBM_BIN)
    (hlen : e.mPixelData.length = e.mWidth * e.mHeight * e.getNumberOfChannels) :
    e.mPixelData.length = e.mWidth * e.mHeight := by
  rw [hlen, getNumberOfChannels, hfmt]; simp

/-- The number of packed bytes. -/
theorem packedRows_length (e : PnmExporter) :
    ((List.range e.mHeight).flatMap
      (fun y => (List.range (rowBytes e)).map (groupByte e y))).length =
      rowBytes e * e.mHeight := by
  have hrow : ∀ r, ((List.range (rowBytes e)).map (groupByte e r)).length = rowBytes e := by
    intro r; simp
  rw [List.range_eq_range', flatMap_uniform_length _ _ hrow, Nat.mul_comm]

/-- The position of the byte of row `y`, group `g`. -/
theorem packedRows_getElem? (e : PnmExporter) (y g : Nat) (hy : y < e.mHeight)
    (hg : g < rowBytes e) :
    ((List.range e.mHeight).flatMap
      (fun r => (List.range (rowBytes e)).map (groupByte e r)))[y * rowBytes e + g]? =
      some (groupByte e y g) := by
  have hrow : ∀ r, ((List.range (rowBytes e)).map (groupByte e r)).length = rowBytes e := by
    intro r; simp
  rw [List.range_eq_range', flatMap_uniform_getElem? _ _ hrow _ 0 y g hy hg, Nat.zero_add,
    List.getElem?_map, List.getElem?_range hg]
  rfl

/-- A read from a list of bits is a bit. -/
theorem getD_bit (data : List Nat) (hbits : ∀ v ∈ data, v = 0 ∨ v = 1) (i : Nat) :
    data.getD i 0 ≤ 1 := by
  rw [List.getD_eq_getElem?_getD]
  cases h : data[i]? with
  | none => simp
  | some v =>
    have hv := hbits v (List.getElem?_mem h)
    simp only [Option.getD_some]
    omega

/-- The byte of a group of bits is the sum of the shifted bits. -/
theorem groupByte_sum (e : PnmExporter) (hbits : ∀ v ∈ e.mPixelData, v = 0 ∨ v = 1)
    (y g : Nat) :
    groupByte e y g = ((List.range (min 8 (e.mWidth - 8 * g))).map (fun k =>
      e.mPixelData.getD (y * e.mWidth + 8 * g + k) 0 <<<
        (min 8 (e.mWidth - 8 * g) - 1 - k))).sum := by
  have hub : (if e.mWidth - 8 * g > 8 then 8 else e.mWidth - 8 * g) =
      min 8 (e.mWidth - 8 * g) := by
    split <;> omega
  have h := orFold_sum e.mPixelData (y * e.mWidth + 8 * g) (min 8 (e.mWidth - 8 * g))
    (Nat.min_le_left _ _) (min 8 (e.mWidth - 8 * g)) 0 0 (Nat.zero_add _) (by decide)
    (fun j _ _ => getD_bit _ hbits _)
  rw [Nat.mul_zero, Nat.zero_add] at h
  rw [groupByte, hub, h, List.range_eq_range']

/-- Claim C3 (amended): for a `PBM_BIN` buffer that satisfies the length invariant
the packed body has `ceil(width / 8) * height` bytes, and the byte of row `y`, group `g` is
at index `y * ceil(width / 8) + g`. -/
theorem C3_packed_layout (e : PnmExporter) (hfmt : e.mImageType = .PBM_BIN)
    (hlen : e.mPixelData.length = e.mWidth * e.mHeight * e.getNumberOfChannels)
    (hsz : e.mPixelData.length ≤ VECTOR_MAX_SIZE) :
    ∃ body, (∀ output, e.saveBinary output = some (output ++ body)) ∧
      body.length = ⌈(e.mWidth : ℚ) / 8⌉₊ * e.mHeight ∧
      ∀ y g, y < e.mHeight → g < ⌈(e.mWidth : ℚ) / 8⌉₊ →
        body[y * ⌈(e.mWidth : ℚ) / 8⌉₊ + g]? = some (groupByte e y g) := by
  rw [← rowBytes_eq_ceil]
  have hpack := packBitmap_eq e hsz (bitmap_length e hfmt hlen)
  exact ⟨_, saveBinary_bitmap e hfmt _ hpack, packedRows_length e,
    fun y g hy hg => packedRows_getElem? e y g hy hg⟩

/-- Witness of C3 on the 10 x 1 bitmap. -/
theorem C3_packed_layout_witness :
    ∃ body, (∀ output, saveBinary ⟨.PBM_BIN, 10, 1, [1, 0, 1, 0, 1, 0, 1, 0, 1, 1]⟩ output =
        some (output ++ body)) ∧
      body.length = ⌈((10 : Nat) : ℚ) / 8⌉₊ * 1 ∧
      ∀ y g, y < 1 → g < ⌈((10 : Nat) : ℚ) / 8⌉₊ →
        body[y * ⌈((10 : Nat) : ℚ) / 8⌉₊ + g]? =
          some (groupByte ⟨.PBM_BIN, 10, 1, [1, 0, 1, 0, 1, 0, 1, 0, 1, 1]⟩ y g) :=
  C3_packed_layout ⟨.PBM_BIN, 10, 1, [1, 0, 1, 0, 1, 0, 1, 0, 1, 1]⟩ (by decide) (by decide)
    (by decide)

/-- Counterexample to C3 as stated: the constructor call with the dimensions
`2 ^ 35` by `2 ^ 32` returns a `PBM_BIN` buffer without any sample, the product
having wrapped around to 0; the size `ceil(width / 8) * height` of `binData` wraps
around to 0 as well, and the packing loop, which reads `mPixelData[0]` and writes
`binData[0]`, is undefined: there is no packed body. -/
theorem C3_counterexample_wrapped_size :
    create (2 ^ 35) (2 ^ 32) .PBM_BIN = .ok ⟨.PBM_BIN, 2 ^ 35, 2 ^ 32, []⟩
    ∧ sizeT ((2 ^ 35 / 8 + (if 2 ^ 35 % 8 = 0 then 0 else 1)) * 2 ^ 32) = 0
    ∧ packBitmap ⟨.PBM_BIN, 2 ^ 35, 2 ^ 32, []⟩ = none
    ∧ saveBinary ⟨.PBM_BIN, 2 ^ 35, 2 ^ 32, []⟩ [] = none := by
  refine ⟨by decide, by decide, by decide, by decide⟩

/-- Claim C2 (amended): for a `PBM_BIN` buffer that satisfies the length invariant
and has samples 0 or 1, the packed byte of row `y`,
group `g` is the sum over `k < n` of `sample[y * width + 8 * g + k]` shifted left
by `n - 1 - k`, where `n = min(8, width - 8 * g)`. -/
theorem C2_packed_byte_value (e : PnmExporter) (hfmt : e.mImageType = .PBM_BIN)
    (hlen : e.mPixelData.length = e.mWidth * e.mHeight * e.getNumberOfChannels)
    (hsz : e.mPixelData.length ≤ VECTOR_MAX_SIZE)
    (hbits : ∀ v ∈ e.mPixelData, v = 0 ∨ v = 1) :
    ∃ body, (∀ output, e.saveBinary output = some (output ++ body)) ∧
      ∀ y g, y < e.mHeight → 8 * g < e.mWidth →
        body[y * ⌈(e.mWidth : ℚ) / 8⌉₊ + g]? =
          some ((List.range (min 8 (e.mWidth - 8 * g))).map (fun k =>
            e.mPixelData.getD (y * e.mWidth + 8 * g + k) 0 <<<
              (min 8 (e.mWidth - 8 * g) - 1 - k))).sum := by
  rw [← rowBytes_eq_ceil]
  have hpack := packBitmap_eq e hsz (bitmap_length e hfmt hlen)
  refine ⟨_, saveBinary_bitmap e hfmt _ hpack, fun y g hy hg => ?_⟩
  have hgr : g < rowBytes e := by
    have := (rowBytes_bounds e).1
    omega
  rw [packedRows_getElem? e y g hy hgr, groupByte_sum e hbits]

/-- Witness of C2 on the 10 x 1 bitmap. -/
theorem C2_packed_byte_value_witness :
    ∃ body, (∀ output, saveBinary ⟨.PBM_BIN, 10, 1, [1, 0, 1, 0, 1, 0, 1, 0, 1, 1]⟩ output =
        some (output ++ body)) ∧
      ∀ y g, y < 1 → 8 * g < 10 →
        body[y * ⌈((10 : Nat) : ℚ) / 8⌉₊ + g]? =
          some ((List.range (min 8 (10 - 8 * g))).map (fun k =>
            [1, 0, 1, 0, 1, 0, 1, 0, 1, 1].getD (y * 10 + 8 * g + k) 0 <<<
              (min 8 (10 - 8 * g) - 1 - k))).sum :=
  C2_packed_byte_value ⟨.PBM_BIN, 10, 1, [1, 0, 1, 0, 1, 0, 1, 0, 1, 1]⟩ (by decide)
    (by decide) (by decide) (by decide)

/-- Counterexample to C2 as stated: the constructor call with the dimensions
`2 ^ 32` by `2 ^ 35` returns a `PBM_BIN` buffer without any sample, the product
having wrapped around to 0; every sample of it is 0 or 1, the row 0 and the group
0 exist, and the packing loop, which reads `mPixelData[0]`, is undefined: there
is no packed byte. -/
theorem C2_counterexample_wrapped_size :
    create (2 ^ 32) (2 ^ 35) .PBM_BIN = .ok ⟨.PBM_BIN, 2 ^ 32, 2 ^ 35, []⟩
    ∧ (∀ v ∈ (PnmExporter.mk .PBM_BIN (2 ^ 32) (2 ^ 35) []).mPixelData, v = 0 ∨ v = 1)
    ∧ (0 < (PnmExporter.mk .PBM_BIN (2 ^ 32) (2 ^ 35) []).mHeight
      ∧ 8 * 0 < (PnmExporter.mk .PBM_BIN (2 ^ 32) (2 ^ 35) []).mWidth)
    ∧ packBitmap ⟨.PBM_BIN, 2 ^ 32, 2 ^ 35, []⟩ = none
    ∧ saveBinary ⟨.PBM_BIN, 2 ^ 32, 2 ^ 35, []⟩ [] = none
    ∧ save ⟨.PBM_BIN, 2 ^ 32, 2 ^ 35, []⟩ = none := by
  refine ⟨by decide, fun v hv => absurd hv (List.not_mem_nil v), by decide, by decide,
    by decide, by decide⟩

/-- The byte of a group of `n` bits is below `2 ^ n`. -/
theorem groupByte_lt (e : PnmExporter) (hbits : ∀ v ∈ e.mPixelData, v = 0 ∨ v = 1)
    (y g : Nat) : groupByte e y g < 2 ^ min 8 (e.mWidth - 8 * g) := by
  have hub : (if e.mWidth - 8 * g > 8 then 8 else e.mWidth - 8 * g) =
      min 8 (e.mWidth - 8 * g) := by
    split <;> omega
  have h := orFold_lt e.mPixelData (y * e.mWidth + 8 * g) (min 8 (e.mWidth - 8 * g))
    (Nat.min_le_left _ _) (min 8 (e.mWidth - 8 * g)) 0 0 (Nat.zero_add _) (by decide)
    (fun j _ _ => getD_bit _ hbits _)
  rw [Nat.mul_zero] at h
  rw [groupByte, hub]
  exact h

/-- Claim C1, evaluated on the code: the 10 x 1 bitmap `1010101011` packs to the bytes
`0xAA, 0x03`, not `0xAA, 0xC0`; in general the byte of a partial final group of
`n = width % 8` pixels is below `2 ^ n`, so its pixels are in the low `n` bits and
the top `8 - n` bits are zero. -/
theorem C1_partial_group_low_bits :
    packBitmap ⟨.PBM_BIN, 10, 1, [1, 0, 1, 0, 1, 0, 1, 0, 1, 1]⟩ = some [0xAA, 0x03] ∧
    saveBinary ⟨.PBM_BIN, 10, 1, [1, 0, 1, 0, 1, 0, 1, 0, 1, 1]⟩ [] ≠ some [0xAA, 0xC0] ∧
    save ⟨.PBM_BIN, 10, 1, [1, 0, 1, 0, 1, 0, 1, 0, 1, 1]⟩ =
      some (strBytes "P4\n10 1\n" ++ [0xAA, 0x03]) ∧
    ∀ (e : PnmExporter) (y : Nat), (∀ v ∈ e.mPixelData, v = 0 ∨ v = 1) →
      e.mWidth % 8 ≠ 0 → groupByte e y (e.mWidth / 8) < 2 ^ (e.mWidth % 8) := by
  refine ⟨by decide, by decide, by decide, fun e y hbits hw => ?_⟩
  have h := groupByte_lt e hbits y (e.mWidth / 8)
  have hn : min 8 (e.mWidth - 8 * (e.mWidth / 8)) = e.mWidth % 8 := by omega
  rw [hn] at h
  exact h

/-! ### Pixel access -/

/-- There are three channels or one. -/
theorem getNumberOfChannels_cases (e : PnmExporter) :
    e.getNumberOfChannels = 3 ∨ e.getNumberOfChannels = 1 := by
  unfold getNumberOfChannels; split <;> simp

/-- The member `setPixel` on an RGB buffer, when the offsets do not wrap around. -/
theorem setPixel_color_eq (e : PnmExporter) (x y : Nat) (c : PixelColor)
    (hc : e.getNumberOfChannels = 3) (hnw : 3 * (y * e.mWidth + x) + 3 ≤ SIZE_MOD) :
    e.setPixel x y c =
      if 3 * (y * e.mWidth + x) + 2 < e.mPixelData.length then
        .ok ⟨e.mImageType, e.mWidth, e.mHeight,
          ((e.mPixelData.set (3 * (y * e.mWidth + x) + 2) c.b).set
            (3 * (y * e.mWidth + x)) c.r).set (3 * (y * e.mWidth + x) + 1) c.g⟩
      else .out_of_range e := by
  have h1 : sizeT (y * e.mWidth) = y * e.mWidth := sizeT_of_lt (by omega)
  have h2 : sizeT (y * e.mWidth + x) = y * e.mWidth + x := sizeT_of_lt (by omega)
  have h3 : sizeT (3 * (y * e.mWidth + x)) = 3 * (y * e.mWidth + x) := sizeT_of_lt (by omega)
  have h4 : sizeT (3 * (y * e.mWidth + x) + 2) = 3 * (y * e.mWidth + x) + 2 :=
    sizeT_of_lt (by omega)
  have h5 : sizeT (3 * (y * e.mWidth + x) + 1) = 3 * (y * e.mWidth + x) + 1 :=
    sizeT_of_lt (by omega)
  unfold setPixel
  simp only [hc, if_true, h1, h2, h3, h4, h5, List.length_set]
  split
  · rw [if_pos (by omega)]
  · rfl

/-- The member `setPixel` on a single-channel buffer, when the offset does not wrap around. -/
theorem setPixel_mono_eq (e : PnmExporter) (x y : Nat) (c : PixelColor)
    (hc : e.getNumberOfChannels = 1) (hnw : y * e.mWidth + x < SIZE_MOD) :
    e.setPixel x y c =
      if y * e.mWidth + x < e.mPixelData.length then
        .ok ⟨e.mImageType, e.mWidth, e.mHeight, e.mPixelData.set (y * e.mWidth + x)
          (if (e.mImageType = .PBM_ASCII ∨ e.mImageType = .PBM_BIN) ∧ c.y > 1 then 1 else c.y)⟩
      else .out_of_range e := by
  have h1 : sizeT (y * e.mWidth) = y * e.mWidth := sizeT_of_lt (by omega)
  have h2 : sizeT (y * e.mWidth + x) = y * e.mWidth + x := sizeT_of_lt (by omega)
  unfold setPixel
  simp only [hc, h1, h2]
  rfl

/-- The member `getPixel` on an RGB buffer, when the offsets do not wrap around. -/
theorem getPixel_color_eq (e : PnmExporter) (x y : Nat)
    (hc : e.getNumberOfChannels = 3) (hnw : 3 * (y * e.mWidth + x) + 3 ≤ SIZE_MOD) :
    e.getPixel x y =
      if 3 * (y * e.mWidth + x) + 2 < e.mPixelData.length then
        .value ⟨e.mPixelData.getD (3 * (y * e.mWidth + x)) 0,
          e.mPixelData.getD (3 * (y * e.mWidth + x) + 1) 0,
          e.mPixelData.getD (3 * (y * e.mWidth + x) + 2) 0, 0⟩
      else .out_of_range := by
  have h1 : sizeT (y * e.mWidth) = y * e.mWidth := sizeT_of_lt (by omega)
  have h2 : sizeT (y * e.mWidth + x) = y * e.mWidth + x := sizeT_of_lt (by omega)
  have h3 : sizeT (3 * (y * e.mWidth + x)) = 3 * (y * e.mWidth + x) := sizeT_of_lt (by omega)
  have h4 : sizeT (3 * (y * e.mWidth + x) + 2) = 3 * (y * e.mWidth + x) + 2 :=
    sizeT_of_lt (by omega)
  have h5 : sizeT (3 * (y * e.mWidth + x) + 1) = 3 * (y * e.mWidth + x) + 1 :=
    sizeT_of_lt (by omega)
  unfold getPixel
  simp only [hc, if_true, h1, h2, h3, h4, h5]
  by_cases hlt : 3 * (y * e.mWidth + x) + 2 < e.mPixelData.length
  · have ha : 3 * (y * e.mWidth + x) < e.mPixelData.length := by omega
    have hb : 3 * (y * e.mWidth + x) + 1 < e.mPixelData.length := by omega
    simp [hlt, List.getElem?_eq_getElem hlt, List.getElem?_eq_getElem ha,
      List.getElem?_eq_getElem hb]
  · rw [if_neg hlt, List.getElem?_eq_none (by omega)]

/-- The member `getPixel` on a single-channel buffer, when the offset does not wrap around. -/
theorem getPixel_mono_eq (e : PnmExporter) (x y : Nat)
    (hc : e.getNumberOfChannels = 1) (hnw : y * e.mWidth + x < SIZE_MOD) :
    e.getPixel x y =
      if y * e.mWidth + x < e.mPixelData.length then
        .value ⟨0, 0, 0, e.mPixelData.getD (y * e.mWidth + x) 0⟩
      else .out_of_range := by
  have h1 : sizeT (y * e.mWidth) = y * e.mWidth := sizeT_of_lt (by omega)
  have h2 : sizeT (y * e.mWidth + x) = y * e.mWidth + x := sizeT_of_lt (by omega)
  have h13 : ¬ ((1 : Nat) = 3) := by decide
  unfold getPixel
  simp only [hc, h13, if_false, h1, h2]
  by_cases hlt : y * e.mWidth + x < e.mPixelData.length
  · simp [hlt, List.getElem?_eq_getElem hlt]
  · rw [if_neg hlt, List.getElem?_eq_none (by omega)]

/-- Reading the element that was just set. -/
theorem getD_set_self (l : List Nat) (i a : Nat) (h : i < l.length) :
    (l.set i a).getD i 0 = a := by
  rw [List.getD_eq_getElem?_getD, List.getElem?_set_self h]; rfl

/-- Reading another element than the one that was set. -/
theorem getD_set_ne (l : List Nat) (i j a : Nat) (h : i ≠ j) :
    (l.set i a).getD j 0 = l.getD j 0 := by
  rw [List.getD_eq_getElem?_getD, List.getElem?_set_ne h, List.getD_eq_getElem?_getD]

/-- A pixel of the image has a row-major index below `width * height`. -/
theorem rowMajor_lt {x y w h : Nat} (hx : x < w) (hy : y < h) : y * w + x < w * h := by
  have h1 : (y + 1) * w ≤ h * w := Nat.mul_le_mul_right w hy
  rw [Nat.add_mul, Nat.one_mul, Nat.mul_comm h w] at h1
  omega

/-- Row-major indexing is injective on the columns of the image. -/
theorem rowMajor_inj {x y x2 y2 w : Nat} (hx : x < w) (hx2 : x2 < w)
    (h : y * w + x = y2 * w + x2) : x = x2 ∧ y = y2 := by
  have key : ∀ {a b u v : Nat}, u < w → v < w → a * w + u = b * w + v → ¬ a < b := by
    intro a b u v hu hv hab hlt
    have h1 : (a + 1) * w ≤ b * w := Nat.mul_le_mul_right w hlt
    rw [Nat.add_mul, Nat.one_mul] at h1
    omega
  have h1 := key hx hx2 h
  have h2 := key hx2 hx h.symm
  have hy : y = y2 := by omega
  subst hy
  exact ⟨by omega, rfl⟩

/-- Under the length invariant the samples of a pixel of the image are in the storage. -/
theorem inStorage_of_inRange (e : PnmExporter)
    (hlen : e.mPixelData.length = e.mWidth * e.mHeight * e.getNumberOfChannels)
    {x y : Nat} (hx : x < e.mWidth) (hy : y < e.mHeight) :
    e.getNumberOfChannels * (y * e.mWidth + x) + e.getNumberOfChannels ≤
      e.mPixelData.length := by
  have h1 := rowMajor_lt hx hy
  have h2 : e.getNumberOfChannels * (y * e.mWidth + x + 1) ≤
      e.getNumberOfChannels * (e.mWidth * e.mHeight) := Nat.mul_le_mul_left _ h1
  rw [hlen, Nat.mul_comm (e.mWidth * e.mHeight)]
  rw [Nat.mul_add, Nat.mul_one] at h2
  exact h2

/-- The stored colour depends on the format only. -/
theorem storedColor_sameShape {e s : PnmExporter} (h : SameShape e s) (c : PixelColor) :
    storedColor s c = storedColor e c := by
  unfold storedColor getNumberOfChannels
  rw [h.1]

/-- Writing a pixel that lies in the storage succeeds, and the pixel then reads
as the stored colour. -/
theorem setPixel_getPixel_same (e : PnmExporter) (hsz : e.mPixelData.length < SIZE_MOD)
    (x y : Nat) (c : PixelColor)
    (hin : e.getNumberOfChannels * (y * e.mWidth + x) + e.getNumberOfChannels ≤
      e.mPixelData.length) :
    ∃ s, e.setPixel x y c = .ok s ∧ SameShape e s ∧
      s.getPixel x y = .value (storedColor e c) := by
  rcases getNumberOfChannels_cases e with hc | hc
  · rw [hc] at hin
    have hlt : 3 * (y * e.mWidth + x) + 2 < e.mPixelData.length := by omega
    rw [setPixel_color_eq e x y c hc (by omega), if_pos hlt]
    refine ⟨_, rfl, ⟨rfl, rfl, rfl, by simp⟩, ?_⟩
    have hc2 : getNumberOfChannels ⟨e.mImageType, e.mWidth, e.mHeight,
        ((e.mPixelData.set (3 * (y * e.mWidth + x) + 2) c.b).set
          (3 * (y * e.mWidth + x)) c.r).set (3 * (y * e.mWidth + x) + 1) c.g⟩ = 3 := hc
    rw [getPixel_color_eq _ x y hc2 (by simp only []; omega)]
    have d1 : 3 * (y * e.mWidth + x) + 1 ≠ 3 * (y * e.mWidth + x) := by omega
    have d2 : 3 * (y * e.mWidth + x) + 1 ≠ 3 * (y * e.mWidth + x) + 2 := by omega
    have d3 : 3 * (y * e.mWidth + x) ≠ 3 * (y * e.mWidth + x) + 2 := by omega
    simp only [List.length_set, if_pos hlt, storedColor, hc, if_true]
    rw [getD_set_ne _ _ _ _ d1, getD_set_self _ _ _ (by simp; omega),
      getD_set_self _ _ _ (by simp; omega), getD_set_ne _ _ _ _ d2, getD_set_ne _ _ _ _ d3,
      getD_set_self _ _ _ hlt]
  · rw [hc] at hin
    have hlt : y * e.mWidth + x < e.mPixelData.length := by omega
    have h13 : ¬ ((1 : Nat) = 3) := by decide
    rw [setPixel_mono_eq e x y c hc (by omega), if_pos hlt]
    refine ⟨_, rfl, ⟨rfl, rfl, rfl, by simp⟩, ?_⟩
    have hc2 : getNumberOfChannels ⟨e.mImageType, e.mWidth, e.mHeight,
        e.mPixelData.set (y * e.mWidth + x)
          (if (e.mImageType = .PBM_ASCII ∨ e.mImageType = .PBM_BIN) ∧ c.y > 1 then 1
           else c.y)⟩ = 1 := hc
    rw [getPixel_mono_eq _ x y hc2 (by simp only []; omega)]
    simp only [List.length_set, if_pos hlt, storedColor, hc, h13, if_false]
    rw [getD_set_self _ _ _ hlt]

/-- Writing a pixel leaves every other pixel of the storage as it reads. -/
theorem setPixel_getPixel_other (e : PnmExporter) (hsz : e.mPixelData.length < SIZE_MOD)
    (x y x2 y2 : Nat) (c : PixelColor)
    (hin : e.getNumberOfChannels * (y * e.mWidth + x) + e.getNumberOfChannels ≤
      e.mPixelData.length)
    (hin2 : e.getNumberOfChannels * (y2 * e.mWidth + x2) + e.getNumberOfChannels ≤
      e.mPixelData.length)
    (hne : y * e.mWidth + x ≠ y2 * e.mWidth + x2) (s : PnmExporter)
    (hs : e.setPixel x y c = .ok s) : s.getPixel x2 y2 = e.getPixel x2 y2 := by
  rcases getNumberOfChannels_cases e with hc | hc
  · rw [hc] at hin hin2
    have hlt : 3 * (y * e.mWidth + x) + 2 < e.mPixelData.length := by omega
    rw [setPixel_color_eq e x y c hc (by omega), if_pos hlt] at hs
    cases hs
    have hc2 : getNumberOfChannels ⟨e.mImageType, e.mWidth, e.mHeight,
        ((e.mPixelData.set (3 * (y * e.mWidth + x) + 2) c.b).set
          (3 * (y * e.mWidth + x)) c.r).set (3 * (y * e.mWidth + x) + 1) c.g⟩ = 3 := hc
    rw [getPixel_color_eq _ x2 y2 hc2 (by simp only []; omega),
      getPixel_color_eq e x2 y2 hc (by omega)]
    simp only [List.length_set]
    rw [getD_set_ne _ _ _ _ (by omega), getD_set_ne _ _ _ _ (by omega),
      getD_set_ne _ _ _ _ (by omega), getD_set_ne _ _ _ _ (by omega),
      getD_set_ne _ _ _ _ (by omega), getD_set_ne _ _ _ _ (by omega),
      getD_set_ne _ _ _ _ (by omega), getD_set_ne _ _ _ _ (by omega),
      getD_set_ne _ _ _ _ (by omega)]
  · rw [hc] at hin hin2
    have hlt : y * e.mWidth + x < e.mPixelData.length := by omega
    rw [setPixel_mono_eq e x y c hc (by omega), if_pos hlt] at hs
    cases hs
    have hc2 : getNumberOfChannels ⟨e.mImageType, e.mWidth, e.mHeight,
        e.mPixelData.set (y * e.mWidth + x)
          (if (e.mImageType = .PBM_ASCII ∨ e.mImageType = .PBM_BIN) ∧ c.y > 1 then 1
           else c.y)⟩ = 1 := hc
    rw [getPixel_mono_eq _ x2 y2 hc2 (by simp only []; omega),
      getPixel_mono_eq e x2 y2 hc (by omega)]
    simp only [List.length_set]
    rw [getD_set_ne _ _ _ _ hne]

/-- Buffers of the same shape have the same channel count. -/
theorem sameShape_channels {e s : PnmExporter} (h : SameShape e s) :
    s.getNumberOfChannels = e.getNumberOfChannels := by
  unfold getNumberOfChannels; rw [h.1]

/-- The exact length invariant depends on the shape only. -/
theorem sameShape_exact {e s : PnmExporter} (h : SameShape e s)
    (hlen : e.mPixelData.length = e.mWidth * e.mHeight * e.getNumberOfChannels) :
    s.mPixelData.length = s.mWidth * s.mHeight * s.getNumberOfChannels := by
  rw [sameShape_channels h, h.2.1, h.2.2.1, h.2.2.2, hlen]

/-- The inner loop of `setPixels(pred, color)` on a predicate that is defined on
the row: the columns from `x` on are written where the predicate holds. -/
theorem setPixelsRow_char (pred : Nat → Nat → Option Bool) (p : Nat → Nat → Bool)
    (color : PixelColor) (y n : Nat) :
    ∀ (x : Nat) (e : PnmExporter), x + n = e.mWidth → y < e.mHeight →
      e.mPixelData.length = e.mWidth * e.mHeight * e.getNumberOfChannels →
      e.mPixelData.length < SIZE_MOD →
      (∀ x2, x2 < e.mWidth → pred x2 y = some (p x2 y)) →
      ∃ s, setPixelsRow pred color y n x e = .ok s ∧ SameShape e s ∧
        ∀ x2 y2, x2 < e.mWidth → y2 < e.mHeight →
          s.getPixel x2 y2 =
            if y2 = y ∧ x ≤ x2 ∧ p x2 y = true then .value (storedColor e color)
            else e.getPixel x2 y2 := by
  induction n with
  | zero =>
    intro x e hx _ _ _ _
    refine ⟨e, rfl, sameShape_refl e, fun x2 y2 hx2 _ => ?_⟩
    rw [if_neg (by omega)]
  | succ n ih =>
    intro x e hx hy hlen hsz hp
    have hxw : x < e.mWidth := by omega
    rw [setPixelsRow, hp x hxw]
    cases hpx : p x y with
    | true =>
      obtain ⟨s1, hs1, hshape1, hget1⟩ := setPixel_getPixel_same e hsz x y color
        (inStorage_of_inRange e hlen hxw hy)
      obtain ⟨s, hs, hshape, hget⟩ := ih (x + 1) s1 (by rw [hshape1.2.1]; omega)
        (by rw [hshape1.2.2.1]; exact hy) (sameShape_exact hshape1 hlen)
        (by rw [hshape1.2.2.2]; exact hsz) (by rw [hshape1.2.1]; exact hp)
      simp only [hs1, Outcome.andThen]
      refine ⟨s, hs, sameShape_trans hshape1 hshape, fun x2 y2 hx2 hy2 => ?_⟩
      rw [hget x2 y2 (by rw [hshape1.2.1]; exact hx2) (by rw [hshape1.2.2.1]; exact hy2),
        storedColor_sameShape hshape1]
      by_cases hsame : y2 = y ∧ x2 = x
      · obtain ⟨rfl, rfl⟩ := hsame
        rw [if_neg (by omega), if_pos ⟨rfl, Nat.le_refl _, hpx⟩, hget1]
      · have hne : y * e.mWidth + x ≠ y2 * e.mWidth + x2 := by
          intro heq
          obtain ⟨h1, h2⟩ := rowMajor_inj hxw hx2 heq
          exact hsame ⟨h2.symm, h1.symm⟩
        rw [setPixel_getPixel_other e hsz x y x2 y2 color (inStorage_of_inRange e hlen hxw hy)
          (inStorage_of_inRange e hlen hx2 hy2) hne s1 hs1]
        by_cases hcond : y2 = y ∧ x ≤ x2 ∧ p x2 y = true
        · rw [if_pos hcond, if_pos ⟨hcond.1, by omega, hcond.2.2⟩]
        · rw [if_neg hcond, if_neg (fun h => hcond ⟨h.1, by omega, h.2.2⟩)]
    | false =>
      obtain ⟨s, hs, hshape, hget⟩ := ih (x + 1) e (by omega) hy hlen hsz hp
      refine ⟨s, hs, hshape, fun x2 y2 hx2 hy2 => ?_⟩
      rw [hget x2 y2 hx2 hy2]
      by_cases hcond : y2 = y ∧ x ≤ x2 ∧ p x2 y = true
      · have : x2 ≠ x := by
          intro h; rw [h, hpx] at hcond; exact absurd hcond.2.2 (by decide)
        rw [if_pos hcond, if_pos ⟨hcond.1, by omega, hcond.2.2⟩]
      · rw [if_neg hcond, if_neg (fun h => hcond ⟨h.1, by omega, h.2.2⟩)]

/-- The outer loop of `setPixels(pred, color)`: the rows from `y` on. -/
theorem setPixelsRows_char (pred : Nat → Nat → Option Bool) (p : Nat → Nat → Bool)
    (color : PixelColor) (n : Nat) :
    ∀ (y : Nat) (e : PnmExporter), y + n = e.mHeight →
      e.mPixelData.length = e.mWidth * e.mHeight * e.getNumberOfChannels →
      e.mPixelData.length < SIZE_MOD →
      (∀ x2 y2, x2 < e.mWidth → y2 < e.mHeight → pred x2 y2 = some (p x2 y2)) →
      ∃ s, setPixelsRows pred color n y e = .ok s ∧ SameShape e s ∧
        ∀ x2 y2, x2 < e.mWidth → y2 < e.mHeight →
          s.getPixel x2 y2 =
            if y ≤ y2 ∧ p x2 y2 = true then .value (storedColor e color)
            else e.getPixel x2 y2 := by
  induction n with
  | zero =>
    intro y e hy _ _ _
    refine ⟨e, rfl, sameShape_refl e, fun x2 y2 _ hy2 => ?_⟩
    rw [if_neg (by omega)]
  | succ n ih =>
    intro y e hy hlen hsz hp
    have hyh : y < e.mHeight := by omega
    obtain ⟨s1, hs1, hshape1, hget1⟩ := setPixelsRow_char pred p color y e.mWidth 0 e
      (by omega) hyh hlen hsz (fun x2 hx2 => hp x2 y hx2 hyh)
    obtain ⟨s, hs, hshape, hget⟩ := ih (y + 1) s1 (by rw [hshape1.2.2.1]; omega)
      (sameShape_exact hshape1 hlen) (by rw [hshape1.2.2.2]; exact hsz)
      (by rw [hshape1.2.1, hshape1.2.2.1]; exact hp)
    rw [setPixelsRows, hs1]
    simp only [Outcome.andThen]
    refine ⟨s, hs, sameShape_trans hshape1 hshape, fun x2 y2 hx2 hy2 => ?_⟩
    rw [hget x2 y2 (by rw [hshape1.2.1]; exact hx2) (by rw [hshape1.2.2.1]; exact hy2),
      storedColor_sameShape hshape1, hget1 x2 y2 hx2 hy2]
    by_cases hrow : y2 = y
    · subst hrow
      have h1 : ¬ (y2 + 1 ≤ y2 ∧ p x2 y2 = true) := fun h => absurd h.1 (by omega)
      rw [if_neg h1]
      by_cases hpx : p x2 y2 = true
      · have h2 : y2 = y2 ∧ 0 ≤ x2 ∧ p x2 y2 = true := ⟨rfl, Nat.zero_le _, hpx⟩
        have h3 : y2 ≤ y2 ∧ p x2 y2 = true := ⟨Nat.le_refl _, hpx⟩
        rw [if_pos h2, if_pos h3]
      · have h2 : ¬ (y2 = y2 ∧ 0 ≤ x2 ∧ p x2 y2 = true) := fun h => hpx h.2.2
        have h3 : ¬ (y2 ≤ y2 ∧ p x2 y2 = true) := fun h => hpx h.2
        rw [if_neg h2, if_neg h3]
    · have h1 : ¬ (y2 = y ∧ 0 ≤ x2 ∧ p x2 y = true) := fun h => hrow h.1
      rw [if_neg h1]
      by_cases hcond : y + 1 ≤ y2 ∧ p x2 y2 = true
      · have h2 : y ≤ y2 ∧ p x2 y2 = true := ⟨by omega, hcond.2⟩
        rw [if_pos hcond, if_pos h2]
      · have h2 : ¬ (y ≤ y2 ∧ p x2 y2 = true) := fun h => hcond ⟨by omega, h.2⟩
        rw [if_neg hcond, if_neg h2]

/-- The member `setPixels(pred, color)` on a predicate that is defined on the
image: exactly the pixels on which it holds are written. -/
theorem setPixels_char (e : PnmExporter)
    (hlen : e.mPixelData.length = e.mWidth * e.mHeight * e.getNumberOfChannels)
    (hsz : e.mPixelData.length < SIZE_MOD)
    (pred : Nat → Nat → Option Bool) (p : Nat → Nat → Bool)
    (hp : ∀ x y, x < e.mWidth → y < e.mHeight → pred x y = some (p x y))
    (color : PixelColor) :
    ∃ s, e.setPixels pred color = .ok s ∧ SameShape e s ∧
      ∀ x y, x < e.mWidth → y < e.mHeight →
        s.getPixel x y = if p x y = true then .value (storedColor e color)
          else e.getPixel x y := by
  obtain ⟨s, hs, hshape, hget⟩ :=
    setPixelsRows_char pred p color e.mHeight 0 e (by omega) hlen hsz hp
  refine ⟨s, hs, hshape, fun x y hx hy => ?_⟩
  rw [hget x y hx hy]
  by_cases hpx : p x y = true
  · rw [if_pos ⟨Nat.zero_le _, hpx⟩, if_pos hpx]
  · rw [if_neg (fun h => hpx h.2), if_neg hpx]

/-- Claim C11 (amended): when `width * height * channelCount` is at most
`max_size()`, the constructor returns a buffer that stores the width, the height
and the format (the format defaults to `PPM_BIN`), whose channel count is 3 for
the two colour formats and 1 otherwise, and whose pixel data have the length
`width * height * channelCount` and are all zero.  In general the constructor
returns exactly when the `size_t` value of the product is at most `max_size()`
and throws `std::length_error` otherwise; when it returns, the pixel data have
the length of that `size_t` value, which is the product itself when that is at
most `max_size()`. -/
theorem C11_constructor (width height : Nat) (type : PnmImageType) :
    (width * height * (if type = .PPM_ASCII ∨ type = .PPM_BIN then 3 else 1) ≤ VECTOR_MAX_SIZE →
      ∃ e, create width height type = .ok e ∧
        e.getWidth = width ∧ e.getHeight = height ∧ e.getImageType = type ∧
        e.getNumberOfChannels = (if type = .PPM_ASCII ∨ type = .PPM_BIN then 3 else 1) ∧
        e.mPixelData.length = width * height * e.getNumberOfChannels ∧
        (∀ v ∈ e.mPixelData, v = 0)) ∧
    (width * height * 3 ≤ VECTOR_MAX_SIZE →
      ∃ e, createDefault width height = .ok e ∧
        e.getWidth = width ∧ e.getHeight = height ∧ e.getImageType = .PPM_BIN ∧
        e.getNumberOfChannels = 3 ∧
        e.mPixelData.length = width * height * 3 ∧
        (∀ v ∈ e.mPixelData, v = 0)) ∧
    (∀ e, create width height type = .ok e →
      e.getWidth = width ∧ e.getHeight = height ∧ e.getImageType = type ∧
        e.getNumberOfChannels = (if type = .PPM_ASCII ∨ type = .PPM_BIN then 3 else 1) ∧
        e.mPixelData.length = sizeT (sizeT (width * height) * e.getNumberOfChannels) ∧
        (width * height * (if type = .PPM_ASCII ∨ type = .PPM_BIN then 3 else 1)
            ≤ VECTOR_MAX_SIZE →
          e.mPixelData.length = width * height * e.getNumberOfChannels) ∧
        (∀ v ∈ e.mPixelData, v = 0)) ∧
    ((∃ e, create width height type = .ok e) ↔
      sizeT (sizeT (width * height) * (if type = .PPM_ASCII ∨ type = .PPM_BIN then 3 else 1))
        ≤ VECTOR_MAX_SIZE) ∧
    (create width height type = .length_error ↔
      VECTOR_MAX_SIZE <
        sizeT (sizeT (width * height) * (if type = .PPM_ASCII ∨ type = .PPM_BIN then 3 else 1)))
    := by
  refine ⟨fun h => ?_, fun h => ?_, fun e he => ?_, ⟨fun ⟨e, he⟩ => ?_, fun h => ?_⟩,
    ⟨fun he => ?_, fun h => create_of_gt width height type h⟩⟩
  · refine ⟨_, create_exact width height type h, rfl, rfl, rfl, rfl, ?_, ?_⟩
    · rw [List.length_replicate]; rfl
    · intro v hv; exact List.eq_of_mem_replicate hv
  · refine ⟨_, create_exact width height .PPM_BIN h, rfl, rfl, rfl, rfl, ?_, ?_⟩
    · rw [List.length_replicate]; rfl
    · intro v hv; exact List.eq_of_mem_replicate hv
  · by_cases hle : sizeT (sizeT (width * height) *
        (if type = .PPM_ASCII ∨ type = .PPM_BIN then 3 else 1)) ≤ VECTOR_MAX_SIZE
    · rw [create_of_le width height type hle] at he
      injection he with he
      subst he
      refine ⟨rfl, rfl, rfl, rfl, ?_, fun hprod => ?_, ?_⟩
      · rw [List.length_replicate]; rfl
      · have hch : 1 ≤ (if type = .PPM_ASCII ∨ type = .PPM_BIN then 3 else 1) := by
          split <;> omega
        show (List.replicate _ 0).length = _
        rw [List.length_replicate, sizeT_product hch hprod]
        rfl
      · intro v hv; exact List.eq_of_mem_replicate hv
    · rw [create_of_gt width height type (Nat.not_le.mp hle)] at he
      cases he
  · by_contra hgt
    rw [create_of_gt width height type (Nat.not_le.mp hgt)] at he
    cases he
  · exact ⟨_, create_of_le width height type h⟩
  · by_contra hle
    rw [create_of_le width height type (Nat.not_lt.mp hle)] at he
    cases he

/-- Witness of C11 on the 640 x 480 buffer of the unit test. -/
theorem C11_constructor_witness :
    640 * 480 * 3 ≤ VECTOR_MAX_SIZE ∧
    ∃ e, createDefault 640 480 = .ok e ∧
      e.getWidth = 640 ∧ e.getHeight = 480 ∧ e.getImageType = .PPM_BIN ∧
      e.getNumberOfChannels = 3 ∧
      e.mPixelData.length = 640 * 480 * 3 ∧
      (∀ v ∈ e.mPixelData, v = 0) :=
  ⟨by decide, (C11_constructor 640 480 .PPM_BIN).2.1 (by decide)⟩

/-- Counterexample to C11 as stated: the constructor call with the dimensions
`2 ^ 32` by `2 ^ 32` returns a grayscale buffer whose pixel data have length 0,
not `2 ^ 32 * 2 ^ 32 * 1`, and the call with the dimensions `2 ^ 63` by 1 yields
no buffer, it throws `std::length_error`. -/
theorem C11_counterexample_wrapped_size :
    create (2 ^ 32) (2 ^ 32) .PGM_BIN = .ok ⟨.PGM_BIN, 2 ^ 32, 2 ^ 32, []⟩
    ∧ getNumberOfChannels ⟨.PGM_BIN, 2 ^ 32, 2 ^ 32, []⟩ = 1
    ∧ (PnmExporter.mk .PGM_BIN (2 ^ 32) (2 ^ 32) []).mPixelData.length ≠ 2 ^ 32 * 2 ^ 32 * 1
    ∧ create (2 ^ 63) 1 .PGM_BIN = .length_error := by
  refine ⟨by decide, by decide, by decide, by decide⟩

/-- Claim C12 (amended): on a buffer that satisfies the length invariant, for a
pixel of the image, `setPixel` stores the written channels at the indices `channelCount * (y * width + x) ..`: `r`, `g`, `b` in that order for
the colour formats, the (for bitmaps clamped) `y` for the single-channel ones. -/
theorem C12_setPixel_row_major (e : PnmExporter)
    (hlen : e.mPixelData.length = e.mWidth * e.mHeight * e.getNumberOfChannels)
    (hsz : e.mPixelData.length < SIZE_MOD)
    (x y : Nat) (hx : x < e.mWidth) (hy : y < e.mHeight) (color : PixelColor) :
    ∃ s, e.setPixel x y color = .ok s ∧
      (e.getNumberOfChannels = 3 →
        s.mPixelData[3 * (y * e.mWidth + x)]? = some color.r ∧
        s.mPixelData[3 * (y * e.mWidth + x) + 1]? = some color.g ∧
        s.mPixelData[3 * (y * e.mWidth + x) + 2]? = some color.b) ∧
      (e.getNumberOfChannels = 1 →
        s.mPixelData[1 * (y * e.mWidth + x)]? =
          some (if (e.mImageType = .PBM_ASCII ∨ e.mImageType = .PBM_BIN) ∧ color.y > 1
                then 1 else color.y)) := by
  have hin := inStorage_of_inRange e hlen hx hy
  rcases getNumberOfChannels_cases e with hc | hc
  · rw [hc] at hin
    have hlt : 3 * (y * e.mWidth + x) + 2 < e.mPixelData.length := by omega
    rw [setPixel_color_eq e x y color hc (by omega), if_pos hlt]
    refine ⟨_, rfl, fun _ => ⟨?_, ?_, ?_⟩, fun h1 => absurd (hc.symm.trans h1) (by decide)⟩
    · rw [List.getElem?_set_ne (by omega), List.getElem?_set_self (by simp; omega)]
    · rw [List.getElem?_set_self (by simp; omega)]
    · rw [List.getElem?_set_ne (by omega), List.getElem?_set_ne (by omega),
        List.getElem?_set_self hlt]
  · rw [hc] at hin
    have hlt : y * e.mWidth + x < e.mPixelData.length := by omega
    rw [setPixel_mono_eq e x y color hc (by omega), if_pos hlt]
    refine ⟨_, rfl, fun h3 => absurd (hc.symm.trans h3) (by decide), fun _ => ?_⟩
    rw [Nat.one_mul, List.getElem?_set_self hlt]

/-- Witness of C12 on a 2 x 1 RGB buffer. -/
theorem C12_setPixel_row_major_witness :
    ∃ s, setPixel ⟨.PPM_BIN, 2, 1, [0, 0, 0, 0, 0, 0]⟩ 1 0 (PixelColor.make 7 8 9) = .ok s ∧
      (getNumberOfChannels ⟨.PPM_BIN, 2, 1, [0, 0, 0, 0, 0, 0]⟩ = 3 →
        s.mPixelData[3 * (0 * 2 + 1)]? = some 7 ∧
        s.mPixelData[3 * (0 * 2 + 1) + 1]? = some 8 ∧
        s.mPixelData[3 * (0 * 2 + 1) + 2]? = some 9) ∧
      (getNumberOfChannels ⟨.PPM_BIN, 2, 1, [0, 0, 0, 0, 0, 0]⟩ = 1 →
        s.mPixelData[1 * (0 * 2 + 1)]? =
          some (if (PnmImageType.PPM_BIN = .PBM_ASCII ∨ PnmImageType.PPM_BIN = .PBM_BIN) ∧
            (PixelColor.make 7 8 9).y > 1 then 1 else (PixelColor.make 7 8 9).y)) :=
  C12_setPixel_row_major ⟨.PPM_BIN, 2, 1, [0, 0, 0, 0, 0, 0]⟩ (by decide) (by decide) 1 0
    (by decide) (by decide) (PixelColor.make 7 8 9)

/-- Counterexample to C12 as stated: the constructor call with the dimensions
`2 ^ 32` by `2 ^ 32` returns a grayscale buffer without any sample; the pixel
`(0, 0)` lies within its dimensions, and `setPixel(0, 0, ...)` throws
`std::out_of_range` and stores nothing. -/
theorem C12_counterexample_wrapped_size :
    create (2 ^ 32) (2 ^ 32) .PGM_BIN = .ok ⟨.PGM_BIN, 2 ^ 32, 2 ^ 32, []⟩
    ∧ 0 < (PnmExporter.mk .PGM_BIN (2 ^ 32) (2 ^ 32) []).mWidth
    ∧ 0 < (PnmExporter.mk .PGM_BIN (2 ^ 32) (2 ^ 32) []).mHeight
    ∧ setPixel ⟨.PGM_BIN, 2 ^ 32, 2 ^ 32, []⟩ 0 0 (PixelColor.make 9 0 0) =
        .out_of_range ⟨.PGM_BIN, 2 ^ 32, 2 ^ 32, []⟩
    ∧ (PnmExporter.mk .PGM_BIN (2 ^ 32) (2 ^ 32) []).mPixelData[1 * (0 * 2 ^ 32 + 0)]? = none := by
  refine ⟨by decide, by decide, by decide, by decide, by decide⟩

/-- Claim C13 (amended): on a buffer that satisfies the length invariant, for a
pixel of the image, `getPixel` after `setPixel` returns what was written: `r`, `g`, `b` for the colour formats, `y` for the grayscale formats;
writing (127, 255, 1) at (10, 10) of the 640 x 480 colour buffer reads back
127, 255, 1. -/
theorem C13_getPixel_after_setPixel (e : PnmExporter)
    (hlen : e.mPixelData.length = e.mWidth * e.mHeight * e.getNumberOfChannels)
    (hsz : e.mPixelData.length < SIZE_MOD)
    (x y : Nat) (hx : x < e.mWidth) (hy : y < e.mHeight) (c : PixelColor) :
    (∃ s v, e.setPixel x y c = .ok s ∧ s.getPixel x y = .value v ∧
      (e.mImageType = .PPM_ASCII ∨ e.mImageType = .PPM_BIN →
        v.r = c.r ∧ v.g = c.g ∧ v.b = c.b) ∧
      (e.mImageType = .PGM_ASCII ∨ e.mImageType = .PGM_BIN → v.y = c.y)) ∧
    (∃ b s, createDefault 640 480 = .ok b ∧
      b.setPixel 10 10 (PixelColor.make 127 255 1) = .ok s ∧
      s.getPixel 10 10 = .value ⟨127, 255, 1, 0⟩) := by
  constructor
  · obtain ⟨s, hs, _, hget⟩ := setPixel_getPixel_same e hsz x y c
      (inStorage_of_inRange e hlen hx hy)
    refine ⟨s, storedColor e c, hs, hget, fun hfmt => ?_, fun hfmt => ?_⟩
    · rcases hfmt with h | h <;> simp [storedColor, getNumberOfChannels, h]
    · rcases hfmt with h | h <;> simp [storedColor, getNumberOfChannels, h]
  · have hb := create_exact 640 480 .PPM_BIN (by decide)
    have hl : (PnmExporter.mk .PPM_BIN 640 480 (List.replicate (640 * 480 *
        (if PnmImageType.PPM_BIN = .PPM_ASCII ∨ PnmImageType.PPM_BIN = .PPM_BIN then 3 else 1))
        0)).mPixelData.length = 921600 := by
      show (List.replicate _ 0).length = 921600
      rw [List.length_replicate]
      decide
    obtain ⟨s, hs, _, hget⟩ := setPixel_getPixel_same _
      (by rw [hl]; decide) 10 10 (PixelColor.make 127 255 1)
      (by rw [hl]; decide)
    exact ⟨_, s, hb, hs, hget⟩

/-- Witness of C13 on a 2 x 2 grayscale buffer. -/
theorem C13_getPixel_after_setPixel_witness :
    ∃ s v, setPixel ⟨.PGM_BIN, 2, 2, [0, 0, 0, 0]⟩ 1 1 (PixelColor.make 200 0 0) = .ok s ∧
      s.getPixel 1 1 = .value v ∧
      (PnmImageType.PGM_BIN = .PPM_ASCII ∨ PnmImageType.PGM_BIN = .PPM_BIN →
        v.r = (PixelColor.make 200 0 0).r ∧ v.g = (PixelColor.make 200 0 0).g ∧
          v.b = (PixelColor.make 200 0 0).b) ∧
      (PnmImageType.PGM_BIN = .PGM_ASCII ∨ PnmImageType.PGM_BIN = .PGM_BIN →
        v.y = (PixelColor.make 200 0 0).y) :=
  (C13_getPixel_after_setPixel ⟨.PGM_BIN, 2, 2, [0, 0, 0, 0]⟩ (by decide) (by decide) 1 1
    (by decide) (by decide) (PixelColor.make 200 0 0)).1

/-- Counterexample to C13 as stated: the constructor call with the dimensions
`2 ^ 32` by `2 ^ 32` returns a colour buffer without any sample; the pixel
`(0, 0)` lies within its dimensions, `setPixel(0, 0, ...)` throws
`std::out_of_range`, and so does `getPixel(0, 0)`. -/
theorem C13_counterexample_wrapped_size :
    create (2 ^ 32) (2 ^ 32) .PPM_BIN = .ok ⟨.PPM_BIN, 2 ^ 32, 2 ^ 32, []⟩
    ∧ 0 < (PnmExporter.mk .PPM_BIN (2 ^ 32) (2 ^ 32) []).mWidth
    ∧ 0 < (PnmExporter.mk .PPM_BIN (2 ^ 32) (2 ^ 32) []).mHeight
    ∧ setPixel ⟨.PPM_BIN, 2 ^ 32, 2 ^ 32, []⟩ 0 0 (PixelColor.make 127 255 1) =
        .out_of_range ⟨.PPM_BIN, 2 ^ 32, 2 ^ 32, []⟩
    ∧ getPixel ⟨.PPM_BIN, 2 ^ 32, 2 ^ 32, []⟩ 0 0 = .out_of_range := by
  refine ⟨by decide, by decide, by decide, by decide, by decide⟩

/-- Claim C14 (amended): on a bitmap buffer that satisfies the length invariant,
`setPixel` followed by `getPixel` at a pixel of the image yields `y = 1` when the written value exceeds 1 and the written value
otherwise; writing 5 reads back 1. -/
theorem C14_bitmap_clamp (e : PnmExporter)
    (hfmt : e.mImageType = .PBM_ASCII ∨ e.mImageType = .PBM_BIN)
    (hlen : e.mPixelData.length = e.mWidth * e.mHeight * e.getNumberOfChannels)
    (hsz : e.mPixelData.length < SIZE_MOD)
    (x y : Nat) (hx : x < e.mWidth) (hy : y < e.mHeight) (color : PixelColor) :
    (∃ s v, e.setPixel x y color = .ok s ∧ s.getPixel x y = .value v ∧
      v.y = if color.y > 1 then 1 else color.y) ∧
    (∃ b s, create 2 2 .PBM_BIN = .ok b ∧ b.setPixel 1 1 (PixelColor.make 5 0 0) = .ok s ∧
      s.getPixel 1 1 = .value ⟨0, 0, 0, 1⟩) := by
  constructor
  · obtain ⟨s, hs, _, hget⟩ := setPixel_getPixel_same e hsz x y color
      (inStorage_of_inRange e hlen hx hy)
    refine ⟨s, storedColor e color, hs, hget, ?_⟩
    rcases hfmt with h | h <;> simp [storedColor, getNumberOfChannels, h]
  · exact ⟨⟨.PBM_BIN, 2, 2, [0, 0, 0, 0]⟩, ⟨.PBM_BIN, 2, 2, [0, 0, 0, 1]⟩, by decide,
      by decide, by decide⟩

/-- Witness of C14 on a 2 x 1 bitmap. -/
theorem C14_bitmap_clamp_witness :
    ∃ s v, setPixel ⟨.PBM_ASCII, 2, 1, [0, 0]⟩ 1 0 (PixelColor.make 5 0 0) = .ok s ∧
      s.getPixel 1 0 = .value v ∧
      v.y = if (PixelColor.make 5 0 0).y > 1 then 1 else (PixelColor.make 5 0 0).y :=
  (C14_bitmap_clamp ⟨.PBM_ASCII, 2, 1, [0, 0]⟩ (by decide) (by decide) (by decide) 1 0
    (by decide) (by decide) (PixelColor.make 5 0 0)).1

/-- Counterexample to C14 as stated: the constructor call with the dimensions
`2 ^ 32` by `2 ^ 32` returns a bitmap without any sample; the pixel `(0, 0)` lies
within its dimensions, `setPixel(0, 0, 5)` throws `std::out_of_range`, and so
does `getPixel(0, 0)`: nothing is read back. -/
theorem C14_counterexample_wrapped_size :
    create (2 ^ 32) (2 ^ 32) .PBM_BIN = .ok ⟨.PBM_BIN, 2 ^ 32, 2 ^ 32, []⟩
    ∧ 0 < (PnmExporter.mk .PBM_BIN (2 ^ 32) (2 ^ 32) []).mWidth
    ∧ 0 < (PnmExporter.mk .PBM_BIN (2 ^ 32) (2 ^ 32) []).mHeight
    ∧ setPixel ⟨.PBM_BIN, 2 ^ 32, 2 ^ 32, []⟩ 0 0 (PixelColor.make 5 0 0) =
        .out_of_range ⟨.PBM_BIN, 2 ^ 32, 2 ^ 32, []⟩
    ∧ getPixel ⟨.PBM_BIN, 2 ^ 32, 2 ^ 32, []⟩ 0 0 = .out_of_range := by
  refine ⟨by decide, by decide, by decide, by decide, by decide⟩

/-- Both accessors, when the offsets do not wrap around: they throw exactly when
the samples of the pixel are not all in the storage, and succeed otherwise. -/
theorem access_outcome (e : PnmExporter) (x y : Nat) (c : PixelColor)
    (hnw : e.getNumberOfChannels * (y * e.mWidth + x) + e.getNumberOfChannels ≤ SIZE_MOD) :
    (e.getNumberOfChannels * (y * e.mWidth + x) + e.getNumberOfChannels > e.mPixelData.length →
      e.getPixel x y = .out_of_range ∧ e.setPixel x y c = .out_of_range e) ∧
    (e.getNumberOfChannels * (y * e.mWidth + x) + e.getNumberOfChannels ≤ e.mPixelData.length →
      (∃ v, e.getPixel x y = .value v) ∧ ∃ s, e.setPixel x y c = .ok s) := by
  rcases getNumberOfChannels_cases e with hc | hc
  · rw [hc] at hnw ⊢
    rw [getPixel_color_eq e x y hc hnw, setPixel_color_eq e x y c hc hnw]
    constructor
    · intro h
      rw [if_neg (by omega), if_neg (by omega)]
      exact ⟨rfl, rfl⟩
    · intro h
      rw [if_pos (by omega), if_pos (by omega)]
      exact ⟨⟨_, rfl⟩, ⟨_, rfl⟩⟩
  · rw [hc] at hnw ⊢
    rw [getPixel_mono_eq e x y hc (by omega), setPixel_mono_eq e x y c hc (by omega)]
    constructor
    · intro h
      rw [if_neg (by omega), if_neg (by omega)]
      exact ⟨rfl, rfl⟩
    · intro h
      rw [if_pos (by omega), if_pos (by omega)]
      exact ⟨⟨_, rfl⟩, ⟨_, rfl⟩⟩

/-- Claim C16, amended: for coordinates whose offset computation does not wrap around
(`channelCount * (y * width + x) + channelCount` is at most `2 ^ 64`), `getPixel`
and `setPixel` throw `std::out_of_range` exactly when that bound exceeds the
length of the pixel data, and succeed otherwise. -/
theorem C16_out_of_range_iff (e : PnmExporter) (x y : Nat) (c : PixelColor)
    (hnw : e.getNumberOfChannels * (y * e.mWidth + x) + e.getNumberOfChannels ≤ SIZE_MOD) :
    (e.getPixel x y = .out_of_range ↔
      e.getNumberOfChannels * (y * e.mWidth + x) + e.getNumberOfChannels >
        e.mPixelData.length) ∧
    (e.setPixel x y c = .out_of_range e ↔
      e.getNumberOfChannels * (y * e.mWidth + x) + e.getNumberOfChannels >
        e.mPixelData.length) ∧
    (e.getNumberOfChannels * (y * e.mWidth + x) + e.getNumberOfChannels ≤
        e.mPixelData.length →
      (∃ v, e.getPixel x y = .value v) ∧ ∃ s, e.setPixel x y c = .ok s) := by
  obtain ⟨hout, hin⟩ := access_outcome e x y c hnw
  refine ⟨⟨fun h => ?_, fun h => (hout h).1⟩, ⟨fun h => ?_, fun h => (hout h).2⟩, hin⟩
  · by_contra hle
    obtain ⟨⟨v, hv⟩, _⟩ := hin (by omega)
    rw [hv] at h
    cases h
  · by_contra hle
    obtain ⟨_, ⟨s, hs⟩⟩ := hin (by omega)
    rw [hs] at h
    cases h

/-- Witness of C16 on a 1 x 1 RGB buffer. -/
theorem C16_out_of_range_iff_witness :
    (getPixel ⟨.PPM_BIN, 1, 1, [1, 2, 3]⟩ 1 0 = .out_of_range ↔
      getNumberOfChannels ⟨.PPM_BIN, 1, 1, [1, 2, 3]⟩ * (0 * 1 + 1) +
        getNumberOfChannels ⟨.PPM_BIN, 1, 1, [1, 2, 3]⟩ > 3) ∧
    3 * (0 * 1 + 1) + 3 > 3 :=
  ⟨(C16_out_of_range_iff ⟨.PPM_BIN, 1, 1, [1, 2, 3]⟩ 1 0 (PixelColor.make 0 0 0)
    (by decide)).1, by decide⟩

/-- Counterexample to C16 as stated: on the 2 x 1 grayscale buffer the pixel
`(0, 2 ^ 63)` has its samples far outside the storage, yet `y * mWidth` wraps
around to 0 and both accessors succeed on pixel `(0, 0)`. -/
theorem C16_counterexample_wrapped_offset :
    LengthInvariant ⟨.PGM_BIN, 2, 1, [0, 0]⟩ ∧
    getNumberOfChannels ⟨.PGM_BIN, 2, 1, [0, 0]⟩ * (2 ^ 63 * 2 + 0) +
      getNumberOfChannels ⟨.PGM_BIN, 2, 1, [0, 0]⟩ > [0, 0].length ∧
    setPixel ⟨.PGM_BIN, 2, 1, [0, 0]⟩ 0 (2 ^ 63) (PixelColor.make 7 0 0) =
      .ok ⟨.PGM_BIN, 2, 1, [7, 0]⟩ ∧
    getPixel ⟨.PGM_BIN, 2, 1, [0, 0]⟩ 0 (2 ^ 63) = .value ⟨0, 0, 0, 0⟩ := by
  decide

/-- Claim C17, amended: the accessors check the flat offset only. Under the length
invariant, for coordinates whose offset does not wrap around, they throw whenever
`y >= height`; with `x >= width` they throw exactly when `y * width + x` is at
least `width * height`, and succeed otherwise. -/
theorem C17_flat_offset_only (e : PnmExporter)
    (hlen : e.mPixelData.length = e.mWidth * e.mHeight * e.getNumberOfChannels)
    (x y : Nat) (c : PixelColor)
    (hnw : e.getNumberOfChannels * (y * e.mWidth + x) + e.getNumberOfChannels ≤ SIZE_MOD) :
    (e.mHeight ≤ y → e.getPixel x y = .out_of_range ∧ e.setPixel x y c = .out_of_range e) ∧
    (e.mWidth ≤ x → e.mWidth * e.mHeight ≤ y * e.mWidth + x →
      e.getPixel x y = .out_of_range ∧ e.setPixel x y c = .out_of_range e) ∧
    (e.mWidth ≤ x → y * e.mWidth + x < e.mWidth * e.mHeight →
      (∃ v, e.getPixel x y = .value v) ∧ ∃ s, e.setPixel x y c = .ok s) := by
  obtain ⟨hout, hin⟩ := access_outcome e x y c hnw
  have hpos := getNumberOfChannels_pos e
  have hfar : e.mWidth * e.mHeight ≤ y * e.mWidth + x →
      e.getNumberOfChannels * (y * e.mWidth + x) + e.getNumberOfChannels >
        e.mPixelData.length := by
    intro h
    have h1 : e.getNumberOfChannels * (e.mWidth * e.mHeight) ≤
        e.getNumberOfChannels * (y * e.mWidth + x) := Nat.mul_le_mul_left _ h
    rw [hlen, Nat.mul_comm (e.mWidth * e.mHeight)]
    omega
  refine ⟨fun hy => hout (hfar ?_), fun _ h => hout (hfar h), fun _ h => hin ?_⟩
  · have h1 : e.mHeight * e.mWidth ≤ y * e.mWidth := Nat.mul_le_mul_right _ hy
    rw [Nat.mul_comm e.mWidth]
    omega
  · have h1 : e.getNumberOfChannels * (y * e.mWidth + x + 1) ≤
        e.getNumberOfChannels * (e.mWidth * e.mHeight) := Nat.mul_le_mul_left _ h
    rw [hlen, Nat.mul_comm (e.mWidth * e.mHeight)]
    rw [Nat.mul_add, Nat.mul_one] at h1
    exact h1

/-- Witness of C17 on a 2 x 2 grayscale buffer. -/
theorem C17_flat_offset_only_witness :
    PnmExporter.mHeight ⟨.PGM_BIN, 2, 2, [1, 2, 3, 4]⟩ ≤ 2 ∧
    getPixel ⟨.PGM_BIN, 2, 2, [1, 2, 3, 4]⟩ 0 2 = .out_of_range ∧
    setPixel ⟨.PGM_BIN, 2, 2, [1, 2, 3, 4]⟩ 0 2 (PixelColor.make 9 0 0) =
      .out_of_range ⟨.PGM_BIN, 2, 2, [1, 2, 3, 4]⟩ :=
  ⟨by decide, (C17_flat_offset_only ⟨.PGM_BIN, 2, 2, [1, 2, 3, 4]⟩ (by decide) 0 2
    (PixelColor.make 9 0 0) (by decide)).1 (by decide)⟩

/-- Counterexample to C17 as stated: on the 2 x 2 grayscale buffer the coordinates
`(2, 0)` have `x >= width`, and both accessors succeed, on pixel `(0, 1)`. -/
theorem C17_counterexample_column_past_width :
    (2 : Nat) ≥ PnmExporter.mWidth ⟨.PGM_BIN, 2, 2, [1, 2, 3, 4]⟩ ∧
    getPixel ⟨.PGM_BIN, 2, 2, [1, 2, 3, 4]⟩ 2 0 = .value ⟨0, 0, 0, 3⟩ ∧
    setPixel ⟨.PGM_BIN, 2, 2, [1, 2, 3, 4]⟩ 2 0 (PixelColor.make 9 0 0) =
      .ok ⟨.PGM_BIN, 2, 2, [1, 2, 9, 4]⟩ := by
  decide

/-- Claim C18: under the length invariant, `setPixels(pred, color)` returns, and each
pixel of the image then reads as after `setPixel(x, y, color)` when `pred(x, y)`
holds and as before when it does not. -/
theorem C18_setPixels_pred (e : PnmExporter)
    (hlen : e.mPixelData.length = e.mWidth * e.mHeight * e.getNumberOfChannels)
    (hsz : e.mPixelData.length < SIZE_MOD)
    (pred : Nat → Nat → Bool) (color : PixelColor) :
    ∃ s, e.setPixels (fun x y => some (pred x y)) color = .ok s ∧ SameShape e s ∧
      ∀ x y, x < e.mWidth → y < e.mHeight →
        (pred x y = true →
          ∃ s1 v, e.setPixel x y color = .ok s1 ∧ s1.getPixel x y = .value v ∧
            s.getPixel x y = .value v) ∧
        (pred x y = false → s.getPixel x y = e.getPixel x y) := by
  obtain ⟨s, hs, hshape, hget⟩ := setPixels_char e hlen hsz (fun x y => some (pred x y)) pred
    (fun _ _ _ _ => rfl) color
  refine ⟨s, hs, hshape, fun x y hx hy => ⟨fun hp => ?_, fun hp => ?_⟩⟩
  · obtain ⟨s1, hs1, _, hget1⟩ := setPixel_getPixel_same e hsz x y color
      (inStorage_of_inRange e hlen hx hy)
    refine ⟨s1, _, hs1, hget1, ?_⟩
    rw [hget x y hx hy, if_pos hp]
  · rw [hget x y hx hy, if_neg (by rw [hp]; decide)]

/-- Witness of C18 on a 2 x 2 bitmap with the diagonal as predicate. -/
theorem C18_setPixels_pred_witness :
    ∃ s, setPixels ⟨.PBM_BIN, 2, 2, [0, 0, 0, 0]⟩ (fun x y => some (decide (x = y)))
        (PixelColor.make 5 0 0) = .ok s ∧
      SameShape ⟨.PBM_BIN, 2, 2, [0, 0, 0, 0]⟩ s ∧
      ∀ x y, x < 2 → y < 2 →
        (decide (x = y) = true →
          ∃ s1 v, setPixel ⟨.PBM_BIN, 2, 2, [0, 0, 0, 0]⟩ x y (PixelColor.make 5 0 0) = .ok s1 ∧
            s1.getPixel x y = .value v ∧ s.getPixel x y = .value v) ∧
        (decide (x = y) = false →
          s.getPixel x y = getPixel ⟨.PBM_BIN, 2, 2, [0, 0, 0, 0]⟩ x y) :=
  C18_setPixels_pred ⟨.PBM_BIN, 2, 2, [0, 0, 0, 0]⟩ (by decide) (by decide)
    (fun x y => decide (x = y)) (PixelColor.make 5 0 0)

/-! ### Bitmap samples and the drawing operations -/

/-- A property that `setPixel` keeps is kept by the inner loop of `setPixels(pred, color)`. -/
theorem setPixelsRow_always (P : PnmExporter → Prop)
    (hP : ∀ s x y c, P s → (s.setPixel x y c).Always P)
    (pred : Nat → Nat → Option Bool) (color : PixelColor) (y n : Nat) :
    ∀ x e, P e → (setPixelsRow pred color y n x e).Always P := by
  induction n with
  | zero => intro x e he; exact he
  | succ n ih =>
    intro x e he
    simp only [setPixelsRow]
    split
    · trivial
    · exact always_andThen (hP e x y color he) (fun _ h => h) (fun s hs => ih (x + 1) s hs)
    · exact ih (x + 1) e he

/-- A property that `setPixel` keeps is kept by the outer loop of `setPixels(pred, color)`. -/
theorem setPixelsRows_always (P : PnmExporter → Prop)
    (hP : ∀ s x y c, P s → (s.setPixel x y c).Always P)
    (pred : Nat → Nat → Option Bool) (color : PixelColor) (n : Nat) :
    ∀ y e, P e → (setPixelsRows pred color n y e).Always P := by
  induction n with
  | zero => intro y e he; exact he
  | succ n ih =>
    intro y e he
    simp only [setPixelsRows]
    exact always_andThen (setPixelsRow_always P hP pred color y e.mWidth 0 e he)
      (fun _ h => h) (fun s hs => ih (y + 1) s hs)

/-- On a bitmap whose samples are bits, `setPixel` stores a bit. -/
theorem setPixel_bits (e : PnmExporter) (x y : Nat) (c : PixelColor)
    (h : IsBitmap e ∧ BitSamples e) :
    (e.setPixel x y c).Always (fun s => IsBitmap s ∧ BitSamples s) := by
  obtain ⟨hfmt, hbits⟩ := h
  have hc : ¬ (e.getNumberOfChannels = 3) := by
    unfold getNumberOfChannels
    rcases hfmt with h | h <;> rw [h] <;> decide
  unfold setPixel
  rw [if_neg hc]
  simp only []
  split
  · refine ⟨hfmt, fun v hv => ?_⟩
    rcases List.mem_or_eq_of_mem_set hv with h | h
    · exact hbits v h
    · rw [h]
      split
      · exact Or.inr rfl
      · next hn =>
        have : ¬ c.y > 1 := fun hgt => hn ⟨hfmt, hgt⟩
        omega
  · exact ⟨hfmt, hbits⟩

/-- The call `resize` keeps samples that are bits. -/
theorem resizedElements_bits (v : List Nat) (n : Nat) (h : ∀ a ∈ v, a = 0 ∨ a = 1) :
    ∀ a ∈ resizedElements v n, a = 0 ∨ a = 1 := by
  intro a ha
  rcases List.mem_append.mp ha with h1 | h1
  · exact h a (List.mem_of_mem_take h1)
  · exact Or.inl (List.eq_of_mem_replicate h1)

/-- Claim C15, evaluated on the code: on the 1 x 1 `PBM_BIN` buffer
`setPixels(PixelColor(5))` stores the sample 5 and `setPixelData({7})` the sample 7,
while `setPixel` clamps 5 to 1. The constructor and the other eight operations
keep the samples of a bitmap in 0, 1. -/
theorem C15_bitmap_samples :
    (∃ b, create 1 1 .PBM_BIN = .ok b ∧
      setPixelsAll b (PixelColor.make 5 0 0) = ⟨.PBM_BIN, 1, 1, [5]⟩ ∧
      setPixelData b [7] = .ok ⟨.PBM_BIN, 1, 1, [7]⟩ ∧
      b.setPixel 0 0 (PixelColor.make 5 0 0) = .ok ⟨.PBM_BIN, 1, 1, [1]⟩) ∧
    (∀ width height type b, create width height type = .ok b → BitSamples b) ∧
    ∀ e : PnmExporter, IsBitmap e → BitSamples e →
      (∀ x y c, (e.setPixel x y c).Always (fun s => IsBitmap s ∧ BitSamples s)) ∧
      (∀ pred c, (e.setPixels pred c).Always (fun s => IsBitmap s ∧ BitSamples s)) ∧
      (∀ cx cy radius c,
        (e.addCircle cx cy radius c).Always (fun s => IsBitmap s ∧ BitSamples s)) ∧
      (∀ xLeft yTop width height c,
        (e.addRectangle xLeft yTop width height c).Always
          (fun s => IsBitmap s ∧ BitSamples s)) ∧
      (IsBitmap e.clear ∧ BitSamples e.clear) ∧
      (∀ width, IsBitmap (e.setWidth width).state ∧ BitSamples (e.setWidth width).state) ∧
      (∀ height, IsBitmap (e.setHeight height).state ∧ BitSamples (e.setHeight height).state) ∧
      (IsBitmap e.swapBtwnASCIIandBIN ∧ BitSamples e.swapBtwnASCIIandBIN) := by
  have hres : ∀ s : PnmExporter, IsBitmap s → BitSamples s →
      IsBitmap (resizePixelData s).state ∧ BitSamples (resizePixelData s).state := by
    intro s hfmt hbits
    rcases resizePixelData_state s with h | h
    · rw [h]; exact ⟨hfmt, resizedElements_bits _ _ hbits⟩
    · rw [h]; exact ⟨hfmt, hbits⟩
  refine ⟨⟨⟨.PBM_BIN, 1, 1, [0]⟩, by decide, by decide, by decide, by decide⟩,
    fun w h t b hb v hv => ?_, fun e hfmt hbits => ?_⟩
  · by_cases hle : sizeT (sizeT (w * h) * (if t = .PPM_ASCII ∨ t = .PPM_BIN then 3 else 1))
        ≤ VECTOR_MAX_SIZE
    · rw [create_of_le w h t hle] at hb
      injection hb with hb
      subst hb
      exact Or.inl (List.eq_of_mem_replicate hv)
    · rw [create_of_gt w h t (Nat.not_le.mp hle)] at hb
      cases hb
  · have hset : ∀ pred c,
        (e.setPixels pred c).Always (fun s => IsBitmap s ∧ BitSamples s) :=
      fun pred c => setPixelsRows_always _ (fun s x y c h => setPixel_bits s x y c h) pred c
        e.mHeight 0 e ⟨hfmt, hbits⟩
    refine ⟨fun x y c => setPixel_bits e x y c ⟨hfmt, hbits⟩, hset,
      fun cx cy r c => hset _ c, fun xl yt w h c => ?_, ⟨hfmt, fun v hv => ?_⟩,
      fun w => hres { e with mWidth := w } hfmt hbits,
      fun h => hres { e with mHeight := h } hfmt hbits, ?_⟩
    · unfold addRectangle
      split
      · exact hset _ c
      · trivial
    · simp only [clear, List.mem_map] at hv
      obtain ⟨_, _, h0⟩ := hv
      exact Or.inl h0.symm
    · obtain ⟨t, w, h, d⟩ := e
      rcases hfmt with h1 | h1
      · simp only at h1; subst h1; exact ⟨Or.inr rfl, hbits⟩
      · simp only at h1; subst h1; exact ⟨Or.inl rfl, hbits⟩

/-- A coordinate below `2 ^ 31` is unchanged by the conversion to `int`. -/
theorem sizeToInt_small {n : Nat} (h : n < 2 ^ 31) : sizeToInt n = (n : Int) := by
  unfold sizeToInt
  have h1 : n % 2 ^ 32 = n := Nat.mod_eq_of_lt (by omega)
  rw [h1, if_pos h]

/-- A result in the range of `int` is defined. -/
theorem checkedInt_of_range {i : Int} (h1 : -(2 : Int) ^ 31 ≤ i) (h2 : i < (2 : Int) ^ 31) :
    checkedInt i = some i := by
  unfold checkedInt inIntRange
  rw [if_pos]
  rw [Bool.and_eq_true, decide_eq_true_eq, decide_eq_true_eq]
  exact ⟨h1, h2⟩

/-- An integer whose square is an `int` is an `int`. -/
theorem int_range_of_sq {d : Int} (h : d * d < (2 : Int) ^ 31) :
    -(2 : Int) ^ 31 ≤ d ∧ d < (2 : Int) ^ 31 := by
  constructor
  · by_contra hlt
    push_neg at hlt
    nlinarith
  · by_contra hge
    push_neg at hge
    nlinarith

/-- The lambda of `addRectangle` on coordinates below `2 ^ 31`. -/
theorem rectanglePred_small (xLeft yTop xRight yBottom : Int) {x y : Nat}
    (hx : x < 2 ^ 31) (hy : y < 2 ^ 31) :
    rectanglePred xLeft yTop xRight yBottom x y =
      some (decide (xLeft ≤ (x : Int) ∧ (x : Int) ≤ xRight ∧ yTop ≤ (y : Int) ∧
        (y : Int) ≤ yBottom)) := by
  unfold rectanglePred
  rw [sizeToInt_small hx, sizeToInt_small hy]
  congr 1
  simp only [ge_iff_le, Bool.decide_and, Bool.and_assoc]

/-- The lambda of `addCircle` when none of its `int` operations overflows. -/
theorem circlePred_small (cx cy radius : Int) {x y : Nat}
    (hx : x < 2 ^ 31) (hy : y < 2 ^ 31) (hr : radius * radius < (2 : Int) ^ 31)
    (hd : ((x : Int) - cx) * ((x : Int) - cx) + ((y : Int) - cy) * ((y : Int) - cy) <
      (2 : Int) ^ 31) :
    circlePred cx cy radius x y =
      some (decide (((x : Int) - cx) * ((x : Int) - cx) + ((y : Int) - cy) * ((y : Int) - cy) <
        radius * radius)) := by
  have hxx : 0 ≤ ((x : Int) - cx) * ((x : Int) - cx) := mul_self_nonneg _
  have hyy : 0 ≤ ((y : Int) - cy) * ((y : Int) - cy) := mul_self_nonneg _
  have hrr : 0 ≤ radius * radius := mul_self_nonneg _
  have hdx := int_range_of_sq (d := (x : Int) - cx) (by omega)
  have hdy := int_range_of_sq (d := (y : Int) - cy) (by omega)
  have hneg : -(2 : Int) ^ 31 ≤ 0 := by norm_num
  unfold circlePred
  rw [sizeToInt_small hx, sizeToInt_small hy, checkedInt_of_range hdx.1 hdx.2]
  simp only [Option.bind]
  rw [checkedInt_of_range (by omega) (by omega), checkedInt_of_range hdy.1 hdy.2]
  simp only [Option.bind]
  rw [checkedInt_of_range (by omega) (by omega)]
  simp only [Option.bind]
  rw [checkedInt_of_range (by omega) hd, checkedInt_of_range (by omega) hr]

/-- Claim C19, amended: on a buffer with the length invariant whose width and height
are at most `2 ^ 31`, and for arguments whose corner `xLeft + width`,
`yTop + height` is representable in `int`, `addRectangle` returns, every pixel of
the image with `xLeft <= x <= xLeft + width` and `yTop <= y <= yTop + height` reads
as after `setPixel`, every other pixel as before; `addRectangle(0, 0, 2, 2, color)`
colours the 3 x 3 block. -/
theorem C19_addRectangle_inclusive (e : PnmExporter)
    (hlen : e.mPixelData.length = e.mWidth * e.mHeight * e.getNumberOfChannels)
    (hsz : e.mPixelData.length < SIZE_MOD)
    (hw : e.mWidth ≤ 2 ^ 31) (hh : e.mHeight ≤ 2 ^ 31)
    (xLeft yTop width height : Int)
    (hxr : -(2 : Int) ^ 31 ≤ xLeft + width ∧ xLeft + width < (2 : Int) ^ 31)
    (hyb : -(2 : Int) ^ 31 ≤ yTop + height ∧ yTop + height < (2 : Int) ^ 31)
    (color : PixelColor) :
    (∃ s, e.addRectangle xLeft yTop width height color = .ok s ∧ SameShape e s ∧
      ∀ x y, x < e.mWidth → y < e.mHeight →
        (xLeft ≤ (x : Int) ∧ (x : Int) ≤ xLeft + width ∧
            yTop ≤ (y : Int) ∧ (y : Int) ≤ yTop + height →
          ∃ s1 v, e.setPixel x y color = .ok s1 ∧ s1.getPixel x y = .value v ∧
            s.getPixel x y = .value v) ∧
        (¬ (xLeft ≤ (x : Int) ∧ (x : Int) ≤ xLeft + width ∧
            yTop ≤ (y : Int) ∧ (y : Int) ≤ yTop + height) →
          s.getPixel x y = e.getPixel x y)) ∧
    (∃ b, create 4 4 .PGM_BIN = .ok b ∧
      addRectangle b 0 0 2 2 (PixelColor.make 9 0 0) =
        .ok ⟨.PGM_BIN, 4, 4, [9, 9, 9, 0, 9, 9, 9, 0, 9, 9, 9, 0, 0, 0, 0, 0]⟩) := by
  refine ⟨?_, ⟨⟨.PGM_BIN, 4, 4, [0, 0, 0, 0, 0, 0, 0, 0, 0, 0, 0, 0, 0, 0, 0, 0]⟩,
    by decide, by decide⟩⟩
  unfold addRectangle
  rw [checkedInt_of_range hxr.1 hxr.2, checkedInt_of_range hyb.1 hyb.2]
  simp only []
  obtain ⟨s, hs, hshape, hget⟩ := setPixels_char e hlen hsz
    (rectanglePred xLeft yTop (xLeft + width) (yTop + height))
    (fun x y => decide (xLeft ≤ (x : Int) ∧ (x : Int) ≤ xLeft + width ∧ yTop ≤ (y : Int) ∧
      (y : Int) ≤ yTop + height))
    (fun x y hx hy => rectanglePred_small _ _ _ _ (by omega) (by omega)) color
  refine ⟨s, hs, hshape, fun x y hx hy => ⟨fun hp => ?_, fun hp => ?_⟩⟩
  · obtain ⟨s1, hs1, _, hget1⟩ := setPixel_getPixel_same e hsz x y color
      (inStorage_of_inRange e hlen hx hy)
    refine ⟨s1, _, hs1, hget1, ?_⟩
    rw [hget x y hx hy, if_pos (decide_eq_true hp)]
  · rw [hget x y hx hy, if_neg (by rw [decide_eq_true_eq]; exact hp)]

/-- Witness of C19 on a 2 x 2 grayscale buffer. -/
theorem C19_addRectangle_inclusive_witness :
    ∃ s, addRectangle ⟨.PGM_BIN, 2, 2, [0, 0, 0, 0]⟩ 0 0 0 1 (PixelColor.make 9 0 0) = .ok s ∧
      SameShape ⟨.PGM_BIN, 2, 2, [0, 0, 0, 0]⟩ s ∧
      ∀ x y : Nat, x < 2 → y < 2 →
        ((0 : Int) ≤ (x : Int) ∧ (x : Int) ≤ 0 + 0 ∧ (0 : Int) ≤ (y : Int) ∧ (y : Int) ≤ 0 + 1 →
          ∃ s1 v, setPixel ⟨.PGM_BIN, 2, 2, [0, 0, 0, 0]⟩ x y (PixelColor.make 9 0 0) = .ok s1 ∧
            s1.getPixel x y = .value v ∧ s.getPixel x y = .value v) ∧
        (¬ ((0 : Int) ≤ (x : Int) ∧ (x : Int) ≤ 0 + 0 ∧ (0 : Int) ≤ (y : Int) ∧
            (y : Int) ≤ 0 + 1) →
          s.getPixel x y = getPixel ⟨.PGM_BIN, 2, 2, [0, 0, 0, 0]⟩ x y) :=
  (C19_addRectangle_inclusive ⟨.PGM_BIN, 2, 2, [0, 0, 0, 0]⟩ (by decide) (by decide)
    (by decide) (by decide) 0 0 0 1 (by decide) (by decide) (PixelColor.make 9 0 0)).1

/-- Counterexample to C19 as stated: `addRectangle(INT_MIN, 0, -1, 0, color)` overflows
`int` in `xLeft + width`, which is undefined behaviour; and on a buffer of width
`2 ^ 32 + 1` the call `addRectangle(0, 0, 0, 0, color)` also colours the pixel
`(2 ^ 32, 0)`, whose column converts to the `int` 0. -/
theorem C19_counterexample_int_range :
    (∃ b, create 1 1 .PGM_BIN = .ok b ∧
      addRectangle b (-2147483648) 0 (-1) 0 (PixelColor.make 9 0 0) = .undefined) ∧
    (∃ s, addRectangle ⟨.PGM_BIN, 2 ^ 32 + 1, 1, List.replicate (2 ^ 32 + 1) 0⟩ 0 0 0 0
        (PixelColor.make 9 0 0) = .ok s ∧
      getPixel ⟨.PGM_BIN, 2 ^ 32 + 1, 1, List.replicate (2 ^ 32 + 1) 0⟩ (2 ^ 32) 0 =
        .value ⟨0, 0, 0, 0⟩ ∧
      s.getPixel (2 ^ 32) 0 = .value ⟨0, 0, 0, 9⟩ ∧
      ¬ ((2 ^ 32 : Int) ≤ 0 + 0)) := by
  refine ⟨⟨⟨.PGM_BIN, 1, 1, [0]⟩, by decide, by decide⟩, ?_⟩
  have hlen : (List.replicate (2 ^ 32 + 1) 0).length =
      (2 ^ 32 + 1) * 1 * getNumberOfChannels ⟨.PGM_BIN, 2 ^ 32 + 1, 1,
        List.replicate (2 ^ 32 + 1) 0⟩ := by
    rw [List.length_replicate]
    rfl
  have hsz : (List.replicate (2 ^ 32 + 1) 0).length < SIZE_MOD := by
    rw [List.length_replicate]
    decide
  obtain ⟨s, hs, _, hget⟩ := setPixels_char
    ⟨.PGM_BIN, 2 ^ 32 + 1, 1, List.replicate (2 ^ 32 + 1) 0⟩ hlen hsz
    (rectanglePred 0 0 0 0)
    (fun x y => decide (sizeToInt x ≥ 0) && decide (sizeToInt x ≤ 0) &&
      decide (sizeToInt y ≥ 0) && decide (sizeToInt y ≤ 0))
    (fun _ _ _ _ => rfl) (PixelColor.make 9 0 0)
  refine ⟨s, hs, ?_, ?_, by decide⟩
  · rw [getPixel_mono_eq ⟨.PGM_BIN, 2 ^ 32 + 1, 1, List.replicate (2 ^ 32 + 1) 0⟩ (2 ^ 32) 0
      rfl (by decide), if_pos (by rw [hlen]; decide)]
    simp only [List.getD_eq_getElem?_getD]
    rw [List.getElem?_replicate_of_lt (by decide)]
    rfl
  · have h := hget (2 ^ 32) 0 (by decide) (by decide)
    rw [if_pos (by decide)] at h
    exact h

/-- Claim C20, amended: on a buffer with the length invariant whose width and height
are at most `2 ^ 31`, and for arguments such that `radius ^ 2` and, for every pixel of
the image, `(x - cx) ^ 2 + (y - cy) ^ 2` are below `2 ^ 31`, `addCircle` returns,
every pixel of the image with `(x - cx) ^ 2 + (y - cy) ^ 2 < radius ^ 2` reads as
after `setPixel`, every other pixel as before; `addCircle(5, 5, 3, color)` colours
(5, 7) and leaves (5, 8) untouched. -/
theorem C20_addCircle_strict (e : PnmExporter)
    (hlen : e.mPixelData.length = e.mWidth * e.mHeight * e.getNumberOfChannels)
    (hsz : e.mPixelData.length < SIZE_MOD)
    (hw : e.mWidth ≤ 2 ^ 31) (hh : e.mHeight ≤ 2 ^ 31)
    (cx cy radius : Int) (hr : radius ^ 2 < (2 : Int) ^ 31)
    (hd : ∀ x y : Nat, x < e.mWidth → y < e.mHeight →
      ((x : Int) - cx) ^ 2 + ((y : Int) - cy) ^ 2 < (2 : Int) ^ 31)
    (color : PixelColor) :
    (∃ s, e.addCircle cx cy radius color = .ok s ∧ SameShape e s ∧
      ∀ x y : Nat, x < e.mWidth → y < e.mHeight →
        (((x : Int) - cx) ^ 2 + ((y : Int) - cy) ^ 2 < radius ^ 2 →
          ∃ s1 v, e.setPixel x y color = .ok s1 ∧ s1.getPixel x y = .value v ∧
            s.getPixel x y = .value v) ∧
        (¬ (((x : Int) - cx) ^ 2 + ((y : Int) - cy) ^ 2 < radius ^ 2) →
          s.getPixel x y = e.getPixel x y)) ∧
    (∃ b s, create 10 10 .PGM_BIN = .ok b ∧
      addCircle b 5 5 3 (PixelColor.make 9 0 0) = .ok s ∧
      s.getPixel 5 7 = .value ⟨0, 0, 0, 9⟩ ∧ s.getPixel 5 8 = .value ⟨0, 0, 0, 0⟩) := by
  constructor
  · unfold addCircle
    obtain ⟨s, hs, hshape, hget⟩ := setPixels_char e hlen hsz (circlePred cx cy radius)
      (fun x y => decide (((x : Int) - cx) ^ 2 + ((y : Int) - cy) ^ 2 < radius ^ 2))
      (fun x y hx hy => by
        have h := circlePred_small cx cy radius (x := x) (y := y) (by omega) (by omega)
          (by rw [← pow_two]; exact hr) (by rw [← pow_two, ← pow_two]; exact hd x y hx hy)
        rw [h, ← pow_two, ← pow_two, ← pow_two]) color
    refine ⟨s, hs, hshape, fun x y hx hy => ⟨fun hp => ?_, fun hp => ?_⟩⟩
    · obtain ⟨s1, hs1, _, hget1⟩ := setPixel_getPixel_same e hsz x y color
        (inStorage_of_inRange e hlen hx hy)
      refine ⟨s1, _, hs1, hget1, ?_⟩
      rw [hget x y hx hy, if_pos (decide_eq_true hp)]
    · rw [hget x y hx hy, if_neg (by rw [decide_eq_true_eq]; exact hp)]
  · exact ⟨⟨.PGM_BIN, 10, 10, List.replicate 100 0⟩, ⟨.PGM_BIN, 10, 10,
      [0, 0, 0, 0, 0, 0, 0, 0, 0, 0,
       0, 0, 0, 0, 0, 0, 0, 0, 0, 0,
       0, 0, 0, 0, 0, 0, 0, 0, 0, 0,
       0, 0, 0, 9, 9, 9, 9, 9, 0, 0,
       0, 0, 0, 9, 9, 9, 9, 9, 0, 0,
       0, 0, 0, 9, 9, 9, 9, 9, 0, 0,
       0, 0, 0, 9, 9, 9, 9, 9, 0, 0,
       0, 0, 0, 9, 9, 9, 9, 9, 0, 0,
       0, 0, 0, 0, 0, 0, 0, 0, 0, 0,
       0, 0, 0, 0, 0, 0, 0, 0, 0, 0]⟩, by decide, by decide, by decide, by decide⟩

/-- Witness of C20 on a 2 x 2 grayscale buffer. -/
theorem C20_addCircle_strict_witness :
    ∃ s, addCircle ⟨.PGM_BIN, 2, 2, [0, 0, 0, 0]⟩ 0 0 1 (PixelColor.make 9 0 0) = .ok s ∧
      SameShape ⟨.PGM_BIN, 2, 2, [0, 0, 0, 0]⟩ s ∧
      ∀ x y : Nat, x < 2 → y < 2 →
        (((x : Int) - 0) ^ 2 + ((y : Int) - 0) ^ 2 < (1 : Int) ^ 2 →
          ∃ s1 v, setPixel ⟨.PGM_BIN, 2, 2, [0, 0, 0, 0]⟩ x y (PixelColor.make 9 0 0) = .ok s1 ∧
            s1.getPixel x y = .value v ∧ s.getPixel x y = .value v) ∧
        (¬ (((x : Int) - 0) ^ 2 + ((y : Int) - 0) ^ 2 < (1 : Int) ^ 2) →
          s.getPixel x y = getPixel ⟨.PGM_BIN, 2, 2, [0, 0, 0, 0]⟩ x y) :=
  (C20_addCircle_strict ⟨.PGM_BIN, 2, 2, [0, 0, 0, 0]⟩ (by decide) (by decide)
    (by decide) (by decide) 0 0 1 (by decide)
    (fun x y hx hy => by
      have hx2 : x < 2 := hx
      have hy2 : y < 2 := hy
      interval_cases x <;> interval_cases y <;> decide)
    (PixelColor.make 9 0 0)).1

/-- Counterexample to C20 as stated: for `addCircle(50000, 0, 10, color)` on a 1 x 1
buffer the square `(0 - 50000) ^ 2` overflows `int`, which is undefined behaviour,
although the pixel (0, 0) is outside the circle. -/
theorem C20_counterexample_int_overflow :
    (∃ b, create 1 1 .PGM_BIN = .ok b ∧
      addCircle b 50000 0 10 (PixelColor.make 9 0 0) = .undefined) ∧
    circlePred 50000 0 10 0 0 = none ∧
    ¬ (((0 : Int) - 50000) ^ 2 + ((0 : Int) - 0) ^ 2 < (10 : Int) ^ 2) ∧
    ((0 : Int) - 50000) ^ 2 ≥ (2 : Int) ^ 31 :=
  ⟨⟨⟨.PGM_BIN, 1, 1, [0]⟩, by decide, by decide⟩, by decide, by decide, by decide⟩

/-! ### Clearing, resizing, saving to a path, filling -/

/-- Claim C21: `clear` sets every sample to zero and leaves the width, the height,
the format and the length of the pixel data as they are. -/
theorem C21_clear (e : PnmExporter) :
    (∀ v ∈ e.clear.mPixelData, v = 0) ∧
    e.clear.mWidth = e.mWidth ∧ e.clear.mHeight = e.mHeight ∧
    e.clear.mImageType = e.mImageType ∧
    e.clear.mPixelData.length = e.mPixelData.length ∧
    e.clear.mPixelData = List.replicate e.mPixelData.length 0 := by
  refine ⟨fun v hv => ?_, rfl, rfl, rfl, ?_, ?_⟩
  · simp only [clear, List.mem_map] at hv
    obtain ⟨_, _, h0⟩ := hv
    exact h0.symm
  · simp [clear]
  · simp only [clear]
    exact List.map_const' _ _

/-- After `resize`, an index below the old and the new length holds the old sample. -/
theorem resizedElements_getElem?_old (v : List Nat) (n i : Nat) (h1 : i < v.length) (h2 : i < n) :
    (resizedElements v n)[i]? = v[i]? := by
  unfold resizedElements
  rw [List.getElem?_append_left (by rw [List.length_take]; omega), List.getElem?_take_of_lt h2]

/-- After `resize`, an index at or beyond the old length holds zero. -/
theorem resizedElements_getElem?_new (v : List Nat) (n i : Nat) (h1 : v.length ≤ i) (h2 : i < n) :
    (resizedElements v n)[i]? = some 0 := by
  unfold resizedElements
  have hl : (v.take n).length = v.length := by rw [List.length_take]; omega
  rw [List.getElem?_append_right (by rw [hl]; exact h1), hl,
    List.getElem?_replicate_of_lt (by omega)]

/-- The elements after `resize(n)` are the old ones resized. -/
theorem resizedElements_resizedFrom (v : List Nat) (n : Nat) :
    ResizedFrom v (resizedElements v n) := by
  constructor
  · intro i h1 h2
    rw [resizedElements_length] at h2
    exact resizedElements_getElem?_old v n i h1 h2
  · intro i h1 h2
    rw [resizedElements_length] at h2
    exact resizedElements_getElem?_new v n i h1 h2

/-- What a call of `resizePixelData` that returns leaves. -/
theorem resizePixelData_ok (e s : PnmExporter) (h : resizePixelData e = .ok s) :
    s.mImageType = e.mImageType ∧ s.mWidth = e.mWidth ∧ s.mHeight = e.mHeight ∧
      s.mPixelData.length = sizeT (sizeT (e.mWidth * e.mHeight) * e.getNumberOfChannels) ∧
      ResizedFrom e.mPixelData s.mPixelData := by
  by_cases hle : sizeT (sizeT (e.mWidth * e.mHeight) * e.getNumberOfChannels) ≤ VECTOR_MAX_SIZE
  · rw [resizePixelData_of_le e hle] at h
    injection h with h
    subst h
    exact ⟨rfl, rfl, rfl, resizedElements_length _ _, resizedElements_resizedFrom _ _⟩
  · rw [resizePixelData_of_gt e (Nat.not_le.mp hle)] at h
    cases h

/-- The member `resizePixelData` returns exactly when the `size_t` product is at
most `max_size()`. -/
theorem resizePixelData_ok_iff (e : PnmExporter) :
    (∃ s, resizePixelData e = .ok s) ↔
      sizeT (sizeT (e.mWidth * e.mHeight) * e.getNumberOfChannels) ≤ VECTOR_MAX_SIZE := by
  constructor
  · rintro ⟨s, hs⟩
    by_contra hgt
    rw [resizePixelData_of_gt e (Nat.not_le.mp hgt)] at hs
    cases hs
  · intro h
    exact ⟨_, resizePixelData_of_le e h⟩

/-- The member `resizePixelData` throws exactly when the `size_t` product is above
`max_size()`, and then leaves the object as it was. -/
theorem resizePixelData_error_iff (e : PnmExporter) :
    resizePixelData e = .length_error e ↔
      VECTOR_MAX_SIZE < sizeT (sizeT (e.mWidth * e.mHeight) * e.getNumberOfChannels) := by
  constructor
  · intro h
    by_contra hle
    rw [resizePixelData_of_le e (Nat.not_lt.mp hle)] at h
    cases h
  · exact resizePixelData_of_gt e

/-- A call of `resizePixelData` whose product of dimensions is at most
`max_size()`: what it leaves. -/
theorem resizePixelData_exact_fields (e : PnmExporter)
    (hle : e.mWidth * e.mHeight * e.getNumberOfChannels ≤ VECTOR_MAX_SIZE) :
    ∃ s, resizePixelData e = .ok s ∧ s.mImageType = e.mImageType ∧ s.mWidth = e.mWidth ∧
      s.mHeight = e.mHeight ∧
      s.mPixelData.length = e.mWidth * e.mHeight * e.getNumberOfChannels ∧
      ResizedFrom e.mPixelData s.mPixelData := by
  obtain ⟨s, hs, h1, h2, h3, h4, _⟩ := resizePixelData_exact e hle
  refine ⟨s, hs, h1, h2, h3, ?_, (resizePixelData_ok e s hs).2.2.2.2⟩
  rw [h4, resizedElements_length]

/-- Claim C22 (amended): when the product of the new dimensions and the channel
count is at most `max_size()`, `setWidth(d)` (resp. `setHeight(d)`) returns, sets
the width (resp. height) to `d`, leaves the other dimension and the format, and
resizes the pixel data to the new invariant length: the samples below both
lengths are kept, the samples at or beyond the old length are zero.  In general
a call that returns leaves the length equal to the `size_t` value of the product
(the product itself when that is at most `max_size()`); the call returns exactly when that value is at most `max_size()`, and otherwise
throws `std::length_error`, leaving the new dimension with the old pixel data.
After `setWidth(512)`, `setHeight(256)` on the 640 x 480 buffer the getters
return 512 and 256. -/
theorem C22_setWidth_setHeight (e : PnmExporter) (d : Nat) :
    (d * e.mHeight * e.getNumberOfChannels ≤ VECTOR_MAX_SIZE →
      ∃ s, e.setWidth d = .ok s ∧ s.mWidth = d ∧ s.mHeight = e.mHeight ∧
        s.mImageType = e.mImageType ∧
        s.mPixelData.length = d * e.mHeight * e.getNumberOfChannels ∧
        ResizedFrom e.mPixelData s.mPixelData) ∧
    (e.mWidth * d * e.getNumberOfChannels ≤ VECTOR_MAX_SIZE →
      ∃ s, e.setHeight d = .ok s ∧ s.mHeight = d ∧ s.mWidth = e.mWidth ∧
        s.mImageType = e.mImageType ∧
        s.mPixelData.length = e.mWidth * d * e.getNumberOfChannels ∧
        ResizedFrom e.mPixelData s.mPixelData) ∧
    (∀ s, e.setWidth d = .ok s →
      s.mWidth = d ∧ s.mHeight = e.mHeight ∧ s.mImageType = e.mImageType ∧
        s.mPixelData.length = sizeT (sizeT (d * e.mHeight) * e.getNumberOfChannels) ∧
        (d * e.mHeight * e.getNumberOfChannels ≤ VECTOR_MAX_SIZE →
          s.mPixelData.length = d * e.mHeight * e.getNumberOfChannels) ∧
        ResizedFrom e.mPixelData s.mPixelData) ∧
    (∀ s, e.setHeight d = .ok s →
      s.mHeight = d ∧ s.mWidth = e.mWidth ∧ s.mImageType = e.mImageType ∧
        s.mPixelData.length = sizeT (sizeT (e.mWidth * d) * e.getNumberOfChannels) ∧
        (e.mWidth * d * e.getNumberOfChannels ≤ VECTOR_MAX_SIZE →
          s.mPixelData.length = e.mWidth * d * e.getNumberOfChannels) ∧
        ResizedFrom e.mPixelData s.mPixelData) ∧
    ((∃ s, e.setWidth d = .ok s) ↔
      sizeT (sizeT (d * e.mHeight) * e.getNumberOfChannels) ≤ VECTOR_MAX_SIZE) ∧
    ((∃ s, e.setHeight d = .ok s) ↔
      sizeT (sizeT (e.mWidth * d) * e.getNumberOfChannels) ≤ VECTOR_MAX_SIZE) ∧
    (e.setWidth d = .length_error ⟨e.mImageType, d, e.mHeight, e.mPixelData⟩ ↔
      VECTOR_MAX_SIZE < sizeT (sizeT (d * e.mHeight) * e.getNumberOfChannels)) ∧
    (e.setHeight d = .length_error ⟨e.mImageType, e.mWidth, d, e.mPixelData⟩ ↔
      VECTOR_MAX_SIZE < sizeT (sizeT (e.mWidth * d) * e.getNumberOfChannels)) ∧
    (∃ b s1 s2, createDefault 640 480 = .ok b ∧ b.setWidth 512 = .ok s1 ∧
      s1.setHeight 256 = .ok s2 ∧ s2.getWidth = 512 ∧ s2.getHeight = 256) := by
  refine ⟨fun hle => ?_, fun hle => ?_, fun s hs => ?_, fun s hs => ?_,
    resizePixelData_ok_iff { e with mWidth := d },
    resizePixelData_ok_iff { e with mHeight := d },
    resizePixelData_error_iff { e with mWidth := d },
    resizePixelData_error_iff { e with mHeight := d }, ?_⟩
  · obtain ⟨s, hs, h1, h2, h3, h4, h5⟩ := resizePixelData_exact_fields { e with mWidth := d } hle
    exact ⟨s, hs, h2, h3, h1, h4, h5⟩
  · obtain ⟨s, hs, h1, h2, h3, h4, h5⟩ := resizePixelData_exact_fields { e with mHeight := d } hle
    exact ⟨s, hs, h3, h2, h1, h4, h5⟩
  · obtain ⟨h1, h2, h3, h4, h5⟩ := resizePixelData_ok { e with mWidth := d } s hs
    refine ⟨h2, h3, h1, h4, fun hle => ?_, h5⟩
    rw [h4]
    exact sizeT_product (getNumberOfChannels_pos e) hle
  · obtain ⟨h1, h2, h3, h4, h5⟩ := resizePixelData_ok { e with mHeight := d } s hs
    refine ⟨h3, h2, h1, h4, fun hle => ?_, h5⟩
    rw [h4]
    exact sizeT_product (getNumberOfChannels_pos e) hle
  · have hb := create_exact 640 480 .PPM_BIN (by decide)
    obtain ⟨s1, hs1, ht1, hw1, hh1, _, _⟩ := resizePixelData_exact_fields
      { (PnmExporter.mk .PPM_BIN 640 480 (List.replicate (640 * 480 *
        (if PnmImageType.PPM_BIN = .PPM_ASCII ∨ PnmImageType.PPM_BIN = .PPM_BIN then 3 else 1))
        0)) with mWidth := 512 } (by decide)
    have hc1 : s1.getNumberOfChannels = 3 := by
      simp only [getNumberOfChannels, ht1]; decide
    obtain ⟨s2, hs2, _, hw2, hh2, _, _⟩ := resizePixelData_exact_fields
      { s1 with mHeight := 256 } (by
        show s1.mWidth * 256 * s1.getNumberOfChannels ≤ VECTOR_MAX_SIZE
        rw [hw1, hc1]; decide)
    exact ⟨_, s1, s2, hb, hs1, hs2, hw2.trans hw1, hh2⟩

/-- Witness of C22 on the 2 x 2 grayscale buffer `1 2 3 4`. -/
theorem C22_setWidth_setHeight_witness :
    3 * 2 * getNumberOfChannels ⟨.PGM_BIN, 2, 2, [1, 2, 3, 4]⟩ ≤ VECTOR_MAX_SIZE ∧
    ∃ s, setWidth ⟨.PGM_BIN, 2, 2, [1, 2, 3, 4]⟩ 3 = .ok s ∧ s.mWidth = 3 ∧ s.mHeight = 2 ∧
      s.mImageType = .PGM_BIN ∧
      s.mPixelData.length = 3 * 2 * getNumberOfChannels ⟨.PGM_BIN, 2, 2, [1, 2, 3, 4]⟩ ∧
      ResizedFrom [1, 2, 3, 4] s.mPixelData :=
  ⟨by decide, (C22_setWidth_setHeight ⟨.PGM_BIN, 2, 2, [1, 2, 3, 4]⟩ 3).1 (by decide)⟩

/-- Counterexample to C22 as stated: on the 2 x 2 grayscale buffer `1 2 3 4`,
`setWidth(2 ^ 63)` returns and leaves no sample, the new product `2 ^ 64` having
wrapped around to 0, and `setWidth(2 ^ 62)` throws `std::length_error` and leaves
the width `2 ^ 62` with the four old samples; `setHeight` behaves alike.  In
neither case have the pixel data the new invariant length. -/
theorem C22_counterexample_wrapped_size :
    setWidth ⟨.PGM_BIN, 2, 2, [1, 2, 3, 4]⟩ (2 ^ 63) = .ok ⟨.PGM_BIN, 2 ^ 63, 2, []⟩
    ∧ ([] : List Nat).length ≠ 2 ^ 63 * 2 * getNumberOfChannels ⟨.PGM_BIN, 2 ^ 63, 2, []⟩
    ∧ setWidth ⟨.PGM_BIN, 2, 2, [1, 2, 3, 4]⟩ (2 ^ 62) =
        .length_error ⟨.PGM_BIN, 2 ^ 62, 2, [1, 2, 3, 4]⟩
    ∧ [1, 2, 3, 4].length ≠
        2 ^ 62 * 2 * getNumberOfChannels ⟨.PGM_BIN, 2 ^ 62, 2, [1, 2, 3, 4]⟩
    ∧ setHeight ⟨.PGM_BIN, 2, 2, [1, 2, 3, 4]⟩ (2 ^ 63) = .ok ⟨.PGM_BIN, 2, 2 ^ 63, []⟩
    ∧ setHeight ⟨.PGM_BIN, 2, 2, [1, 2, 3, 4]⟩ (2 ^ 62) =
        .length_error ⟨.PGM_BIN, 2, 2 ^ 62, [1, 2, 3, 4]⟩ := by
  refine ⟨by decide, by decide, by decide, by decide, by decide, by decide⟩

/-- Reading a list that is given by its indices. -/
theorem getD_map_range (f : Nat → Nat) (n i : Nat) (h : i < n) :
    ((List.range n).map f).getD i 0 = f i := by
  rw [List.getD_eq_getElem?_getD, List.getElem?_map, List.getElem?_range h]
  rfl

/-- Reading a constant list. -/
theorem getD_map_const (l : List Nat) (c i : Nat) (h : i < l.length) :
    (l.map (fun _ => c)).getD i 0 = c := by
  rw [List.getD_eq_getElem?_getD, List.getElem?_map, List.getElem?_eq_getElem h]
  rfl

/-- Claim C24: under the length invariant, after `setPixels(color)` every pixel of
the image reads back as the colour: `r`, `g`, `b` for the colour formats, `y` for
the single-channel formats. -/
theorem C24_setPixels_color (e : PnmExporter)
    (hlen : e.mPixelData.length = e.mWidth * e.mHeight * e.getNumberOfChannels)
    (hsz : e.mPixelData.length < SIZE_MOD) (color : PixelColor)
    (x y : Nat) (hx : x < e.mWidth) (hy : y < e.mHeight) :
    (e.mImageType = .PPM_ASCII ∨ e.mImageType = .PPM_BIN →
      (e.setPixelsAll color).getPixel x y = .value ⟨color.r, color.g, color.b, 0⟩) ∧
    (¬ (e.mImageType = .PPM_ASCII ∨ e.mImageType = .PPM_BIN) →
      (e.setPixelsAll color).getPixel x y = .value ⟨0, 0, 0, color.y⟩) := by
  have hin := inStorage_of_inRange e hlen hx hy
  constructor
  · intro hfmt
    have hc : e.getNumberOfChannels = 3 := by
      unfold getNumberOfChannels; rw [if_pos hfmt]
    have hs : e.setPixelsAll color = ⟨e.mImageType, e.mWidth, e.mHeight,
        (List.range e.mPixelData.length).map
          (fun i => if i % 3 = 0 then color.r else if i % 3 = 1 then color.g else color.b)⟩ := by
      unfold setPixelsAll; rw [if_pos hc]
    rw [hc] at hin
    have hc2 : getNumberOfChannels ⟨e.mImageType, e.mWidth, e.mHeight,
        (List.range e.mPixelData.length).map
          (fun i => if i % 3 = 0 then color.r else if i % 3 = 1 then color.g else color.b)⟩ =
        3 := hc
    rw [hs, getPixel_color_eq _ x y hc2 (by simp only []; omega)]
    simp only [List.length_map, List.length_range]
    rw [if_pos (by omega), getD_map_range _ _ _ (by omega), getD_map_range _ _ _ (by omega),
      getD_map_range _ _ _ (by omega)]
    have h0 : 3 * (y * e.mWidth + x) % 3 = 0 := by omega
    have h1 : (3 * (y * e.mWidth + x) + 1) % 3 = 1 := by omega
    have h2 : (3 * (y * e.mWidth + x) + 2) % 3 = 2 := by omega
    simp [h0, h1, h2]
  · intro hfmt
    have hc3 : ¬ e.getNumberOfChannels = 3 := by
      unfold getNumberOfChannels; rw [if_neg hfmt]; decide
    have hc : e.getNumberOfChannels = 1 := by
      unfold getNumberOfChannels; rw [if_neg hfmt]
    have hs : e.setPixelsAll color = ⟨e.mImageType, e.mWidth, e.mHeight,
        e.mPixelData.map (fun _ => color.y)⟩ := by
      unfold setPixelsAll; rw [if_neg hc3]
    rw [hc] at hin
    have hc2 : getNumberOfChannels ⟨e.mImageType, e.mWidth, e.mHeight,
        e.mPixelData.map (fun _ => color.y)⟩ = 1 := hc
    rw [hs, getPixel_mono_eq _ x y hc2 (by simp only []; omega)]
    simp only [List.length_map]
    rw [if_pos (by omega), getD_map_const _ _ _ (by omega)]

/-- Witness of C24 on a 1 x 2 RGB buffer. -/
theorem C24_setPixels_color_witness :
    (PnmImageType.PPM_BIN = .PPM_ASCII ∨ PnmImageType.PPM_BIN = .PPM_BIN) ∧
    (setPixelsAll ⟨.PPM_BIN, 1, 2, [0, 0, 0, 0, 0, 0]⟩ (PixelColor.make 7 8 9)).getPixel 0 1 =
      .value ⟨7, 8, 9, 0⟩ :=
  ⟨by decide, (C24_setPixels_color ⟨.PPM_BIN, 1, 2, [0, 0, 0, 0, 0, 0]⟩ (by decide) (by decide)
    (PixelColor.make 7 8 9) 0 1 (by decide) (by decide)).1 (by decide)⟩

/-! ### The command line parser -/

section CommandLine

open ArgsParser

/-- The call `find` fails exactly for the keys that are not in the map. -/
theorem mapFind_eq_none_iff (m : List (List Char × List (List Char))) (key : List Char) :
    mapFind m key = none ↔ key ∉ m.map Prod.fst := by
  induction m with
  | nil => simp [mapFind]
  | cons a rest ih =>
    obtain ⟨k, v⟩ := a
    unfold mapFind
    by_cases h : k = key
    · simp [h]
    · rw [if_neg h, ih]
      simp only [List.map_cons, List.mem_cons, not_or]
      constructor
      · intro h2; exact ⟨fun h3 => h h3.symm, h2⟩
      · intro h2; exact h2.2

/-- The keys after `insert`. -/
theorem mem_keys_mapInsert (m : List (List Char × List (List Char))) (key : List Char)
    (value : List (List Char)) (k : List Char) :
    k ∈ (mapInsert m key value).map Prod.fst ↔ k ∈ m.map Prod.fst ∨ k = key := by
  unfold mapInsert
  cases hf : mapFind m key with
  | none => simp
  | some v =>
    have hk : key ∈ m.map Prod.fst := by
      by_contra hn
      rw [← mapFind_eq_none_iff] at hn
      rw [hn] at hf
      cases hf
    simp only
    constructor
    · intro h; exact Or.inl h
    · intro h
      rcases h with h | h
      · exact h
      · rw [h]; exact hk

/-- The loop of `containsOnlyValidOptions` accepts exactly the maps whose keys are
all allowed. -/
theorem validLoop_iff (allowedOptions : List (List Char))
    (m : List (List Char × List (List Char))) :
    validLoop allowedOptions m = true ↔ ∀ k ∈ m.map Prod.fst, k ∈ allowedOptions := by
  induction m with
  | nil => simp [validLoop]
  | cons a rest ih =>
    unfold validLoop
    by_cases h : a.1 ∈ allowedOptions
    · rw [if_pos h, ih]; simp [h]
    · rw [if_neg h]; simp [h]

/-- The keys that `initOptionsMap` leaves: those of the map so far, the last option
(the empty string too, once the arguments are exhausted), and the options still to
come. -/
theorem initLoop_keys (optionsPrefix : Char) (args : List (List Char)) :
    ∀ (lastOption : List Char) (lastOptionArgs : List (List Char))
      (m m2 : List (List Char × List (List Char))),
      initLoop optionsPrefix args lastOption lastOptionArgs m = some m2 →
      ∀ k, k ∈ m2.map Prod.fst ↔
        k ∈ m.map Prod.fst ∨ (k = lastOption ∧ (lastOption = [] → args = [])) ∨
          k ∈ optionsOf optionsPrefix args := by
  induction args with
  | nil =>
    intro lastOption lastOptionArgs m m2 h k
    simp only [initLoop, Option.some.injEq] at h
    rw [← h, mem_keys_mapInsert]
    simp [optionsOf]
  | cons tmp rest ih =>
    intro lastOption lastOptionArgs m m2 h k
    cases tmp with
    | nil => simp [initLoop] at h
    | cons c cs =>
      simp only [initLoop] at h
      by_cases hc : c = optionsPrefix
      · rw [if_pos hc] at h
        have := ih _ _ _ _ h k
        rw [this]
        have hopt : optionsOf optionsPrefix ((c :: cs) :: rest)
            = (c :: cs) :: optionsOf optionsPrefix rest := by
          simp [optionsOf, hc]
        rw [hopt]
        by_cases hl : lastOption = []
        · simp [hl]
        · simp only [ne_eq, hl, not_false_eq_true, if_true, mem_keys_mapInsert, List.mem_cons]
          simp
          tauto
      · rw [if_neg hc] at h
        by_cases hl : lastOption = []
        · rw [if_pos hl] at h; cases h
        · rw [if_neg hl] at h
          have := ih _ _ _ _ h k
          rw [this]
          have hopt : optionsOf optionsPrefix ((c :: cs) :: rest)
              = optionsOf optionsPrefix rest := by
            simp [optionsOf, hc]
          rw [hopt]
          simp [hl]

/-- The character loop changes nothing on an argument without the delimiter. -/
theorem delimLoop_no_delim (valueDelim : Char) (opt : List Char) (h : valueDelim ∉ opt) :
    ∀ (i lastDelimPos : Nat) (tmp : List Char) (optionArgs : List (List Char)),
      delimLoop valueDelim opt i lastDelimPos tmp optionArgs = (lastDelimPos, optionArgs) := by
  induction opt with
  | nil => intro i l tmp out; rfl
  | cons c rest ih =>
    intro i l tmp out
    have hc : ¬ (c = valueDelim) := fun e => h (by simp [e])
    have hr : valueDelim ∉ rest := fun e => h (by simp [e])
    simp only [delimLoop]
    rw [if_neg hc]
    exact ih hr _ _ _ _

/-- Claim C29, refuted by evaluation: for the command line `program.exe /files abc`
the call `getOption("/files", out, ';')` returns true with `out = ["bc"]`, not
`["abc"]`; the one-character arguments `a`, `b` contribute nothing; in general an
argument of two or more characters without the delimiter contributes itself
without its first character. The command line of the unit test gives the six names,
and an absent option gives false and leaves `out`. -/
theorem C29_getOption_delim :
    (ArgsParser.create ["program.exe".toList, "/files".toList, "abc".toList] '/'
        = .ok ⟨'/', "program.exe".toList, [("/files".toList, ["abc".toList])]⟩
      ∧ ArgsParser.getOptionDelim
          ⟨'/', "program.exe".toList, [("/files".toList, ["abc".toList])]⟩ "/files".toList [] ';'
        = some (true, ["bc".toList]))
    ∧ ArgsParser.getOptionDelim
          ⟨'/', "program.exe".toList, [("/files".toList, ["a".toList, "b".toList])]⟩
          "/files".toList [] ';'
        = some (true, [])
    ∧ (∀ (p : ArgsParser) (optionName : List Char) (opt : List Char) (valueDelim : Char),
        mapFind p.mOptions optionName = some [opt] → valueDelim ∉ opt → 2 ≤ opt.length →
        opt.length < SIZE_MOD →
        ∀ optionArgs, p.getOptionDelim optionName optionArgs valueDelim
          = some (true, [opt.drop 1]))
    ∧ (ArgsParser.create argvComplete '/' = .ok parsedComplete
        ∧ parsedComplete.getOptionDelim "/files".toList [] ';'
          = some (true, ["inFile1".toList, "inFile2".toList, "inFile3".toList,
              "oFile1".toList, "oFile2".toList, "oFile3".toList]))
    ∧ (∀ (p : ArgsParser) (optionName : List Char) (optionArgs : List (List Char))
        (valueDelim : Char), mapFind p.mOptions optionName = none →
        p.getOptionDelim optionName optionArgs valueDelim = some (false, optionArgs)) := by
  refine ⟨⟨by decide, by decide⟩, by decide, ?_, ⟨by decide, by decide⟩, ?_⟩
  · intro p optionName opt valueDelim hf hd hlen hsz optionArgs
    unfold getOptionDelim
    rw [hf]
    simp only [delimArgs, delimLoop_no_delim valueDelim opt hd]
    have h1 : sizeT (opt.length + SIZE_MOD - 1) = opt.length - 1 := by
      unfold sizeT
      have : opt.length + SIZE_MOD - 1 = (opt.length - 1) + SIZE_MOD := by omega
      rw [this, Nat.add_mod_right]
      exact Nat.mod_eq_of_lt (by omega)
    rw [h1]
    have h2 : (0 : Nat) ≠ opt.length - 1 := by omega
    rw [if_pos h2]
    have h3 : sizeT (0 + 1) = 1 := by decide
    rw [h3]
    unfold substrFrom
    have h4 : ¬ (1 > opt.length) := by omega
    rw [if_neg h4]
    rfl
  · intro p optionName optionArgs valueDelim hf
    unfold getOptionDelim
    rw [hf]

/-- Claim C30, refuted by evaluation: the command line `program.exe` without
arguments is accepted and has no option, yet `containsOnlyValidOptions({})` is
false: the map holds the empty string as a key, and the result is true exactly when
the empty string is allowed. For an accepted command line with at least one
argument the result is true exactly when every prefixed argument is allowed. -/
theorem C30_containsOnlyValidOptions :
    (ArgsParser.create ["program.exe".toList] '-'
        = .ok ⟨'-', "program.exe".toList, [([], [])]⟩
      ∧ ArgsParser.containsOnlyValidOptions ⟨'-', "program.exe".toList, [([], [])]⟩ [] = false
      ∧ optionsOf '-' (["program.exe".toList] : List (List Char)).tail = [])
    ∧ (∀ (programName : List Char) (optionsPrefix : Char) (allowedOptions : List (List Char)),
        ∃ p, ArgsParser.create [programName] optionsPrefix = .ok p
          ∧ (p.containsOnlyValidOptions allowedOptions = true ↔ [] ∈ allowedOptions))
    ∧ (∀ (argv : List (List Char)) (optionsPrefix : Char) (p : ArgsParser)
        (allowedOptions : List (List Char)),
        ArgsParser.create argv optionsPrefix = .ok p → 2 ≤ argv.length →
        (p.containsOnlyValidOptions allowedOptions = true ↔
          ∀ a ∈ argv.tail, a.head? = some optionsPrefix → a ∈ allowedOptions)) := by
  refine ⟨⟨by decide, by decide, by decide⟩, ?_, ?_⟩
  · intro programName optionsPrefix allowedOptions
    refine ⟨⟨optionsPrefix, programName, [([], [])]⟩, rfl, ?_⟩
    simp [containsOnlyValidOptions, validLoop]
  · intro argv optionsPrefix p allowedOptions hc hlen
    cases argv with
    | nil => simp at hlen
    | cons programName args =>
      have hne : args ≠ [] := by
        intro h; rw [h] at hlen; simp at hlen
      unfold ArgsParser.create at hc
      simp only at hc
      cases hi : initOptionsMap optionsPrefix args with
      | none => rw [hi] at hc; cases hc
      | some m =>
        rw [hi] at hc
        simp only [ParseOutcome.ok.injEq] at hc
        subst hc
        unfold containsOnlyValidOptions
        simp only [List.tail_cons]
        rw [validLoop_iff]
        have hk := initLoop_keys optionsPrefix args [] [] [] m hi
        constructor
        · intro h a ha hp
          apply h
          rw [hk]
          right; right
          simp [optionsOf, ha, hp]
        · intro h k hkm
          rw [hk] at hkm
          rcases hkm with h1 | ⟨_, h2⟩ | h3
          · simp at h1
          · exact absurd (h2 rfl) hne
          · simp only [optionsOf, List.mem_filter, decide_eq_true_eq] at h3
            exact h k h3.1 h3.2

end CommandLine

/-! ### Splitting a string -/

/-- The search returns the first position where the string begins, or `NPOS` when
it begins nowhere. -/
theorem findFrom_spec (str : List Char) (rest : List Char) :
    ∀ pos : Nat,
      (∃ k, k ≤ rest.length ∧ str <+: rest.drop k ∧ (∀ j, j < k → ¬ str <+: rest.drop j)
          ∧ findFrom str rest pos = pos + k)
        ∨ ((∀ j, j ≤ rest.length → ¬ str <+: rest.drop j) ∧ findFrom str rest pos = NPOS) := by
  induction rest with
  | nil =>
    intro pos
    by_cases h : str <+: []
    · left
      refine ⟨0, le_refl _, h, fun j hj => absurd hj (Nat.not_lt_zero j), ?_⟩
      simp only [findFrom, List.isPrefixOf_iff_prefix]
      rw [if_pos h]; rfl
    · right
      refine ⟨fun j _ => by simpa using h, ?_⟩
      simp only [findFrom, List.isPrefixOf_iff_prefix]
      rw [if_neg h]
  | cons c rest ih =>
    intro pos
    by_cases h : str <+: c :: rest
    · left
      refine ⟨0, Nat.zero_le _, h, fun j hj => absurd hj (Nat.not_lt_zero j), ?_⟩
      simp only [findFrom, List.isPrefixOf_iff_prefix]
      rw [if_pos h]; rfl
    · have hf : findFrom str (c :: rest) pos = findFrom str rest (pos + 1) := by
        simp only [findFrom, List.isPrefixOf_iff_prefix]
        rw [if_neg h]
      rcases ih (pos + 1) with ⟨k, hk, hp, hmin, he⟩ | ⟨hno, he⟩
      · left
        refine ⟨k + 1, by simpa using hk, by simpa using hp, ?_, by rw [hf, he]; omega⟩
        intro j hj
        cases j with
        | zero => simpa using h
        | succ j => simpa using hmin j (by omega)
      · right
        refine ⟨?_, by rw [hf, he]⟩
        intro j hj
        cases j with
        | zero => simpa using h
        | succ j => simpa using hno j (by simpa using hj)

/-- The call `find` returns the smallest position at or after `pos` where the
string begins, or `NPOS` when there is none. -/
theorem stringFind_spec (input str : List Char) (pos : Nat) (hpos : pos ≤ input.length) :
    (∃ p, pos ≤ p ∧ OccursAt input str p ∧ (∀ q, pos ≤ q → q < p → ¬ OccursAt input str q)
        ∧ stringFind input str pos = p)
      ∨ ((∀ q, pos ≤ q → ¬ OccursAt input str q) ∧ stringFind input str pos = NPOS) := by
  have hs : stringFind input str pos = findFrom str (input.drop pos) pos := by
    unfold stringFind
    rw [if_neg (by omega)]
  have hdrop : ∀ k, (input.drop pos).drop k = input.drop (pos + k) := by
    intro k; rw [List.drop_drop]
  have hlen : (input.drop pos).length = input.length - pos := List.length_drop _ _
  rcases findFrom_spec str (input.drop pos) pos with ⟨k, hk, hp, hmin, he⟩ | ⟨hno, he⟩
  · left
    refine ⟨pos + k, by omega, ⟨by omega, by rw [← hdrop]; exact hp⟩, ?_, by rw [hs, he]⟩
    intro q hq1 hq2 ho
    have := hmin (q - pos) (by omega)
    rw [hdrop] at this
    have e : pos + (q - pos) = q := by omega
    rw [e] at this
    exact this ho.2
  · right
    refine ⟨?_, by rw [hs, he]⟩
    intro q hq ho
    have := hno (q - pos) (by have := ho.1; omega)
    rw [hdrop] at this
    have e : pos + (q - pos) = q := by omega
    rw [e] at this
    exact this ho.2

/-- The result of `find` is a position of the input or `NPOS`. -/
theorem stringFind_range (input str : List Char) (pos : Nat) (hpos : pos ≤ input.length) :
    stringFind input str pos ≤ input.length ∨ stringFind input str pos = NPOS := by
  rcases stringFind_spec input str pos hpos with ⟨p, _, ho, _, he⟩ | ⟨_, he⟩
  · left; rw [he]; exact ho.1
  · right; exact he

/-- The loop of `findMinDelimPos` keeps the smallest result of `find`, with the
length of a delimiter that gave it. -/
theorem foldMin_spec (input : List Char) (currFirst : Nat) (ds : List (List Char)) :
    ∀ acc : Nat × Nat,
      (ds.foldl
        (fun acc str =>
          let pos := stringFind input str currFirst
          if pos < acc.1 then (pos, str.length) else acc) acc).1 ≤ acc.1
      ∧ (∀ d ∈ ds, (ds.foldl
        (fun acc str =>
          let pos := stringFind input str currFirst
          if pos < acc.1 then (pos, str.length) else acc) acc).1 ≤ stringFind input d currFirst)
      ∧ (ds.foldl
        (fun acc str =>
          let pos := stringFind input str currFirst
          if pos < acc.1 then (pos, str.length) else acc) acc = acc
        ∨ ∃ d ∈ ds, ds.foldl
        (fun acc str =>
          let pos := stringFind input str currFirst
          if pos < acc.1 then (pos, str.length) else acc) acc
            = (stringFind input d currFirst, d.length)) := by
  induction ds with
  | nil =>
    intro acc
    refine ⟨le_refl _, ?_, Or.inl rfl⟩
    intro d hd; cases hd
  | cons a ds ih =>
    intro acc
    simp only [List.foldl_cons]
    by_cases h : stringFind input a currFirst < acc.1
    · rw [if_pos h]
      obtain ⟨h1, h2, h3⟩ := ih (stringFind input a currFirst, a.length)
      refine ⟨le_trans h1 (le_of_lt h), ?_, ?_⟩
      · intro d hd
        rcases List.mem_cons.mp hd with e | e
        · rw [e]; exact h1
        · exact h2 d e
      · right
        rcases h3 with e | ⟨d, hd, e⟩
        · exact ⟨a, List.mem_cons_self _ _, e⟩
        · exact ⟨d, List.mem_cons_of_mem _ hd, e⟩
    · rw [if_neg h]
      obtain ⟨h1, h2, h3⟩ := ih acc
      refine ⟨h1, ?_, ?_⟩
      · intro d hd
        rcases List.mem_cons.mp hd with e | e
        · rw [e]; exact le_trans h1 (Nat.le_of_not_lt h)
        · exact h2 d e
      · rcases h3 with e | ⟨d, hd, e⟩
        · exact Or.inl e
        · exact Or.inr ⟨d, List.mem_cons_of_mem _ hd, e⟩

/-- The lambda `findMinDelimPos` returns the smallest position at or after
`currPos.first` where any delimiter begins, with the length of a delimiter that
begins there, or `NPOS` when no delimiter begins any more. -/
theorem findMinDelimPos_spec (input : List Char) (delimiters : List (List Char))
    (currFirst : Nat) (hpos : currFirst ≤ input.length) (hlen : input.length < NPOS) :
    ((findMinDelimPos input delimiters currFirst).1 = NPOS
        ∧ ∀ d ∈ delimiters, ∀ q, currFirst ≤ q → ¬ OccursAt input d q)
      ∨ (currFirst ≤ (findMinDelimPos input delimiters currFirst).1
        ∧ (findMinDelimPos input delimiters currFirst).1 ≠ NPOS
        ∧ (∃ d ∈ delimiters, OccursAt input d (findMinDelimPos input delimiters currFirst).1
            ∧ (findMinDelimPos input delimiters currFirst).2 = d.length)
        ∧ ∀ e ∈ delimiters, ∀ q, currFirst ≤ q →
            q < (findMinDelimPos input delimiters currFirst).1 → ¬ OccursAt input e q) := by
  obtain ⟨h1, h2, h3⟩ := foldMin_spec input currFirst delimiters (NPOS, 0)
  have hfold : findMinDelimPos input delimiters currFirst = delimiters.foldl
        (fun acc str =>
          let pos := stringFind input str currFirst
          if pos < acc.1 then (pos, str.length) else acc) (NPOS, 0) := rfl
  rw [← hfold] at h1 h2 h3
  have hbelow : ∀ e ∈ delimiters, ∀ q, currFirst ≤ q →
      q < (findMinDelimPos input delimiters currFirst).1 → ¬ OccursAt input e q := by
    intro e he q hq1 hq2 ho
    have hle := h2 e he
    rcases stringFind_spec input e currFirst hpos with ⟨p, _, _, hmin, hp⟩ | ⟨hno, _⟩
    · rw [hp] at hle
      exact hmin q hq1 (by omega) ho
    · exact hno q hq1 ho
  by_cases hn : (findMinDelimPos input delimiters currFirst).1 = NPOS
  · left
    refine ⟨hn, ?_⟩
    intro d hd q hq ho
    exact hbelow d hd q hq (by rw [hn]; have := ho.1; omega) ho
  · right
    rcases h3 with e | ⟨d, hd, e⟩
    · rw [e] at hn; exact absurd rfl hn
    · rcases stringFind_spec input d currFirst hpos with ⟨p, hp1, ho, _, hp⟩ | ⟨_, hp⟩
      · have e1 : (findMinDelimPos input delimiters currFirst).1 = p := by rw [e, hp]
        have e2 : (findMinDelimPos input delimiters currFirst).2 = d.length := by rw [e]
        refine ⟨by rw [e1]; exact hp1, hn, ⟨d, hd, by rw [e1]; exact ho, e2⟩, hbelow⟩
      · rw [e, hp] at hn; exact absurd rfl hn

/-- A string that begins at a position ends within the input. -/
theorem occursAt_bound (input d : List Char) (p : Nat) (h : OccursAt input d p) :
    p + d.length ≤ input.length := by
  have := h.2.length_le
  rw [List.length_drop] at this
  have := h.1
  omega

/-- One round of the loop when a delimiter is found. -/
theorem parseLoop_found (input : List Char) (delimiters : List (List Char)) (fuel p : Nat)
    (result : List (List Char)) (hp : p ≤ input.length) (hlen : input.length < NPOS)
    (hn : (findMinDelimPos input delimiters p).1 ≠ NPOS)
    (hle : p ≤ (findMinDelimPos input delimiters p).1)
    (hb : (findMinDelimPos input delimiters p).1 + (findMinDelimPos input delimiters p).2
      ≤ input.length) :
    parseLoop input delimiters (fuel + 1) p p result
      = parseLoop input delimiters fuel
          ((findMinDelimPos input delimiters p).1 + (findMinDelimPos input delimiters p).2)
          ((findMinDelimPos input delimiters p).1 + (findMinDelimPos input delimiters p).2)
          (result ++ [(input.drop p).take ((findMinDelimPos input delimiters p).1 - p)]) := by
  have hN : NPOS = SIZE_MOD - 1 := rfl
  have hS : SIZE_MOD = 2 ^ 64 := rfl
  simp only [parseLoop]
  rw [if_pos hn]
  have h1 : sizeT ((findMinDelimPos input delimiters p).1 + SIZE_MOD - p)
      = (findMinDelimPos input delimiters p).1 - p := by
    unfold sizeT
    have : (findMinDelimPos input delimiters p).1 + SIZE_MOD - p
        = ((findMinDelimPos input delimiters p).1 - p) + SIZE_MOD := by omega
    rw [this, Nat.add_mod_right]
    exact Nat.mod_eq_of_lt (by omega)
  have h2 : sizeT ((findMinDelimPos input delimiters p).1 + (findMinDelimPos input delimiters p).2)
      = (findMinDelimPos input delimiters p).1 + (findMinDelimPos input delimiters p).2 := by
    unfold sizeT
    exact Nat.mod_eq_of_lt (by omega)
  rw [h1, h2]
  unfold substr
  rw [if_neg (by omega)]

/-- The last round of the loop and the residual. -/
theorem parseLoop_done (input : List Char) (delimiters : List (List Char)) (fuel p : Nat)
    (result : List (List Char)) (hp : p ≤ input.length) (hlen : input.length < NPOS)
    (hn : (findMinDelimPos input delimiters p).1 = NPOS) :
    parseLoop input delimiters (fuel + 1) p p result
      = some (if input.drop p ≠ [] then result ++ [input.drop p] else result) := by
  have hN : NPOS = SIZE_MOD - 1 := rfl
  have hS : SIZE_MOD = 2 ^ 64 := rfl
  simp only [parseLoop]
  rw [if_neg (by rw [hn]; exact fun h => h rfl)]
  have h1 : sizeT ((findMinDelimPos input delimiters p).1 + SIZE_MOD - p) = NPOS - p := by
    rw [hn]
    unfold sizeT
    have : NPOS + SIZE_MOD - p = (NPOS - p) + SIZE_MOD := by omega
    rw [this, Nat.add_mod_right]
    exact Nat.mod_eq_of_lt (by omega)
  rw [h1]
  unfold substr
  rw [if_neg (by omega)]
  have h2 : (input.drop p).take (NPOS - p) = input.drop p := by
    apply List.take_of_length_le
    rw [List.length_drop]
    omega
  rw [h2]

/-- A decomposition of the rest of the input gives an occurrence. -/
theorem occursAt_of_append (input d s t : List Char) (p : Nat) (hd : d ≠ [])
    (h : input.drop p = s ++ d ++ t) : OccursAt input d (p + s.length) := by
  have hl : (input.drop p).length = s.length + d.length + t.length := by
    rw [h]; simp only [List.length_append]
  rw [List.length_drop] at hl
  have hdl : 0 < d.length := List.length_pos.mpr hd
  refine ⟨by omega, ?_⟩
  rw [← List.drop_drop, h, List.append_assoc, List.drop_left]
  exact List.prefix_append _ _

/-- The rest of the input does not contain a delimiter that begins nowhere in it. -/
theorem not_infix_drop (input d : List Char) (p : Nat) (hd : d ≠ [])
    (hno : ∀ q, p ≤ q → ¬ OccursAt input d q) : ¬ d <:+: input.drop p := by
  rintro ⟨s, t, h⟩
  exact hno (p + s.length) (by omega) (occursAt_of_append input d s t p hd h.symm)

/-- A piece of the input does not contain a delimiter that begins nowhere in it. -/
theorem not_infix_take (input d : List Char) (p n : Nat) (hd : d ≠ [])
    (hno : ∀ q, p ≤ q → q < p + n → ¬ OccursAt input d q) :
    ¬ d <:+: (input.drop p).take n := by
  rintro ⟨s, t, h⟩
  have hdl : 0 < d.length := List.length_pos.mpr hd
  have hl : s.length + d.length + t.length ≤ n := by
    have := congrArg List.length h
    simp only [List.length_append, List.length_take] at this
    omega
  have hall : input.drop p = s ++ d ++ (t ++ (input.drop p).drop n) := by
    rw [← List.append_assoc, h, List.take_append_drop]
  exact hno (p + s.length) (by omega) (by omega) (occursAt_of_append input d s _ p hd hall)

/-- The loop returns, with enough fuel, tokens that split the input and contain no
delimiter. -/
theorem parseLoop_spec (input : List Char) (delimiters : List (List Char))
    (hne : ∀ d ∈ delimiters, d ≠ []) (hlen : input.length < NPOS) :
    ∀ (fuel p : Nat) (result : List (List Char)), p ≤ input.length → input.length - p < fuel →
      ∃ toks, parseLoop input delimiters fuel p p result = some (result ++ toks)
        ∧ Splits input delimiters p toks
        ∧ ∀ t ∈ toks, ∀ d ∈ delimiters, ¬ d <:+: t := by
  intro fuel
  induction fuel with
  | zero => intro p result _ h; exact absurd h (Nat.not_lt_zero _)
  | succ fuel ih =>
    intro p result hp hfuel
    rcases findMinDelimPos_spec input delimiters p hp hlen with ⟨hn, hno⟩ | ⟨hle, hn, ⟨d, hd, ho, hl⟩, hmin⟩
    · refine ⟨if input.drop p ≠ [] then [input.drop p] else [], ?_, Splits.residual p hno, ?_⟩
      · rw [parseLoop_done input delimiters fuel p result hp hlen hn]
        by_cases h : input.drop p ≠ []
        · rw [if_pos h, if_pos h]
        · rw [if_neg h, if_neg h, List.append_nil]
      · intro t ht e he
        by_cases h : input.drop p ≠ []
        · rw [if_pos h] at ht
          rw [List.mem_singleton.mp ht]
          exact not_infix_drop input e p (hne e he) (hno e he)
        · rw [if_neg h] at ht; cases ht
    · have hb := occursAt_bound input d _ ho
      have hdl : 0 < d.length := List.length_pos.mpr (hne d hd)
      rw [← hl] at hb
      obtain ⟨toks, h1, h2, h3⟩ := ih
        ((findMinDelimPos input delimiters p).1 + (findMinDelimPos input delimiters p).2)
        (result ++ [(input.drop p).take ((findMinDelimPos input delimiters p).1 - p)])
        hb (by omega)
      refine ⟨(input.drop p).take ((findMinDelimPos input delimiters p).1 - p) :: toks, ?_, ?_, ?_⟩
      · rw [parseLoop_found input delimiters fuel p result hp hlen hn hle hb, h1]
        simp
      · rw [hl] at h2
        exact Splits.token p _ d toks hle hd ho hmin h2
      · intro t ht e he
        rcases List.mem_cons.mp ht with e1 | e1
        · rw [e1]
          apply not_infix_take input e p _ (hne e he)
          intro q hq1 hq2
          exact hmin e he q hq1 (by omega)
        · exact h3 t e1 e he

/-- The search skips a token that has no character of the delimiter. -/
theorem findFrom_skip (d t : List Char) (hd : d ≠ []) (hdis : ∀ c ∈ t, c ∉ d) :
    ∀ (rest : List Char) (pos : Nat),
      findFrom d (t ++ rest) pos = findFrom d rest (pos + t.length) := by
  induction t with
  | nil => intro rest pos; rfl
  | cons c t ih =>
    intro rest pos
    have hnp : ¬ d <+: c :: (t ++ rest) := by
      intro h
      cases d with
      | nil => exact hd rfl
      | cons a d2 =>
        have := List.cons_prefix_cons.mp h
        exact hdis c (List.mem_cons_self _ _) (by rw [this.1]; exact List.mem_cons_self _ _)
    have hf : findFrom d (c :: (t ++ rest)) pos = findFrom d (t ++ rest) (pos + 1) := by
      simp only [findFrom, List.isPrefixOf_iff_prefix]
      rw [if_neg hnp]
    rw [List.cons_append, hf, ih (fun c hc => hdis c (List.mem_cons_of_mem _ hc))]
    simp only [List.length_cons]
    congr 1
    omega

/-- The search stops where the delimiter begins. -/
theorem findFrom_hit (d rest : List Char) (pos : Nat) : findFrom d (d ++ rest) pos = pos := by
  cases h : d ++ rest with
  | nil =>
    have hd : d = [] := (List.append_eq_nil.mp h).1
    rw [hd]
    simp [findFrom]
  | cons c l =>
    have hp : d <+: c :: l := by rw [← h]; exact List.prefix_append _ _
    simp only [findFrom, List.isPrefixOf_iff_prefix]
    rw [if_pos hp]

/-- A non-empty delimiter is not found in the empty string. -/
theorem findFrom_nil (d : List Char) (hd : d ≠ []) (pos : Nat) : findFrom d [] pos = NPOS := by
  have hp : ¬ d <+: [] := by
    intro h; exact hd (List.prefix_nil.mp h)
  simp only [findFrom, List.isPrefixOf_iff_prefix]
  rw [if_neg hp]

/-- The lambda `findMinDelimPos` for one delimiter. -/
theorem findMinDelimPos_single (input d : List Char) (p : Nat) :
    findMinDelimPos input [d] p
      = if stringFind input d p < NPOS then (stringFind input d p, d.length) else (NPOS, 0) := rfl

/-- One round of the loop on a token that is followed by the delimiter. -/
theorem parseLoop_join_step (d pre t rest : List Char) (hd : d ≠ [])
    (hdis : ∀ c ∈ t, c ∉ d) (hlen : (pre ++ t ++ d ++ rest).length < NPOS) (fuel : Nat)
    (result : List (List Char)) :
    parseLoop (pre ++ t ++ d ++ rest) [d] (fuel + 1) pre.length pre.length result
      = parseLoop (pre ++ t ++ d ++ rest) [d] fuel (pre ++ t ++ d).length (pre ++ t ++ d).length
          (result ++ [t]) := by
  have hl : (pre ++ t ++ d ++ rest).length = pre.length + t.length + d.length + rest.length := by
    simp only [List.length_append]
  have hf : stringFind (pre ++ t ++ d ++ rest) d pre.length = pre.length + t.length := by
    unfold stringFind
    rw [if_neg (by omega)]
    have : (pre ++ t ++ d ++ rest).drop pre.length = t ++ (d ++ rest) := by
      rw [List.append_assoc, List.append_assoc, List.drop_left]
    rw [this, findFrom_skip d t hd hdis, findFrom_hit]
  have hm : findMinDelimPos (pre ++ t ++ d ++ rest) [d] pre.length
      = (pre.length + t.length, d.length) := by
    rw [findMinDelimPos_single, hf, if_pos (by omega)]
  have h := parseLoop_found (pre ++ t ++ d ++ rest) [d] fuel pre.length result (by omega) hlen
    (by rw [hm]; simp only; omega) (by rw [hm]; simp only; omega)
    (by rw [hm]; simp only; omega)
  rw [h, hm]
  simp only
  have h1 : ((pre ++ t ++ d ++ rest).drop pre.length).take (pre.length + t.length - pre.length)
      = t := by
    rw [List.append_assoc, List.append_assoc, List.drop_left]
    have : pre.length + t.length - pre.length = t.length := by omega
    rw [this, List.take_left]
  have h2 : (pre ++ t ++ d).length = pre.length + t.length + d.length := by
    simp only [List.length_append]
  rw [h1, h2]

/-- The last round of the loop on a token that ends the input. -/
theorem parseLoop_join_last (d pre t : List Char) (hd : d ≠ [])
    (hdis : ∀ c ∈ t, c ∉ d) (hlen : (pre ++ t).length < NPOS) (fuel : Nat)
    (result : List (List Char)) :
    parseLoop (pre ++ t) [d] (fuel + 1) pre.length pre.length result
      = some (if t ≠ [] then result ++ [t] else result) := by
  have hl : (pre ++ t).length = pre.length + t.length := by
    simp only [List.length_append]
  have hdrop : (pre ++ t).drop pre.length = t := List.drop_left _ _
  have hf : stringFind (pre ++ t) d pre.length = NPOS := by
    unfold stringFind
    rw [if_neg (by omega), hdrop]
    have := findFrom_skip d t hd hdis [] pre.length
    rw [List.append_nil] at this
    rw [this, findFrom_nil d hd]
  have hm : (findMinDelimPos (pre ++ t) [d] pre.length).1 = NPOS := by
    rw [findMinDelimPos_single, hf, if_neg (lt_irrefl _)]
  rw [parseLoop_done (pre ++ t) [d] fuel pre.length result (by omega) hlen hm, hdrop]

/-- The join of two or more tokens. -/
theorem intercalate_cons_cons (d t u : List Char) (ts : List (List Char)) :
    d.intercalate (t :: u :: ts) = t ++ d ++ d.intercalate (u :: ts) := by
  simp [List.intercalate, List.intersperse]

/-- The join of one token. -/
theorem intercalate_single (d t : List Char) : d.intercalate [t] = t := by
  simp [List.intercalate, List.intersperse]

/-- The loop on the join of tokens, with or without a trailing delimiter. -/
theorem parseLoop_join (d : List Char) (hd : d ≠ []) (ts : List (List Char)) :
    ∀ (pre post : List Char) (fuel : Nat) (result : List (List Char)),
      ts ≠ [] → (∀ t ∈ ts, t ≠ []) → (∀ t ∈ ts, ∀ c ∈ t, c ∉ d) → (post = [] ∨ post = d) →
      (pre ++ d.intercalate ts ++ post).length < NPOS →
      (pre ++ d.intercalate ts ++ post).length - pre.length < fuel →
      parseLoop (pre ++ d.intercalate ts ++ post) [d] fuel pre.length pre.length result
        = some (result ++ ts) := by
  induction ts with
  | nil => intro _ _ _ _ h; exact absurd rfl h
  | cons t ts ih =>
    intro pre post fuel result _ hne hdis hpost hlen hfuel
    have hdl : 0 < d.length := List.length_pos.mpr hd
    have htl : 0 < t.length := List.length_pos.mpr (hne t (List.mem_cons_self _ _))
    have ht := hdis t (List.mem_cons_self _ _)
    cases ts with
    | nil =>
      rw [intercalate_single] at hlen hfuel ⊢
      rcases hpost with e | e
      · subst e
        rw [List.append_nil] at hlen hfuel ⊢
        cases fuel with
        | zero => exact absurd hfuel (Nat.not_lt_zero _)
        | succ fuel =>
          rw [parseLoop_join_last d pre t hd ht hlen,
            if_pos (hne t (List.mem_cons_self _ _))]
      · subst e
        simp only [List.length_append] at hfuel
        cases fuel with
        | zero => exact absurd hfuel (Nat.not_lt_zero _)
        | succ fuel =>
          cases fuel with
          | zero => omega
          | succ fuel =>
            have h1 := parseLoop_join_step post pre t [] hd ht
              (by rw [List.append_nil]; exact hlen) (fuel + 1) result
            rw [List.append_nil] at h1
            rw [h1]
            have h2 := parseLoop_join_last post (pre ++ t ++ post) [] hd
              (fun c hc => absurd hc (List.not_mem_nil c))
              (by rw [List.append_nil]; exact hlen) fuel (result ++ [t])
            rw [List.append_nil] at h2
            rw [h2, if_neg (fun h => h rfl)]
    | cons u ts =>
      rw [intercalate_cons_cons] at hlen hfuel ⊢
      have e1 : pre ++ (t ++ d ++ d.intercalate (u :: ts)) ++ post
          = pre ++ t ++ d ++ (d.intercalate (u :: ts) ++ post) := by
        simp only [List.append_assoc]
      have e2 : pre ++ (t ++ d ++ d.intercalate (u :: ts)) ++ post
          = (pre ++ t ++ d) ++ d.intercalate (u :: ts) ++ post := by
        simp only [List.append_assoc]
      cases fuel with
      | zero => exact absurd hfuel (Nat.not_lt_zero _)
      | succ fuel =>
        rw [e1] at hlen hfuel ⊢
        rw [parseLoop_join_step d pre t _ hd ht hlen fuel result]
        rw [← e1, e2] at hlen hfuel ⊢
        have := ih (pre ++ t ++ d) post fuel (result ++ [t]) (List.cons_ne_nil _ _)
          (fun x hx => hne x (List.mem_cons_of_mem _ hx))
          (fun x hx => hdis x (List.mem_cons_of_mem _ hx)) hpost hlen
          (by simp only [List.length_append] at hfuel ⊢; omega)
        rw [this]
        simp

/-- Claim C25: for a non-empty delimiter `d` and a non-empty list `ts` of non-empty
strings that share no character with `d` (the input being a `std::string`, shorter
than `npos`), `parseString` of the join of `ts` with `d` returns exactly `ts`, and
so does the join followed by one more `d`; the two inputs of the unit test give
`hello`, `world`, `nice`. -/
theorem C25_parseString_join (d : List Char) (ts : List (List Char)) (hd : d ≠ [])
    (hts : ts ≠ []) (hne : ∀ t ∈ ts, t ≠ []) (hdis : ∀ t ∈ ts, ∀ c ∈ t, c ∉ d)
    (hlen : (d.intercalate ts ++ d).length < NPOS) :
    parseString (d.intercalate ts) [d] = some ts
    ∧ parseString (d.intercalate ts ++ d) [d] = some ts
    ∧ parseString "hello;;world;;nice".toList [";;".toList]
        = some ["hello".toList, "world".toList, "nice".toList]
    ∧ parseString "hello;;world;;nice;;".toList [";;".toList]
        = some ["hello".toList, "world".toList, "nice".toList] := by
  have hl : (d.intercalate ts ++ d).length = (d.intercalate ts).length + d.length := by
    simp only [List.length_append]
  refine ⟨?_, ?_, by decide, by decide⟩
  · have := parseLoop_join d hd ts [] [] ((d.intercalate ts).length + 1) [] hts hne hdis
      (Or.inl rfl) (by simp only [List.nil_append, List.append_nil]; omega)
      (by simp only [List.nil_append, List.append_nil, List.length_nil]; omega)
    simpa [parseString] using this
  · have := parseLoop_join d hd ts [] d ((d.intercalate ts ++ d).length + 1) [] hts hne hdis
      (Or.inr rfl) (by simp only [List.nil_append]; omega)
      (by simp only [List.nil_append, List.length_nil]; omega)
    simpa [parseString] using this

/-- Witness of C25 on the tokens `ab`, `c` joined with `;;`. -/
theorem C25_parseString_join_witness :
    ";;".toList ≠ [] ∧ ["ab".toList, "c".toList] ≠ []
    ∧ (∀ t ∈ ["ab".toList, "c".toList], t ≠ [])
    ∧ (∀ t ∈ ["ab".toList, "c".toList], ∀ c ∈ t, c ∉ ";;".toList)
    ∧ (";;".toList.intercalate ["ab".toList, "c".toList] ++ ";;".toList).length < NPOS
    ∧ parseString (";;".toList.intercalate ["ab".toList, "c".toList]) [";;".toList]
        = some ["ab".toList, "c".toList]
    ∧ parseString (";;".toList.intercalate ["ab".toList, "c".toList] ++ ";;".toList)
        [";;".toList] = some ["ab".toList, "c".toList] :=
  have h := C25_parseString_join ";;".toList ["ab".toList, "c".toList]
    (by decide) (by decide) (by decide) (by decide) (by decide)
  ⟨by decide, by decide, by decide, by decide, by decide, h.1, h.2.1⟩

/-- Claim C26: for every input (a `std::string`, shorter than `npos`) and every list
of non-empty delimiters, `parseString` returns, and its tokens split the input at
the closest delimiter: each token ends at the smallest position at or after its
start where any delimiter begins; so no token contains a delimiter as a substring.
The input of the unit test gives the five words. -/
theorem C26_parseString_closest (input : List Char) (delimiters : List (List Char))
    (hne : ∀ d ∈ delimiters, d ≠ []) (hlen : input.length < NPOS) :
    (∃ result, parseString input delimiters = some result
      ∧ Splits input delimiters 0 result
      ∧ ∀ t ∈ result, ∀ d ∈ delimiters, ¬ d <:+: t)
    ∧ parseString "hello;world,it's.great::right?".toList
        [";".toList, "/".toList, ",".toList, ".".toList, "::".toList]
      = some ["hello".toList, "world".toList, "it's".toList, "great".toList,
          "right?".toList] := by
  refine ⟨?_, by decide⟩
  obtain ⟨toks, h1, h2, h3⟩ := parseLoop_spec input delimiters hne hlen (input.length + 1) 0 []
    (Nat.zero_le _) (by omega)
  exact ⟨toks, by rw [← List.nil_append toks]; exact h1, h2, h3⟩

/-- Witness of C26 on the input `a;b::c` with the delimiters `;` and `::`. -/
theorem C26_parseString_closest_witness :
    (∀ d ∈ [";".toList, "::".toList], d ≠ []) ∧ "a;b::c".toList.length < NPOS
    ∧ (∃ result, parseString "a;b::c".toList [";".toList, "::".toList] = some result
      ∧ Splits "a;b::c".toList [";".toList, "::".toList] 0 result
      ∧ ∀ t ∈ result, ∀ d ∈ [";".toList, "::".toList], ¬ d <:+: t) :=
  ⟨by decide, by decide,
    (C26_parseString_closest "a;b::c".toList [";".toList, "::".toList]
      (by decide) (by decide)).1⟩

/-! ### Permutations -/

/-- An element in front of the list without it is a permutation of the list. -/
theorem getElem_cons_eraseIdx_perm {T : Type} (xs : List T) (i : Nat) (x : T)
    (h : xs[i]? = some x) : (x :: xs.eraseIdx i).Perm xs := by
  induction xs generalizing i with
  | nil => simp at h
  | cons a xs ih =>
    cases i with
    | zero =>
      simp only [List.getElem?_cons_zero, Option.some.injEq] at h
      rw [h]
      simp
    | succ i =>
      simp only [List.getElem?_cons_succ] at h
      simp only [List.eraseIdx_cons_succ]
      exact (List.Perm.swap a x _).trans ((ih i h).cons a)

/-- With fuel for the size of the vector, the result has `n!` entries, each is a
permutation of the vector, and every permutation of the vector occurs. -/
theorem genPermutationsFuel_spec {T : Type} (fuel : Nat) :
    ∀ xs : List T, xs.length ≤ fuel →
      (genPermutationsFuel fuel xs).length = xs.length.factorial
      ∧ (∀ p ∈ genPermutationsFuel fuel xs, p.Perm xs)
      ∧ (∀ p : List T, p.Perm xs → p ∈ genPermutationsFuel fuel xs) := by
  induction fuel with
  | zero =>
    intro xs h
    have h0 : xs = [] := List.length_eq_zero.mp (Nat.le_zero.mp h)
    subst h0
    simp [genPermutationsFuel]
  | succ fuel ih =>
    intro xs h
    by_cases h1 : xs.length ≤ 1
    · have e : genPermutationsFuel (fuel + 1) xs = [xs] := by
        simp only [genPermutationsFuel]; rw [if_pos h1]
      rw [e]
      refine ⟨?_, ?_, ?_⟩
      · have : xs.length = 0 ∨ xs.length = 1 := by omega
        rcases this with e | e <;> rw [e] <;> rfl
      · intro p hp; rw [List.mem_singleton.mp hp]
      · intro p hp
        rw [List.mem_singleton]
        match xs, h1, hp with
        | [], _, hp => exact List.Perm.eq_nil hp
        | [a], _, hp => exact List.perm_singleton.mp hp
        | _ :: _ :: _, h1, _ => simp at h1
    · have e : genPermutationsFuel (fuel + 1) xs
          = (List.range xs.length).flatMap fun i =>
              match xs[i]? with
              | none => []
              | some x => (genPermutationsFuel fuel (xs.eraseIdx i)).map fun vct => x :: vct := by
        simp only [genPermutationsFuel]; rw [if_neg h1]
      rw [e]
      have hlenE : ∀ i, i < xs.length → (xs.eraseIdx i).length = xs.length - 1 := by
        intro i hi; exact List.length_eraseIdx_of_lt hi
      refine ⟨?_, ?_, ?_⟩
      · rw [List.length_flatMap]
        have hterm : ∀ i ∈ List.range xs.length,
            (match xs[i]? with
              | none => []
              | some x => (genPermutationsFuel fuel (xs.eraseIdx i)).map fun vct => x :: vct).length
              = (xs.length - 1).factorial := by
          intro i hi
          have hi2 : i < xs.length := List.mem_range.mp hi
          rw [List.getElem?_eq_getElem hi2]
          simp only [List.length_map]
          rw [(ih (xs.eraseIdx i) (by rw [hlenE i hi2]; omega)).1, hlenE i hi2]
        have hmap : List.map
            (List.length ∘ fun i =>
              match xs[i]? with
              | none => []
              | some x => (genPermutationsFuel fuel (xs.eraseIdx i)).map fun vct => x :: vct)
            (List.range xs.length)
            = List.map (fun _ => (xs.length - 1).factorial) (List.range xs.length) := by
          apply List.map_congr_left
          intro i hi
          exact hterm i hi
        rw [hmap]
        simp only [List.map_const', List.length_range, List.sum_replicate, smul_eq_mul]
        have : xs.length = (xs.length - 1) + 1 := by omega
        rw [this, Nat.factorial_succ]
        simp
      · intro p hp
        rw [List.mem_flatMap] at hp
        obtain ⟨i, hi, hp⟩ := hp
        have hi2 : i < xs.length := List.mem_range.mp hi
        rw [List.getElem?_eq_getElem hi2] at hp
        simp only [List.mem_map] at hp
        obtain ⟨vct, hv, rfl⟩ := hp
        have hv2 := (ih (xs.eraseIdx i) (by rw [hlenE i hi2]; omega)).2.1 vct hv
        exact (hv2.cons _).trans
          (getElem_cons_eraseIdx_perm xs i _ (List.getElem?_eq_getElem hi2))
      · intro p hp
        cases p with
        | nil =>
          have := hp.length_eq
          simp at this
          omega
        | cons y p2 =>
          have hy : y ∈ xs := hp.subset (List.mem_cons_self _ _)
          obtain ⟨i, hi, hxi⟩ := List.getElem_of_mem hy
          have hget : xs[i]? = some y := by rw [List.getElem?_eq_getElem hi, hxi]
          have hperm : p2.Perm (xs.eraseIdx i) :=
            List.Perm.cons_inv (hp.trans (getElem_cons_eraseIdx_perm xs i y hget).symm)
          rw [List.mem_flatMap]
          refine ⟨i, List.mem_range.mpr hi, ?_⟩
          rw [hget]
          simp only [List.mem_map]
          exact ⟨p2, (ih (xs.eraseIdx i) (by rw [hlenE i hi]; omega)).2.2 p2 hperm, rfl⟩

/-- Claim C27: for a vector `xs` of size `n`, `genPermutations(xs)` returns exactly
`n!` vectors, each of them is a permutation of `xs`, and every permutation of `xs`
occurs in the result; for `[a, b, c]` it returns the six orderings. -/
theorem C27_genPermutations {T : Type} (xs : List T) :
    (genPermutations xs).length = xs.length.factorial
    ∧ (∀ p ∈ genPermutations xs, p.Perm xs)
    ∧ (∀ p : List T, p.Perm xs → p ∈ genPermutations xs)
    ∧ genPermutations ['a', 'b', 'c']
      = [['a', 'b', 'c'], ['a', 'c', 'b'], ['b', 'a', 'c'], ['b', 'c', 'a'],
          ['c', 'a', 'b'], ['c', 'b', 'a']] := by
  obtain ⟨h1, h2, h3⟩ := genPermutationsFuel_spec xs.length xs (le_refl _)
  exact ⟨h1, h2, h3, by decide⟩

/-! ### Combinations -/

/-- Erasing index `c` and dropping `c` values drops `c + 1` values. -/
theorem drop_eraseIdx_self {T : Type} (c : Nat) :
    ∀ xs : List T, (xs.eraseIdx c).drop c = xs.drop (c + 1) := by
  induction c with
  | zero =>
    intro xs
    cases xs with
    | nil => rfl
    | cons a t => rfl
  | succ c ih =>
    intro xs
    cases xs with
    | nil => rfl
    | cons a t =>
      simp only [List.eraseIdx_cons_succ, List.drop_succ_cons]
      exact ih t

/-- The erase loop with `c` rounds removes the first `c` values. -/
theorem eraseLoop_eq {T : Type} (c : Nat) :
    ∀ xs : List T, c ≤ xs.length → eraseLoop c xs = some (xs.drop c) := by
  induction c with
  | zero => intro xs _; rfl
  | succ c ih =>
    intro xs h
    have hlt : c < xs.length := by omega
    simp only [eraseLoop]
    rw [if_pos hlt, ih (xs.eraseIdx c) (by rw [List.length_eraseIdx_of_lt hlt]; omega),
      drop_eraseIdx_self]

/-- For an index that fits `int`, the loop leaves the values behind index `i`,
and the value at index `i` too when repetition is allowed. -/
theorem erasePreceding_eq {T : Type} (xs : List T) (i : Nat) (rep : Bool)
    (hi : i < xs.length) (hsmall : i < 2 ^ 31) :
    erasePreceding xs i rep = some (xs.drop (i + 1 - (if rep then 1 else 0))) := by
  unfold erasePreceding
  rw [sizeToInt_small hsmall]
  cases rep with
  | false =>
    have h0 : ((i : Int) - (if false = true then 1 else 0)) = (i : Int) := by simp
    rw [h0, checkedInt_of_range (by omega) (by omega)]
    simp only
    rw [if_neg (by omega)]
    have h1 : (i : Int).toNat + 1 = i + 1 := by simp
    rw [h1, eraseLoop_eq (i + 1) xs (by omega)]
    simp
  | true =>
    have h0 : ((i : Int) - (if true = true then 1 else 0)) = (i : Int) - 1 := by simp
    rw [h0, checkedInt_of_range (by omega) (by omega)]
    simp only
    by_cases hz : i = 0
    · subst hz
      rw [if_pos (by omega)]
      simp
    · rw [if_neg (by omega)]
      have h1 : ((i : Int) - 1).toNat + 1 = i := by omega
      rw [h1, eraseLoop_eq i xs (by omega)]
      simp

/-- The loop over `i` on a vector whose indices fit `int`, in closed form. -/
theorem combLoop_eq {T : Type} (recurse : List T → Option (List (List T)))
    (g : List T → List (List T)) (xs : List T) (rep : Bool) (hn : xs.length ≤ 2 ^ 31)
    (hrec : ∀ lc : List T, lc.length ≤ xs.length → recurse lc = some (g lc)) :
    ∀ (remaining : List T) (i : Nat) (result : List (List T)), xs.drop i = remaining →
      combLoop recurse xs rep remaining i result = some (result ++ combRows g rep remaining) := by
  intro remaining
  induction remaining with
  | nil =>
    intro i result _
    simp [combLoop, combRows]
  | cons x r ih =>
    intro i result hdrop
    have hi : i < xs.length := by
      by_contra hge
      rw [List.drop_of_length_le (by omega)] at hdrop
      cases hdrop
    have hnext : xs.drop (i + 1) = r := by
      have : xs.drop (i + 1) = (xs.drop i).drop 1 := by rw [List.drop_drop]
      rw [this, hdrop]
      rfl
    have hlc : xs.drop (i + 1 - (if rep then 1 else 0)) = (if rep then x :: r else r) := by
      cases rep with
      | false => simpa using hnext
      | true => simpa using hdrop
    simp only [combLoop]
    rw [erasePreceding_eq xs i rep hi (by omega), hlc]
    simp only
    rw [hrec _ (by rw [← hlc, List.length_drop]; omega)]
    simp only
    rw [ih (i + 1) _ hnext]
    simp [combRows]

/-- On a vector whose indices fit `int`, `genCombinations` with `k = m + 1` and
enough fuel returns the closed form. -/
theorem genCombinationsFuel_eq {T : Type} (rep : Bool) (m : Nat) :
    ∀ (fuel : Nat) (xs : List T), m ≤ fuel → xs.length ≤ 2 ^ 31 → m + 1 < SIZE_MOD →
      genCombinationsFuel fuel xs (m + 1) rep = some (combs rep m xs) := by
  induction m with
  | zero =>
    intro fuel xs _ _ _
    cases fuel <;> simp [genCombinationsFuel, combs]
  | succ m ih =>
    intro fuel xs hf hn hk
    cases fuel with
    | zero => omega
    | succ fuel =>
      have hne : ¬ (m + 1 + 1 = 1) := by omega
      have hk1 : sizeT (m + 1 + 1 + SIZE_MOD - 1) = m + 1 := by
        unfold sizeT
        have : m + 1 + 1 + SIZE_MOD - 1 = (m + 1) + SIZE_MOD := by omega
        rw [this, Nat.add_mod_right]
        exact Nat.mod_eq_of_lt (by omega)
      simp only [genCombinationsFuel]
      rw [if_neg hne, hk1]
      have := combLoop_eq
        (fun localCopy => genCombinationsFuel fuel localCopy (m + 1) rep)
        (combs rep m) xs rep hn
        (fun lc hlc => ih fuel lc (by omega) (by omega) (by omega)) xs 0 [] rfl
      rw [this]
      simp [combs]

/-- The closed form for a non-empty vector and `k >= 2`. -/
theorem combs_succ_cons {T : Type} (rep : Bool) (m : Nat) (x : T) (r : List T) :
    combs rep (m + 1) (x :: r)
      = ((combs rep m (if rep then x :: r else r)).map fun vct => x :: vct)
        ++ combs rep (m + 1) r := rfl

/-- The closed form for the empty vector and `k >= 2`. -/
theorem combs_succ_nil {T : Type} (rep : Bool) (m : Nat) :
    combs rep (m + 1) ([] : List T) = [] := rfl

/-- The closed form for `k = 1`. -/
theorem combs_zero {T : Type} (rep : Bool) (xs : List T) :
    combs rep 0 xs = xs.map fun el => [el] := rfl

/-- Every value of a combination is a value of the vector. -/
theorem combs_elems {T : Type} (rep : Bool) (m : Nat) :
    ∀ (xs : List T), ∀ c ∈ combs rep m xs, ∀ y ∈ c, y ∈ xs := by
  induction m with
  | zero =>
    intro xs c hc y hy
    rw [combs_zero, List.mem_map] at hc
    obtain ⟨el, hel, rfl⟩ := hc
    rw [List.mem_singleton.mp hy]
    exact hel
  | succ m ih =>
    intro xs
    induction xs with
    | nil => intro c hc; rw [combs_succ_nil] at hc; cases hc
    | cons x r ihx =>
      intro c hc y hy
      rw [combs_succ_cons, List.mem_append, List.mem_map] at hc
      rcases hc with ⟨v, hv, rfl⟩ | hc
      · rcases List.mem_cons.mp hy with e | e
        · rw [e]; exact List.mem_cons_self _ _
        · have := ih _ v hv y e
          cases rep with
          | false => exact List.mem_cons_of_mem _ this
          | true => exact this
      · exact List.mem_cons_of_mem _ (ihx c hc y hy)

/-- Every combination of distinct values is returned once. -/
theorem combs_nodup {T : Type} (rep : Bool) (m : Nat) :
    ∀ (xs : List T), xs.Nodup → (combs rep m xs).Nodup := by
  induction m with
  | zero =>
    intro xs h
    rw [combs_zero]
    exact h.map (fun a b hab => by simpa using hab)
  | succ m ih =>
    intro xs
    induction xs with
    | nil => intro _; rw [combs_succ_nil]; exact List.nodup_nil
    | cons x r ihx =>
      intro h
      have hx : x ∉ r := (List.nodup_cons.mp h).1
      have hr : r.Nodup := (List.nodup_cons.mp h).2
      rw [combs_succ_cons, List.nodup_append]
      refine ⟨?_, ihx hr, ?_⟩
      · apply List.Nodup.map (fun a b hab => by simpa using hab)
        apply ih
        cases rep with
        | false => exact hr
        | true => exact h
      · intro c hc1 hc2
        rw [List.mem_map] at hc1
        obtain ⟨v, _, rfl⟩ := hc1
        exact hx (combs_elems rep (m + 1) r _ hc2 x (List.mem_cons_self _ _))

/-- The number of combinations without repetition. -/
theorem combs_false_length {T : Type} (m : Nat) :
    ∀ (xs : List T), (combs false m xs).length = xs.length.choose (m + 1) := by
  induction m with
  | zero => intro xs; rw [combs_zero]; simp
  | succ m ih =>
    intro xs
    induction xs with
    | nil => rw [combs_succ_nil]; simp
    | cons x r ihx =>
      rw [combs_succ_cons, List.length_append, List.length_map, ihx]
      simp only [Bool.false_eq_true, if_false, List.length_cons]
      rw [ih r, Nat.choose_succ_succ r.length (m + 1)]

/-- The number of combinations with repetition. -/
theorem combs_true_length {T : Type} (m : Nat) :
    ∀ (xs : List T), (combs true m xs).length = Nat.multichoose xs.length (m + 1) := by
  induction m with
  | zero => intro xs; rw [combs_zero]; simp
  | succ m ih =>
    intro xs
    induction xs with
    | nil => rw [combs_succ_nil]; simp
    | cons x r ihx =>
      rw [combs_succ_cons, List.length_append, List.length_map, ihx]
      simp only [if_true, List.length_cons]
      rw [ih (x :: r), Nat.multichoose_succ_succ r.length (m + 1)]
      simp only [List.length_cons]
      omega

/-- The combinations without repetition are the sublists of length `m + 1`. -/
theorem combs_false_mem {T : Type} (m : Nat) :
    ∀ (xs c : List T), c ∈ combs false m xs ↔ c.Sublist xs ∧ c.length = m + 1 := by
  induction m with
  | zero =>
    intro xs c
    rw [combs_zero, List.mem_map]
    constructor
    · rintro ⟨el, hel, rfl⟩
      exact ⟨List.singleton_sublist.mpr hel, rfl⟩
    · rintro ⟨hs, hl⟩
      obtain ⟨a, rfl⟩ := List.length_eq_one.mp hl
      exact ⟨a, List.singleton_sublist.mp hs, rfl⟩
  | succ m ih =>
    intro xs
    induction xs with
    | nil =>
      intro c
      rw [combs_succ_nil]
      constructor
      · intro h; cases h
      · rintro ⟨hs, hl⟩
        rw [List.sublist_nil.mp hs] at hl
        simp at hl
    | cons x r ihx =>
      intro c
      rw [combs_succ_cons, List.mem_append, List.mem_map]
      simp only [Bool.false_eq_true, if_false]
      constructor
      · rintro (⟨v, hv, rfl⟩ | hc)
        · obtain ⟨h1, h2⟩ := (ih r v).mp hv
          exact ⟨h1.cons₂ x, by simp [h2]⟩
        · obtain ⟨h1, h2⟩ := (ihx c).mp hc
          exact ⟨h1.cons x, h2⟩
      · rintro ⟨hs, hl⟩
        cases hs with
        | cons _ h => exact Or.inr ((ihx c).mpr ⟨h, hl⟩)
        | cons₂ _ h =>
          rename_i v
          exact Or.inl ⟨v, (ih r v).mpr ⟨h, by simpa using hl⟩, rfl⟩

/-- The indices of a tuple are indices of the vector. -/
theorem takenAt_bound {T : Type} (xs : List T) (idx : List Nat) (c : List T)
    (h : TakenAt xs idx c) : ∀ i ∈ idx, i < xs.length := by
  intro i hi
  have hm : xs[i]? ∈ idx.map (fun i => xs[i]?) := List.mem_map.mpr ⟨i, hi, rfl⟩
  unfold TakenAt at h
  rw [h, List.mem_map] at hm
  obtain ⟨y, _, hy⟩ := hm
  by_contra hge
  rw [List.getElem?_eq_none (by omega)] at hy
  cases hy

/-- The combinations with repetition are the tuples at non-decreasing indices. -/
theorem combs_true_mem {T : Type} (m : Nat) :
    ∀ (xs c : List T), c ∈ combs true m xs ↔
      ∃ idx : List Nat, idx.length = m + 1 ∧ idx.Pairwise (fun a b => a ≤ b)
        ∧ (∀ i ∈ idx, i < xs.length) ∧ TakenAt xs idx c := by
  induction m with
  | zero =>
    intro xs c
    rw [combs_zero, List.mem_map]
    constructor
    · rintro ⟨el, hel, rfl⟩
      obtain ⟨i, hi, he⟩ := List.getElem_of_mem hel
      refine ⟨[i], rfl, List.pairwise_singleton _ _, ?_, ?_⟩
      · intro j hj; rw [List.mem_singleton.mp hj]; exact hi
      · unfold TakenAt
        simp only [List.map_cons, List.map_nil]
        rw [List.getElem?_eq_getElem hi, he]
    · rintro ⟨idx, hl, _, _, ht⟩
      obtain ⟨i, rfl⟩ := List.length_eq_one.mp hl
      unfold TakenAt at ht
      have hcl : c.length = 1 := by
        have := congrArg List.length ht
        simpa using this.symm
      obtain ⟨y, rfl⟩ := List.length_eq_one.mp hcl
      simp only [List.map_cons, List.map_nil, List.cons.injEq, and_true] at ht
      exact ⟨y, List.getElem?_mem ht, rfl⟩
  | succ m ih =>
    intro xs
    induction xs with
    | nil =>
      intro c
      rw [combs_succ_nil]
      constructor
      · intro h; cases h
      · rintro ⟨idx, hl, _, hb, _⟩
        cases idx with
        | nil => simp at hl
        | cons i t => exact absurd (hb i (List.mem_cons_self _ _)) (Nat.not_lt_zero _)
    | cons x r ihx =>
      intro c
      rw [combs_succ_cons, List.mem_append, List.mem_map]
      simp only [if_true]
      constructor
      · rintro (⟨v, hv, rfl⟩ | hc)
        · obtain ⟨idx, hl, hp, hb, ht⟩ := (ih (x :: r) v).mp hv
          refine ⟨0 :: idx, by simp [hl], ?_, ?_, ?_⟩
          · exact List.pairwise_cons.mpr ⟨fun a _ => Nat.zero_le a, hp⟩
          · intro i hi
            rcases List.mem_cons.mp hi with e | e
            · rw [e]; simp
            · exact hb i e
          · unfold TakenAt at ht ⊢
            simp only [List.map_cons, List.getElem?_cons_zero]
            rw [ht]
        · obtain ⟨idx, hl, hp, hb, ht⟩ := (ihx c).mp hc
          refine ⟨idx.map (fun i => i + 1), by simp [hl], ?_, ?_, ?_⟩
          · exact hp.map _ (fun a b hab => Nat.succ_le_succ hab)
          · intro i hi
            obtain ⟨j, hj, rfl⟩ := List.mem_map.mp hi
            have := hb j hj
            simp only [List.length_cons]
            omega
          · unfold TakenAt at ht ⊢
            rw [List.map_map, ← ht]
            apply List.map_congr_left
            intro j _
            simp
      · rintro ⟨idx, hl, hp, hb, ht⟩
        cases idx with
        | nil => simp at hl
        | cons i0 t =>
          cases c with
          | nil =>
            unfold TakenAt at ht
            simp at ht
          | cons y v =>
            have ht2 : (x :: r)[i0]? = some y ∧ t.map (fun i => (x :: r)[i]?) = v.map some := by
              unfold TakenAt at ht
              simpa using ht
            have hp2 := List.pairwise_cons.mp hp
            cases i0 with
            | zero =>
              left
              have hy : x = y := by simpa using ht2.1
              refine ⟨v, ?_, by rw [hy]⟩
              apply (ih (x :: r) v).mpr
              exact ⟨t, by simpa using hl, hp2.2,
                fun i hi => hb i (List.mem_cons_of_mem _ hi), ht2.2⟩
            | succ j =>
              right
              apply (ihx (y :: v)).mpr
              have hge : ∀ i ∈ (j + 1) :: t, 1 ≤ i := by
                intro i hi
                rcases List.mem_cons.mp hi with e | e
                · omega
                · have := hp2.1 i e; omega
              refine ⟨((j + 1) :: t).map (fun i => i - 1), by simpa using hl, ?_, ?_, ?_⟩
              · rw [List.pairwise_map]
                exact hp.imp_of_mem (fun ha hb2 hab => by
                  have := hge _ ha
                  have := hge _ hb2
                  omega)
              · intro i hi
                obtain ⟨a, ha, rfl⟩ := List.mem_map.mp hi
                have h1 := hge a ha
                have h2 := hb a ha
                simp only [List.length_cons] at h2
                omega
              · unfold TakenAt at ht ⊢
                rw [List.map_map, ← ht]
                apply List.map_congr_left
                intro a ha
                have h1 := hge a ha
                obtain ⟨b, rfl⟩ : ∃ b, a = b + 1 := ⟨a - 1, by omega⟩
                simp

/-- Claim C28: for a vector `xs` of `n` distinct values and every `k >= 1`,
`genCombinations(xs, k, false)` returns exactly the order-preserving sublists of
`xs` of length `k`, each once, `C(n, k)` entries; `genCombinations(xs, k, true)`
returns exactly the `k`-tuples of values of `xs` at non-decreasing indices, each
once, `C(n + k - 1, k)` entries. For `n = 4`, `k = 2` the counts are 6 and 10.
The vector has at most `2 ^ 31` values or `k` is 1: with more values and `k >= 2`
the loop copies the vector of more than `2 ^ 31` values in each of its first
`2 ^ 31` rounds, and only then meets an index that `static_cast<int>` does not
keep; `k` is a value of `size_t`. -/
theorem C28_genCombinations {T : Type} (xs : List T) (k : Nat) (hk : 1 ≤ k)
    (hks : k < SIZE_MOD) (hn : xs.length ≤ 2 ^ 31 ∨ k = 1) (hnd : xs.Nodup) :
    (∃ r, genCombinations xs k false = some r ∧ r.Nodup
      ∧ (∀ c, c ∈ r ↔ c.Sublist xs ∧ c.length = k)
      ∧ r.length = xs.length.choose k)
    ∧ (∃ r, genCombinations xs k true = some r ∧ r.Nodup
      ∧ (∀ c, c ∈ r ↔ ∃ idx : List Nat, idx.length = k ∧ idx.Pairwise (fun a b => a ≤ b)
          ∧ (∀ i ∈ idx, i < xs.length) ∧ TakenAt xs idx c)
      ∧ r.length = (xs.length + k - 1).choose k)
    ∧ (genCombinations ['a', 'b', 'c', 'd'] 2 false).map List.length = some 6
    ∧ (genCombinations ['a', 'b', 'c', 'd'] 2 true).map List.length = some 10 := by
  obtain ⟨m, rfl⟩ : ∃ m, k = m + 1 := ⟨k - 1, by omega⟩
  have hgen : ∀ rep : Bool, genCombinations xs (m + 1) rep = some (combs rep m xs) := by
    intro rep
    rcases hn with hn | hn
    · exact genCombinationsFuel_eq rep m (xs.length + (m + 1)) xs (by omega) hn hks
    · have hm : m = 0 := by omega
      subst hm
      show genCombinationsFuel (xs.length + 1) xs 1 rep = some (combs rep 0 xs)
      rw [genCombinationsFuel, if_pos rfl]
      rfl
  refine ⟨⟨combs false m xs, hgen false, combs_nodup false m xs hnd, combs_false_mem m xs, ?_⟩,
    ⟨combs true m xs, hgen true, combs_nodup true m xs hnd, combs_true_mem m xs, ?_⟩,
    by decide, by decide⟩
  · exact combs_false_length m xs
  · rw [combs_true_length, Nat.multichoose_eq]

/-- Witness of C28 on the vector `[a, b, c]` with `k = 2`. -/
theorem C28_genCombinations_witness :
    1 ≤ 2 ∧ 2 < SIZE_MOD ∧ (['a', 'b', 'c'].length ≤ 2 ^ 31 ∨ 2 = 1) ∧ ['a', 'b', 'c'].Nodup
    ∧ (∃ r, genCombinations ['a', 'b', 'c'] 2 false = some r ∧ r.Nodup
      ∧ (∀ c, c ∈ r ↔ c.Sublist ['a', 'b', 'c'] ∧ c.length = 2)
      ∧ r.length = ['a', 'b', 'c'].length.choose 2)
    ∧ (∃ r, genCombinations ['a', 'b', 'c'] 2 true = some r ∧ r.Nodup
      ∧ (∀ c, c ∈ r ↔ ∃ idx : List Nat, idx.length = 2 ∧ idx.Pairwise (fun a b => a ≤ b)
          ∧ (∀ i ∈ idx, i < ['a', 'b', 'c'].length) ∧ TakenAt ['a', 'b', 'c'] idx c)
      ∧ r.length = (['a', 'b', 'c'].length + 2 - 1).choose 2) :=
  have h := C28_genCombinations ['a', 'b', 'c'] 2 (by decide) (by decide)
    (Or.inl (by decide)) (by decide)
  ⟨by decide, by decide, Or.inl (by decide), by decide, h.1, h.2.1⟩

/-- The function `genCombinations` with `k = 0`: without repetition it returns
the empty result, as it does on the empty vector; with repetition on a vector
that is not empty the recursion does not come to an end. -/
theorem genCombinations_zero :
    genCombinations ['a', 'b', 'c'] 0 false = some []
    ∧ genCombinations ([] : List Char) 0 false = some []
    ∧ genCombinations ([] : List Char) 0 true = some []
    ∧ genCombinations ['a'] 0 true = none := by
  refine ⟨by decide, by decide, by decide, by decide⟩

/-- The conversion to `int` gives a value of `int`. -/
theorem sizeToInt_range (n : Nat) :
    -(2 : Int) ^ 31 ≤ sizeToInt n ∧ sizeToInt n < (2 : Int) ^ 31 := by
  unfold sizeToInt
  have h : n % 2 ^ 32 < 2 ^ 32 := Nat.mod_lt _ (by norm_num)
  by_cases h1 : n % 2 ^ 32 < 2 ^ 31
  · rw [if_pos h1]; omega
  · rw [if_neg h1]; omega

/-- A non-negative result of the conversion to `int` is at most the argument. -/
theorem sizeToInt_le (n : Nat) (h : 0 ≤ sizeToInt n) : (sizeToInt n).toNat ≤ n := by
  unfold sizeToInt at h ⊢
  have h2 : n % 2 ^ 32 ≤ n := Nat.mod_le _ _
  have h3 : n % 2 ^ 32 < 2 ^ 32 := Nat.mod_lt _ (by norm_num)
  by_cases h1 : n % 2 ^ 32 < 2 ^ 31
  · rw [if_pos h1]; omega
  · rw [if_neg h1] at h; omega

/-- Without repetition the erase loop is defined for every index of the vector. -/
theorem erasePreceding_false_some {T : Type} (xs : List T) (i : Nat) (hi : i < xs.length) :
    ∃ lc, erasePreceding xs i false = some lc := by
  unfold erasePreceding
  have h0 : (sizeToInt i - (if false = true then 1 else 0)) = sizeToInt i := by simp
  obtain ⟨hr1, hr2⟩ := sizeToInt_range i
  rw [h0, checkedInt_of_range hr1 hr2]
  simp only
  by_cases hneg : sizeToInt i < 0
  · rw [if_pos hneg]; exact ⟨_, rfl⟩
  · rw [if_neg hneg]
    have := sizeToInt_le i (by omega)
    exact ⟨_, eraseLoop_eq _ xs (by omega)⟩

/-- Without repetition the loop over `i` returns, and its result holds what every
round pushes. -/
theorem combLoop_false_mem {T : Type} (g : List T → List (List T)) (xs : List T) :
    ∀ (remaining : List T) (i : Nat) (result : List (List T)), xs.drop i = remaining →
      ∃ r, combLoop (fun lc => some (g lc)) xs false remaining i result = some r
        ∧ (∀ c ∈ result, c ∈ r)
        ∧ ∀ (j : Nat) (x : T) (lc : List T), i ≤ j → xs[j]? = some x →
            erasePreceding xs j false = some lc → ∀ v ∈ g lc, x :: v ∈ r := by
  intro remaining
  induction remaining with
  | nil =>
    intro i result hdrop
    refine ⟨result, rfl, fun c hc => hc, ?_⟩
    intro j x lc hj hx
    have hlen : xs.length ≤ i := by
      by_contra hlt
      have : (xs.drop i).length = 0 := by rw [hdrop]; rfl
      rw [List.length_drop] at this
      omega
    rw [List.getElem?_eq_none (by omega)] at hx
    cases hx
  | cons a rest ih =>
    intro i result hdrop
    have hi : i < xs.length := by
      by_contra hge
      rw [List.drop_of_length_le (by omega)] at hdrop
      cases hdrop
    have hnext : xs.drop (i + 1) = rest := by
      have : xs.drop (i + 1) = (xs.drop i).drop 1 := by rw [List.drop_drop]
      rw [this, hdrop]
      rfl
    have ha : xs[i]? = some a := by
      have h1 : (xs.drop i)[0]? = some a := by rw [hdrop, List.getElem?_cons_zero]
      rw [List.getElem?_drop] at h1
      simpa using h1
    obtain ⟨lc0, hlc0⟩ := erasePreceding_false_some xs i hi
    obtain ⟨r, hr, hres, hmem⟩ := ih (i + 1) (result ++ (g lc0).map fun vct => a :: vct) hnext
    refine ⟨r, ?_, ?_, ?_⟩
    · simp only [combLoop]
      rw [hlc0]
      exact hr
    · intro c hc
      exact hres c (List.mem_append_left _ hc)
    · intro j x lc hj hx hlc v hv
      by_cases hji : j = i
      · subst hji
        rw [ha] at hx
        rw [hlc0] at hlc
        cases hx
        cases hlc
        exact hres _ (List.mem_append_right _ (List.mem_map.mpr ⟨v, hv, rfl⟩))
      · exact hmem j x lc (by omega) hx hlc v hv

/-- The index `2^31` becomes a negative `int`, so the erase loop of its round does
not run. -/
theorem erasePreceding_cast {T : Type} (xs : List T) :
    erasePreceding xs (2 ^ 31) false = some xs := by
  have hcast : checkedInt (sizeToInt (2 ^ 31) - (if false = true then 1 else 0))
      = some (-(2 : Int) ^ 31) := by decide
  have hneg : -(2 : Int) ^ 31 < 0 := by decide
  unfold erasePreceding
  rw [hcast]
  simp only
  rw [if_pos hneg]

/-- A round whose erase loop does not run pairs its value with every value. -/
theorem genCombinations_two_mem {T : Type} (xs : List T) (j : Nat) (a b : T)
    (hj : erasePreceding xs j false = some xs) (ha : xs[j]? = some a) (hb : b ∈ xs) :
    ∃ r, genCombinations xs 2 false = some r ∧ [a, b] ∈ r := by
  have hk : sizeT (2 + SIZE_MOD - 1) = 1 := by decide
  have h21 : ¬ ((2 : Nat) = 1) := by decide
  have hinner : ∀ lc : List T,
      genCombinationsFuel (xs.length + 1) lc 1 false = some (lc.map fun el => [el]) := by
    intro lc
    rw [genCombinationsFuel, if_pos rfl]
  have hgen : genCombinations xs 2 false
      = combLoop (fun lc => some (lc.map fun el => [el])) xs false xs 0 [] := by
    have : genCombinations xs 2 false
        = combLoop (fun lc => genCombinationsFuel (xs.length + 1) lc 1 false) xs false xs 0
          [] := by
      unfold genCombinations
      rw [genCombinationsFuel, if_neg h21, hk]
    rw [this]
    have hf : (fun lc : List T => genCombinationsFuel (xs.length + 1) lc 1 false)
        = fun lc => some (lc.map fun el => [el]) := funext hinner
    rw [hf]
  obtain ⟨r, hr, _, hmem⟩ := combLoop_false_mem (fun lc : List T => lc.map fun el => [el])
    xs xs 0 [] (List.drop_zero xs)
  refine ⟨r, by rw [hgen]; exact hr, ?_⟩
  apply hmem j a xs (Nat.zero_le _) ha hj
  rw [List.mem_map]
  exact ⟨b, hb, rfl⟩

/-- Beyond `2 ^ 31` values the conversion `static_cast<int>(i)` of the loop index is
negative and the erase loop does not run: in the embedding, on the vector
`0, 1, ..., 2 ^ 31` the result of `genCombinations(xs, 2, false)` holds
`[2 ^ 31, 0]`, which is not an order-preserving sublist.  An execution gets there
only after `2 ^ 31` rounds that each copy the vector and append more than
`2 ^ 30` results on average. -/
theorem genCombinations_index_cast :
    (List.range (2 ^ 31 + 1)).Nodup
    ∧ (∃ r, genCombinations (List.range (2 ^ 31 + 1)) 2 false = some r
        ∧ [2 ^ 31, 0] ∈ r)
    ∧ ¬ [2 ^ 31, 0].Sublist (List.range (2 ^ 31 + 1)) := by
  refine ⟨List.nodup_range _, ?_, ?_⟩
  · exact genCombinations_two_mem (List.range (2 ^ 31 + 1)) (2 ^ 31) (2 ^ 31) 0
      (erasePreceding_cast _) (List.getElem?_range (by norm_num))
      (List.mem_range.mpr (by norm_num))
  · intro h
    have hp : ([2 ^ 31, 0] : List Nat).Pairwise (fun a b => a < b) :=
      List.Pairwise.sublist h (List.pairwise_lt_range _)
    have := (List.pairwise_cons.mp hp).1 0 (List.mem_singleton.mpr rfl)
    omega

/-! ### The packed bitmap: bit order and decoding -/

/-- The sum of the shifted bits of `n + 1` pixels is twice that of the first `n`
pixels plus the last pixel. -/
theorem shiftedBits_succ (f : Nat → Nat) (n : Nat) :
    ((List.range (n + 1)).map fun k => f k <<< (n + 1 - 1 - k)).sum =
      2 * ((List.range n).map fun k => f k <<< (n - 1 - k)).sum + f n := by
  rw [List.range_succ, List.map_append, List.sum_append, ← List.sum_map_mul_left]
  have h1 : (List.range n).map (fun k => f k <<< (n + 1 - 1 - k)) =
      (List.range n).map (fun k => 2 * (f k <<< (n - 1 - k))) := by
    apply List.map_congr_left
    intro k hk
    have hk2 : k < n := List.mem_range.mp hk
    have : n + 1 - 1 - k = (n - 1 - k) + 1 := by omega
    rw [this, Nat.shiftLeft_eq, Nat.shiftLeft_eq, Nat.pow_succ]
    ring
  rw [h1]
  simp [Nat.shiftLeft_eq]

/-- Bit `n - 1 - k` of the sum of the shifted bits of `n` pixels is pixel `k`. -/
theorem shiftedBits_bit (f : Nat → Nat) (hf : ∀ j, f j ≤ 1) (n : Nat) :
    ∀ k, k < n →
      ((List.range n).map fun j => f j <<< (n - 1 - j)).sum / 2 ^ (n - 1 - k) % 2 = f k := by
  induction n with
  | zero => intro k hk; omega
  | succ n ih =>
    intro k hk
    rw [shiftedBits_succ]
    have hfn := hf n
    by_cases hkn : k = n
    · subst hkn
      have : k + 1 - 1 - k = 0 := by omega
      rw [this, Nat.pow_zero, Nat.div_one]
      omega
    · have hk2 : k < n := by omega
      have : n + 1 - 1 - k = (n - 1 - k) + 1 := by omega
      rw [this, Nat.pow_succ, Nat.mul_comm (2 ^ (n - 1 - k)) 2, ← Nat.div_div_eq_div_mul]
      have h2 : (2 * ((List.range n).map fun j => f j <<< (n - 1 - j)).sum + f n) / 2 =
          ((List.range n).map fun j => f j <<< (n - 1 - j)).sum := by omega
      rw [h2]
      exact ih k hk2

/-- In the byte of a group of `n` pixels of a bitmap, pixel `k` is bit `n - 1 - k`. -/
theorem groupByte_bit (e : PnmExporter) (hbits : ∀ v ∈ e.mPixelData, v = 0 ∨ v = 1)
    (y g k : Nat) (hk : k < min 8 (e.mWidth - 8 * g)) :
    groupByte e y g / 2 ^ (min 8 (e.mWidth - 8 * g) - 1 - k) % 2 =
      e.mPixelData.getD (y * e.mWidth + 8 * g + k) 0 := by
  rw [groupByte_sum e hbits]
  exact shiftedBits_bit (fun j => e.mPixelData.getD (y * e.mWidth + 8 * g + j) 0)
    (fun j => getD_bit _ hbits _) _ k hk

/-- The pixel at offset `k` of group `g` of row `y`. -/
theorem getD_group_slice (data : List Nat) (w y g k : Nat) (hk : k < 8) (hg : 8 * g + k < w) :
    ((((data.drop (y * w)).take w).drop (8 * g)).take 8).getD k 0 =
      data.getD (y * w + 8 * g + k) 0 := by
  simp only [List.getD_eq_getElem?_getD]
  rw [List.getElem?_take_of_lt hk, List.getElem?_drop, List.getElem?_take_of_lt hg,
    List.getElem?_drop, Nat.add_assoc]

/-- The byte of a group of eight pixels is the standard byte of the group. -/
theorem groupByte_full (e : PnmExporter) (hbits : ∀ v ∈ e.mPixelData, v = 0 ∨ v = 1)
    (y g : Nat) (hg : 8 * g + 8 ≤ e.mWidth) :
    groupByte e y g =
      msbFirstByte ((((e.mPixelData.drop (y * e.mWidth)).take e.mWidth).drop (8 * g)).take 8) := by
  have hmin : min 8 (e.mWidth - 8 * g) = 8 := by omega
  rw [groupByte_sum e hbits, hmin]
  unfold msbFirstByte
  congr 1
  apply List.map_congr_left
  intro k hk
  have hk8 : k < 8 := List.mem_range.mp hk
  rw [getD_group_slice _ _ _ _ _ hk8 (by omega), Nat.shiftLeft_eq]

/-- Claim C31 (amended): for a `PBM_BIN` buffer with the length invariant and
samples 0 or 1, in the byte of every group that has eight pixels (`8 * g + 8 <= width`) the pixel
at offset `k` is bit `7 - k`; when the width is a multiple of 8 the body is the
standard packing of the rows, most significant bit first. -/
theorem C31_full_groups_msb_first (e : PnmExporter) (hfmt : e.mImageType = .PBM_BIN)
    (hlen : e.mPixelData.length = e.mWidth * e.mHeight * e.getNumberOfChannels)
    (hsz : e.mPixelData.length ≤ VECTOR_MAX_SIZE)
    (hbits : ∀ v ∈ e.mPixelData, v = 0 ∨ v = 1) :
    ∃ body, (∀ output, e.saveBinary output = some (output ++ body)) ∧
      (∀ y g, y < e.mHeight → 8 * g + 8 ≤ e.mWidth →
        ∃ byte, body[y * ⌈(e.mWidth : ℚ) / 8⌉₊ + g]? = some byte ∧
          ∀ k, k < 8 →
            byte / 2 ^ (7 - k) % 2 = e.mPixelData.getD (y * e.mWidth + 8 * g + k) 0) ∧
      (e.mWidth % 8 = 0 → body = msbFirstPacking e) := by
  rw [← rowBytes_eq_ceil]
  have hpack := packBitmap_eq e hsz (bitmap_length e hfmt hlen)
  refine ⟨_, saveBinary_bitmap e hfmt _ hpack, fun y g hy hg => ?_, fun hw => ?_⟩
  · have hgr : g < rowBytes e := by
      have := (rowBytes_bounds e).1
      omega
    refine ⟨groupByte e y g, packedRows_getElem? e y g hy hgr, fun k hk => ?_⟩
    have hmin : min 8 (e.mWidth - 8 * g) = 8 := by omega
    have h := groupByte_bit e hbits y g k (by rw [hmin]; exact hk)
    rw [hmin] at h
    exact h
  · unfold msbFirstPacking
    apply List.flatMap_congr
    intro y _
    apply List.map_congr_left
    intro g hg
    have hg2 : g < rowBytes e := List.mem_range.mp hg
    have hrb : rowBytes e = e.mWidth / 8 := by
      unfold rowBytes; rw [if_pos hw]; rfl
    exact groupByte_full e hbits y g (by omega)

/-- Witness of C31 on the 8 x 1 bitmap `10110001`. -/
theorem C31_full_groups_msb_first_witness :
    ∃ body, (∀ output, saveBinary ⟨.PBM_BIN, 8, 1, [1, 0, 1, 1, 0, 0, 0, 1]⟩ output =
        some (output ++ body)) ∧
      (∀ y g, y < 1 → 8 * g + 8 ≤ 8 →
        ∃ byte, body[y * ⌈((8 : Nat) : ℚ) / 8⌉₊ + g]? = some byte ∧
          ∀ k, k < 8 →
            byte / 2 ^ (7 - k) % 2 = [1, 0, 1, 1, 0, 0, 0, 1].getD (y * 8 + 8 * g + k) 0) ∧
      ((8 : Nat) % 8 = 0 → body = msbFirstPacking ⟨.PBM_BIN, 8, 1, [1, 0, 1, 1, 0, 0, 0, 1]⟩) :=
  C31_full_groups_msb_first ⟨.PBM_BIN, 8, 1, [1, 0, 1, 1, 0, 0, 0, 1]⟩ (by decide) (by decide)
    (by decide) (by decide)

/-- Counterexample to C31 as stated: the constructor call with the dimensions
`2 ^ 33` by `2 ^ 34` returns a `PBM_BIN` buffer without any sample, the product
having wrapped around to 0; every sample of it is 0 or 1 and the width is a
multiple of 8, and the packing loop, which reads `mPixelData[0]`, is undefined:
there is no body. -/
theorem C31_counterexample_wrapped_size :
    create (2 ^ 33) (2 ^ 34) .PBM_BIN = .ok ⟨.PBM_BIN, 2 ^ 33, 2 ^ 34, []⟩
    ∧ (∀ v ∈ (PnmExporter.mk .PBM_BIN (2 ^ 33) (2 ^ 34) []).mPixelData, v = 0 ∨ v = 1)
    ∧ (2 ^ 33) % 8 = 0
    ∧ packBitmap ⟨.PBM_BIN, 2 ^ 33, 2 ^ 34, []⟩ = none
    ∧ saveBinary ⟨.PBM_BIN, 2 ^ 33, 2 ^ 34, []⟩ [] = none := by
  refine ⟨by decide, fun v hv => absurd hv (List.not_mem_nil v), by decide, by decide,
    by decide⟩

/-- Decoding the packed bytes of a bitmap returns its samples. -/
theorem unpack_packed (e : PnmExporter)
    (hlen : e.mPixelData.length = e.mWidth * e.mHeight)
    (hbits : ∀ v ∈ e.mPixelData, v = 0 ∨ v = 1) :
    unpackBitmap e.mWidth e.mHeight ((List.range e.mHeight).flatMap
      (fun y => (List.range (rowBytes e)).map (groupByte e y))) = e.mPixelData := by
  apply List.ext_getElem?
  intro i
  unfold unpackBitmap
  by_cases hi : i < e.mWidth * e.mHeight
  · have hwpos : 0 < e.mWidth := by
      rcases Nat.eq_zero_or_pos e.mWidth with h | h
      · rw [h] at hi; simp at hi
      · exact h
    have hx : i % e.mWidth < e.mWidth := Nat.mod_lt _ hwpos
    have hy : i / e.mWidth < e.mHeight := by
      rw [Nat.div_lt_iff_lt_mul hwpos, Nat.mul_comm]; exact hi
    have hgr : i % e.mWidth / 8 < rowBytes e := by
      have := (rowBytes_bounds e).1
      omega
    have hidx : i / e.mWidth * e.mWidth + 8 * (i % e.mWidth / 8) + i % e.mWidth % 8 = i := by
      have := Nat.div_add_mod i e.mWidth
      rw [Nat.mul_comm] at this
      omega
    have hbyte : ((List.range e.mHeight).flatMap
        (fun y => (List.range (rowBytes e)).map (groupByte e y))).getD
          (i / e.mWidth * (e.mWidth / 8 + (if e.mWidth % 8 = 0 then 0 else 1))
            + i % e.mWidth / 8) 0 = groupByte e (i / e.mWidth) (i % e.mWidth / 8) := by
      have hrb : e.mWidth / 8 + (if e.mWidth % 8 = 0 then 0 else 1) = rowBytes e := rfl
      rw [List.getD_eq_getElem?_getD, hrb,
        packedRows_getElem? e (i / e.mWidth) (i % e.mWidth / 8) hy hgr]
      rfl
    rw [List.getElem?_map, List.getElem?_range hi]
    simp only [Option.map_some']
    rw [hbyte, groupByte_bit e hbits _ _ _ (by omega), hidx, List.getD_eq_getElem?_getD,
      List.getElem?_eq_getElem (by rw [hlen]; exact hi)]
    rfl
  · rw [List.getElem?_eq_none (by simp; omega), List.getElem?_eq_none (by rw [hlen]; omega)]

/-- Claim C34: for `PBM_BIN` buffers with the length invariant and samples 0 or 1,
the decoder `unpackBitmap` recovers the pixel data from the width, the height and
the packed body; so two such buffers of the same width and height with equal
packed bodies have equal pixel data. -/
theorem C34_packing_injective (a b : PnmExporter)
    (hfa : a.mImageType = .PBM_BIN) (hfb : b.mImageType = .PBM_BIN)
    (hw : a.mWidth = b.mWidth) (hh : a.mHeight = b.mHeight)
    (hla : a.mPixelData.length = a.mWidth * a.mHeight * a.getNumberOfChannels)
    (hlb : b.mPixelData.length = b.mWidth * b.mHeight * b.getNumberOfChannels)
    (hsa : a.mPixelData.length ≤ VECTOR_MAX_SIZE) (hsb : b.mPixelData.length ≤ VECTOR_MAX_SIZE)
    (hba : ∀ v ∈ a.mPixelData, v = 0 ∨ v = 1) (hbb : ∀ v ∈ b.mPixelData, v = 0 ∨ v = 1) :
    (∃ body, a.saveBinary [] = some body
      ∧ unpackBitmap a.mWidth a.mHeight body = a.mPixelData)
    ∧ (a.saveBinary [] = b.saveBinary [] → a.mPixelData = b.mPixelData) := by
  have hpa := packBitmap_eq a hsa (bitmap_length a hfa hla)
  have hpb := packBitmap_eq b hsb (bitmap_length b hfb hlb)
  have hua := unpack_packed a (bitmap_length a hfa hla) hba
  have hub := unpack_packed b (bitmap_length b hfb hlb) hbb
  have hsa2 := saveBinary_bitmap a hfa _ hpa []
  have hsb2 := saveBinary_bitmap b hfb _ hpb []
  rw [List.nil_append] at hsa2 hsb2
  refine ⟨⟨_, hsa2, hua⟩, fun heq => ?_⟩
  rw [hsa2, hsb2, Option.some.injEq] at heq
  rw [← hua, ← hub, heq, hw, hh]

/-- Witness of C34 on two 10 x 1 bitmaps. -/
theorem C34_packing_injective_witness :
    (∃ body, saveBinary ⟨.PBM_BIN, 10, 1, [1, 0, 1, 0, 1, 0, 1, 0, 1, 1]⟩ [] = some body
      ∧ unpackBitmap 10 1 body = [1, 0, 1, 0, 1, 0, 1, 0, 1, 1])
    ∧ (saveBinary ⟨.PBM_BIN, 10, 1, [1, 0, 1, 0, 1, 0, 1, 0, 1, 1]⟩ [] =
        saveBinary ⟨.PBM_BIN, 10, 1, [1, 0, 1, 0, 1, 0, 1, 0, 0, 1]⟩ [] →
      [1, 0, 1, 0, 1, 0, 1, 0, 1, 1] = [1, 0, 1, 0, 1, 0, 1, 0, 0, 1]) :=
  C34_packing_injective ⟨.PBM_BIN, 10, 1, [1, 0, 1, 0, 1, 0, 1, 0, 1, 1]⟩
    ⟨.PBM_BIN, 10, 1, [1, 0, 1, 0, 1, 0, 1, 0, 0, 1]⟩ (by decide) (by decide) (by decide)
    (by decide) (by decide) (by decide) (by decide) (by decide) (by decide) (by decide)

/-! ### Pixel access: the frame, the stride, the single check -/

/-- Claim C32 (amended): under the length invariant, for a pixel `(x, y)` of the
image, `setPixel(x, y, color)` returns and leaves the width, the height, the format and the
length of the pixel data; every sample outside the `channelCount` samples of the
pixel is as before, and every other pixel of the image reads as before. -/
theorem C32_setPixel_frame (e : PnmExporter)
    (hlen : e.mPixelData.length = e.mWidth * e.mHeight * e.getNumberOfChannels)
    (hsz : e.mPixelData.length < SIZE_MOD)
    (x y : Nat) (hx : x < e.mWidth) (hy : y < e.mHeight) (color : PixelColor) :
    ∃ s, e.setPixel x y color = .ok s ∧
      s.mWidth = e.mWidth ∧ s.mHeight = e.mHeight ∧ s.mImageType = e.mImageType ∧
      s.mPixelData.length = e.mPixelData.length ∧
      (∀ i, i < e.getNumberOfChannels * (y * e.mWidth + x) ∨
          e.getNumberOfChannels * (y * e.mWidth + x) + e.getNumberOfChannels ≤ i →
        s.mPixelData[i]? = e.mPixelData[i]?) ∧
      (∀ x2 y2, x2 < e.mWidth → y2 < e.mHeight → ¬ (x2 = x ∧ y2 = y) →
        s.getPixel x2 y2 = e.getPixel x2 y2) := by
  have hin := inStorage_of_inRange e hlen hx hy
  obtain ⟨s, hs, hshape, _⟩ := setPixel_getPixel_same e hsz x y color hin
  refine ⟨s, hs, hshape.2.1, hshape.2.2.1, hshape.1, hshape.2.2.2, fun i hi => ?_,
    fun x2 y2 hx2 hy2 hne => ?_⟩
  · rcases getNumberOfChannels_cases e with hc | hc
    · rw [hc] at hin hi
      rw [setPixel_color_eq e x y color hc (by omega), if_pos (by omega)] at hs
      cases hs
      simp only []
      rw [List.getElem?_set_ne (by omega), List.getElem?_set_ne (by omega),
        List.getElem?_set_ne (by omega)]
    · rw [hc] at hin hi
      rw [setPixel_mono_eq e x y color hc (by omega), if_pos (by omega)] at hs
      cases hs
      simp only []
      rw [List.getElem?_set_ne (by omega)]
  · apply setPixel_getPixel_other e hsz x y x2 y2 color hin
      (inStorage_of_inRange e hlen hx2 hy2) _ s hs
    intro heq
    obtain ⟨h1, h2⟩ := rowMajor_inj hx hx2 heq
    exact hne ⟨h1.symm, h2.symm⟩

/-- Witness of C32 on a 2 x 1 RGB buffer. -/
theorem C32_setPixel_frame_witness :
    ∃ s, setPixel ⟨.PPM_BIN, 2, 1, [1, 2, 3, 4, 5, 6]⟩ 1 0 (PixelColor.make 7 8 9) = .ok s ∧
      s.mWidth = 2 ∧ s.mHeight = 1 ∧ s.mImageType = .PPM_BIN ∧
      s.mPixelData.length = [1, 2, 3, 4, 5, 6].length ∧
      (∀ i, i < getNumberOfChannels ⟨.PPM_BIN, 2, 1, [1, 2, 3, 4, 5, 6]⟩ * (0 * 2 + 1) ∨
          getNumberOfChannels ⟨.PPM_BIN, 2, 1, [1, 2, 3, 4, 5, 6]⟩ * (0 * 2 + 1) +
            getNumberOfChannels ⟨.PPM_BIN, 2, 1, [1, 2, 3, 4, 5, 6]⟩ ≤ i →
        s.mPixelData[i]? = [1, 2, 3, 4, 5, 6][i]?) ∧
      (∀ x2 y2, x2 < 2 → y2 < 1 → ¬ (x2 = 1 ∧ y2 = 0) →
        s.getPixel x2 y2 = getPixel ⟨.PPM_BIN, 2, 1, [1, 2, 3, 4, 5, 6]⟩ x2 y2) :=
  C32_setPixel_frame ⟨.PPM_BIN, 2, 1, [1, 2, 3, 4, 5, 6]⟩ (by decide) (by decide) 1 0
    (by decide) (by decide) (PixelColor.make 7 8 9)

/-- Counterexample to C32 as stated: the constructor call with the dimensions
`2 ^ 63 + 1` by 2 returns a grayscale buffer of two samples, the product having
wrapped around to 2; the pixels `(2 ^ 63 - 1, 1)` and `(0, 0)` lie within its
dimensions, the offset of the former wraps around to 0, and `setPixel(2 ^ 63 - 1,
1, 9)` returns and changes the pixel `(0, 0)` from 0 to 9. -/
theorem C32_counterexample_wrapped_offset :
    create (2 ^ 63 + 1) 2 .PGM_BIN = .ok ⟨.PGM_BIN, 2 ^ 63 + 1, 2, [0, 0]⟩
    ∧ (2 ^ 63 - 1 < (PnmExporter.mk .PGM_BIN (2 ^ 63 + 1) 2 [0, 0]).mWidth
      ∧ 1 < (PnmExporter.mk .PGM_BIN (2 ^ 63 + 1) 2 [0, 0]).mHeight)
    ∧ (0 < (PnmExporter.mk .PGM_BIN (2 ^ 63 + 1) 2 [0, 0]).mWidth
      ∧ 0 < (PnmExporter.mk .PGM_BIN (2 ^ 63 + 1) 2 [0, 0]).mHeight
      ∧ ((0 : Nat), (0 : Nat)) ≠ (2 ^ 63 - 1, 1))
    ∧ getPixel ⟨.PGM_BIN, 2 ^ 63 + 1, 2, [0, 0]⟩ 0 0 = .value ⟨0, 0, 0, 0⟩
    ∧ setPixel ⟨.PGM_BIN, 2 ^ 63 + 1, 2, [0, 0]⟩ (2 ^ 63 - 1) 1 (PixelColor.make 9 0 0) =
        .ok ⟨.PGM_BIN, 2 ^ 63 + 1, 2, [9, 0]⟩
    ∧ getPixel ⟨.PGM_BIN, 2 ^ 63 + 1, 2, [9, 0]⟩ 0 0 = .value ⟨0, 0, 0, 9⟩ := by
  refine ⟨by decide, by decide, by decide, by decide, by decide, by decide⟩

/-- The object after `setWidth`, whether the call returned or threw. -/
theorem setWidth_fields (e : PnmExporter) (width : Nat) :
    (e.setWidth width).state.mWidth = width ∧ (e.setWidth width).state.mHeight = e.mHeight ∧
      (e.setWidth width).state.mImageType = e.mImageType ∧
      (e.setWidth width).state.getNumberOfChannels = e.getNumberOfChannels ∧
      ((e.setWidth width).state.mPixelData = resizedElements e.mPixelData
          (sizeT (sizeT (width * e.mHeight) * e.getNumberOfChannels)) ∨
        (VECTOR_MAX_SIZE < sizeT (sizeT (width * e.mHeight) * e.getNumberOfChannels) ∧
          (e.setWidth width).state.mPixelData = e.mPixelData)) := by
  by_cases h : sizeT (sizeT (width * e.mHeight) * e.getNumberOfChannels) ≤ VECTOR_MAX_SIZE
  · have h2 := resizePixelData_of_le { e with mWidth := width } h
    unfold setWidth
    rw [h2]
    exact ⟨rfl, rfl, rfl, rfl, Or.inl rfl⟩
  · have h2 := resizePixelData_of_gt { e with mWidth := width } (Nat.not_le.mp h)
    unfold setWidth
    rw [h2]
    exact ⟨rfl, rfl, rfl, rfl, Or.inr ⟨Nat.not_le.mp h, rfl⟩⟩

/-- After `resize`, a read below the old and the new length gives the old sample. -/
theorem resizedElements_getD_old (v : List Nat) (n i : Nat) (h1 : i < v.length) (h2 : i < n) :
    (resizedElements v n).getD i 0 = v.getD i 0 := by
  rw [List.getD_eq_getElem?_getD, List.getD_eq_getElem?_getD,
    resizedElements_getElem?_old v n i h1 h2]

/-- A buffer `s` with the channel count of `e` whose storage agrees with that of
`e` below both lengths: a pixel whose samples lie in both storages reads the
samples of `e` at the offset for the width of `s`. -/
theorem getPixel_of_agree (e s : PnmExporter) (hsz : e.mPixelData.length < SIZE_MOD)
    (hch : s.getNumberOfChannels = e.getNumberOfChannels)
    (hagree : ∀ i, i < e.mPixelData.length → i < s.mPixelData.length →
      s.mPixelData.getD i 0 = e.mPixelData.getD i 0)
    (x y : Nat)
    (hold : e.getNumberOfChannels * (y * s.mWidth + x) + e.getNumberOfChannels ≤
      e.mPixelData.length)
    (hnew : e.getNumberOfChannels * (y * s.mWidth + x) + e.getNumberOfChannels ≤
      s.mPixelData.length) :
    s.getPixel x y =
      if e.getNumberOfChannels = 3 then
        .value ⟨e.mPixelData.getD (3 * (y * s.mWidth + x)) 0,
          e.mPixelData.getD (3 * (y * s.mWidth + x) + 1) 0,
          e.mPixelData.getD (3 * (y * s.mWidth + x) + 2) 0, 0⟩
      else .value ⟨0, 0, 0, e.mPixelData.getD (y * s.mWidth + x) 0⟩ := by
  rcases getNumberOfChannels_cases e with hc | hc
  · rw [hc] at hold hnew
    rw [getPixel_color_eq s x y (hch.trans hc) (by omega), if_pos (by omega), hc, if_pos rfl,
      hagree _ (by omega) (by omega), hagree _ (by omega) (by omega),
      hagree _ (by omega) (by omega)]
  · rw [hc] at hold hnew
    have h13 : ¬ ((1 : Nat) = 3) := by decide
    rw [getPixel_mono_eq s x y (hch.trans hc) (by omega), if_pos (by omega), hc, if_neg h13,
      hagree _ (by omega) (by omega)]

/-- After `setWidth(w)`, whether it returned or threw, a pixel whose samples at the
offset for the new width lie in the old and in the new storage reads the old
samples at that offset. -/
theorem getPixel_after_setWidth (e : PnmExporter) (hsz : e.mPixelData.length < SIZE_MOD)
    (width x y : Nat)
    (hold : e.getNumberOfChannels * (y * width + x) + e.getNumberOfChannels ≤
      e.mPixelData.length)
    (hnew : e.getNumberOfChannels * (y * width + x) + e.getNumberOfChannels ≤
      (e.setWidth width).state.mPixelData.length) :
    (e.setWidth width).state.getPixel x y =
      if e.getNumberOfChannels = 3 then
        .value ⟨e.mPixelData.getD (3 * (y * width + x)) 0,
          e.mPixelData.getD (3 * (y * width + x) + 1) 0,
          e.mPixelData.getD (3 * (y * width + x) + 2) 0, 0⟩
      else .value ⟨0, 0, 0, e.mPixelData.getD (y * width + x) 0⟩ := by
  obtain ⟨hw, _, _, hch, hdata⟩ := setWidth_fields e width
  have hagree : ∀ i, i < e.mPixelData.length → i < (e.setWidth width).state.mPixelData.length →
      (e.setWidth width).state.mPixelData.getD i 0 = e.mPixelData.getD i 0 := by
    intro i h1 h2
    rcases hdata with hd | ⟨_, hd⟩
    · rw [hd] at h2 ⊢
      rw [resizedElements_length] at h2
      exact resizedElements_getD_old _ _ _ h1 h2
    · rw [hd]
  have := getPixel_of_agree e (e.setWidth width).state hsz hch hagree x y
    (by rw [hw]; exact hold) (by rw [hw]; exact hnew)
  rw [hw] at this
  exact this

/-- Claim C33, amended: when the new size `w * height * channelCount` is a `size_t`,
after `setWidth(w)` every pixel `(x, y)` of the image whose samples lie within the
old storage reads the old samples at the offset `channelCount * (y * w + x)`. On the
2 x 2 grayscale buffer `1 2 3 4` the pixel `(0, 1)` reads 3, and after `setWidth(3)`
it reads 4. -/
theorem C33_setWidth_stride (e : PnmExporter) (hsz : e.mPixelData.length < SIZE_MOD)
    (width : Nat) (hnw : width * e.mHeight * e.getNumberOfChannels < SIZE_MOD)
    (x y : Nat) (hx : x < width) (hy : y < e.mHeight)
    (hold : e.getNumberOfChannels * (y * width + x) + e.getNumberOfChannels ≤
      e.mPixelData.length) :
    (e.setWidth width).state.getPixel x y =
      (if e.getNumberOfChannels = 3 then
        .value ⟨e.mPixelData.getD (3 * (y * width + x)) 0,
          e.mPixelData.getD (3 * (y * width + x) + 1) 0,
          e.mPixelData.getD (3 * (y * width + x) + 2) 0, 0⟩
      else .value ⟨0, 0, 0, e.mPixelData.getD (y * width + x) 0⟩)
    ∧ (getPixel ⟨.PGM_BIN, 2, 2, [1, 2, 3, 4]⟩ 0 1 = .value ⟨0, 0, 0, 3⟩
      ∧ (setWidth ⟨.PGM_BIN, 2, 2, [1, 2, 3, 4]⟩ 3).state.getPixel 0 1 = .value ⟨0, 0, 0, 4⟩
      ∧ setWidth ⟨.PGM_BIN, 2, 2, [1, 2, 3, 4]⟩ 3 =
          .ok ⟨.PGM_BIN, 3, 2, [1, 2, 3, 4, 0, 0]⟩) := by
  refine ⟨?_, by decide, by decide, by decide⟩
  apply getPixel_after_setWidth e hsz width x y hold
  obtain ⟨hw, hh, _, hch, hdata⟩ := setWidth_fields e width
  have hpos := getNumberOfChannels_pos e
  have h1 : width * e.mHeight < SIZE_MOD := by
    have : width * e.mHeight * 1 ≤ width * e.mHeight * e.getNumberOfChannels :=
      Nat.mul_le_mul_left _ hpos
    omega
  rcases hdata with hd | ⟨_, hd⟩
  · have hl : (e.setWidth width).state.mPixelData.length =
        (e.setWidth width).state.mWidth * (e.setWidth width).state.mHeight *
          (e.setWidth width).state.getNumberOfChannels := by
      rw [hd, resizedElements_length, hw, hh, hch, sizeT_of_lt h1, sizeT_of_lt hnw]
    have := inStorage_of_inRange (e.setWidth width).state hl (x := x) (y := y)
      (by rw [hw]; exact hx) (by rw [hh]; exact hy)
    rw [hch, hw] at this
    exact this
  · rw [hd]
    exact hold

/-- Witness of C33 on the 2 x 2 grayscale buffer. -/
theorem C33_setWidth_stride_witness :
    [1, 2, 3, 4].length < SIZE_MOD
    ∧ 3 * PnmExporter.mHeight ⟨.PGM_BIN, 2, 2, [1, 2, 3, 4]⟩ *
        getNumberOfChannels ⟨.PGM_BIN, 2, 2, [1, 2, 3, 4]⟩ < SIZE_MOD
    ∧ (setWidth ⟨.PGM_BIN, 2, 2, [1, 2, 3, 4]⟩ 3).state.getPixel 0 1 =
      (if getNumberOfChannels ⟨.PGM_BIN, 2, 2, [1, 2, 3, 4]⟩ = 3 then
        .value ⟨[1, 2, 3, 4].getD (3 * (1 * 3 + 0)) 0, [1, 2, 3, 4].getD (3 * (1 * 3 + 0) + 1) 0,
          [1, 2, 3, 4].getD (3 * (1 * 3 + 0) + 2) 0, 0⟩
      else .value ⟨0, 0, 0, [1, 2, 3, 4].getD (1 * 3 + 0) 0⟩) :=
  ⟨by decide, by decide,
    (C33_setWidth_stride ⟨.PGM_BIN, 2, 2, [1, 2, 3, 4]⟩ (by decide) 3 (by decide) 0 1
      (by decide) (by decide) (by decide)).1⟩

/-- Counterexample to C33 as stated: on the 2 x 2 grayscale buffer `setWidth(2^63)`
resizes the pixel data to `2^63 * 2 = 0 (mod 2^64)` samples; the pixel `(0, 0)` is in
the image and its sample was in the old storage, yet `getPixel(0, 0)` throws. -/
theorem C33_counterexample_wrapped_size :
    (0 : Nat) < 2 ^ 63 ∧ (0 : Nat) < PnmExporter.mHeight ⟨.PGM_BIN, 2, 2, [1, 2, 3, 4]⟩
    ∧ getNumberOfChannels ⟨.PGM_BIN, 2, 2, [1, 2, 3, 4]⟩ * (0 * 2 ^ 63 + 0) +
        getNumberOfChannels ⟨.PGM_BIN, 2, 2, [1, 2, 3, 4]⟩ ≤ [1, 2, 3, 4].length
    ∧ [1, 2, 3, 4].getD (0 * 2 ^ 63 + 0) 0 = 1
    ∧ setWidth ⟨.PGM_BIN, 2, 2, [1, 2, 3, 4]⟩ (2 ^ 63) = .ok ⟨.PGM_BIN, 2 ^ 63, 2, []⟩
    ∧ (setWidth ⟨.PGM_BIN, 2, 2, [1, 2, 3, 4]⟩ (2 ^ 63)).state.getPixel 0 0 = .out_of_range := by
  decide

/-- When `setPixel` throws, the buffer is as before. -/
theorem setPixel_out_of_range_eq (e : PnmExporter) (x y : Nat) (c : PixelColor)
    (s : PnmExporter) (h : e.setPixel x y c = .out_of_range s) : s = e := by
  unfold setPixel at h
  split at h
  · simp only [] at h
    split at h
    · split at h <;> cases h
    · cases h; rfl
  · simp only [] at h
    split at h
    · cases h
    · cases h; rfl

/-- Claim C38, refuted by evaluation: on the 1 x 1 RGB buffer the call
`setPixel(6148914691236517205, 0, color)` computes `startPos = 2^64 - 1`; the checked
offset `startPos + 2` wraps around to 1 and passes `at`, and the unchecked writes
at `startPos` and `startPos + 1` are outside the storage (`getPixel` reads there).
When the offsets do not wrap around the single check is sufficient, and for every
format a `setPixel` that throws leaves the buffer as it was. -/
theorem C38_single_check_wraps :
    (setPixel ⟨.PPM_BIN, 1, 1, [1, 2, 3]⟩ 6148914691236517205 0 (PixelColor.make 7 8 9) =
        .undefined
      ∧ getPixel ⟨.PPM_BIN, 1, 1, [1, 2, 3]⟩ 6148914691236517205 0 = .undefined
      ∧ sizeT (3 * sizeT (sizeT (0 * 1) + 6148914691236517205)) = 2 ^ 64 - 1
      ∧ sizeT (2 ^ 64 - 1 + 2) = 1 ∧ (1 : Nat) < [1, 2, 3].length
      ∧ ¬ (2 ^ 64 - 1 < [1, 2, 3].length))
    ∧ (∀ (e : PnmExporter) (x y : Nat) (c : PixelColor), e.getNumberOfChannels = 3 →
        3 * (y * e.mWidth + x) + 3 ≤ SIZE_MOD →
        3 * (y * e.mWidth + x) + 2 < e.mPixelData.length →
        3 * (y * e.mWidth + x) < e.mPixelData.length
          ∧ 3 * (y * e.mWidth + x) + 1 < e.mPixelData.length
          ∧ (∃ s, e.setPixel x y c = .ok s) ∧ ∃ v, e.getPixel x y = .value v)
    ∧ (∀ (e : PnmExporter) (x y : Nat) (c : PixelColor) (s : PnmExporter),
        e.setPixel x y c = .out_of_range s → s = e) := by
  refine ⟨by decide, fun e x y c hc hnw hlt => ?_, setPixel_out_of_range_eq⟩
  refine ⟨by omega, by omega, ?_, ?_⟩
  · rw [setPixel_color_eq e x y c hc hnw, if_pos hlt]
    exact ⟨_, rfl⟩
  · rw [getPixel_color_eq e x y hc hnw, if_pos hlt]
    exact ⟨_, rfl⟩

/-! ### The ASCII body read back, and the unchecked accesses of the encoder -/

/-- Bytes that are neither a space nor a line break extend the current token. -/
theorem splitTokensFrom_digits (token : List Nat) (h : ∀ d ∈ token, d ≠ 32 ∧ d ≠ 10) :
    ∀ (current rest : List Nat),
      splitTokensFrom current (token ++ rest) = splitTokensFrom (current ++ token) rest := by
  induction token with
  | nil => intro current rest; simp
  | cons d t ih =>
    intro current rest
    have hd := h d (List.mem_cons_self _ _)
    have hn : ¬ (d = 32 ∨ d = 10) := fun hh => hh.elim hd.1 hd.2
    rw [List.cons_append, splitTokensFrom, if_neg hn,
      ih (fun x hx => h x (List.mem_cons_of_mem _ hx))]
    simp

/-- A token followed by a space, or by a space and a line break, is the first token. -/
theorem splitTokens_sample (token rest : List Nat) (hne : token ≠ [])
    (h : ∀ d ∈ token, d ≠ 32 ∧ d ≠ 10) :
    splitTokens (token ++ strBytes " " ++ rest) = token :: splitTokens rest
    ∧ splitTokens (token ++ strBytes " " ++ endl ++ rest) = token :: splitTokens rest := by
  have hsp : strBytes " " = [32] := by decide
  have hnl : endl = [10] := rfl
  unfold splitTokens
  constructor
  · rw [List.append_assoc, splitTokensFrom_digits token h, hsp, List.nil_append]
    show splitTokensFrom token (32 :: rest) = _
    rw [splitTokensFrom, if_pos (Or.inl rfl), if_neg hne]
  · rw [List.append_assoc, List.append_assoc, splitTokensFrom_digits token h, hsp, hnl,
      List.nil_append]
    show splitTokensFrom token (32 :: 10 :: rest) = _
    rw [splitTokensFrom, if_pos (Or.inl rfl), if_neg hne, splitTokensFrom,
      if_pos (Or.inr rfl), if_pos rfl]

/-- A printed sample and its space hold no line break. -/
theorem count_sample (token : List Nat) (h : ∀ d ∈ token, d ≠ 32 ∧ d ≠ 10) :
    (token ++ strBytes " ").count 10 = 0 := by
  rw [List.count_eq_zero]
  intro hm
  rcases List.mem_append.mp hm with h1 | h1
  · exact (h 10 h1).2 rfl
  · have hsp : strBytes " " = [32] := by decide
    rw [hsp] at h1
    simp at h1

set_option maxRecDepth 100000 in
/-- The decimal representation of a `uint8_t` value is not empty, holds neither a
space nor a line break, and reads back as the value. -/
theorem decimal_sample_facts :
    ∀ v, v < 256 → decimal v ≠ [] ∧ (∀ d ∈ decimal v, d ≠ 32 ∧ d ≠ 10)
      ∧ readDecimal (decimal v) = v := by
  decide

/-- The loop of `saveAscii` from index `i` on: the body reads back as the samples,
and it holds one line break for every multiple of the row length in `i + 1 ..`. -/
theorem saveAsciiLoop_parse (vpr : Nat) (hv : vpr ≠ 0) (data : List Nat) :
    ∀ i, (∀ v ∈ data, v ≤ CHANNEL_MAX) →
      ∃ body, saveAsciiLoop vpr i data [] = some body
        ∧ parseAsciiBody body = data
        ∧ body.count 10 = (i + data.length) / vpr - i / vpr := by
  induction data with
  | nil =>
    intro i _
    exact ⟨[], rfl, rfl, by simp⟩
  | cons v rest ih =>
    intro i hs
    have hvle : v ≤ CHANNEL_MAX := hs v (List.mem_cons_self _ _)
    obtain ⟨hne, hdig, hread⟩ := decimal_sample_facts v (by unfold CHANNEL_MAX at hvle; omega)
    obtain ⟨body, hb, hp, hc⟩ := ih (i + 1) (fun x hx => hs x (List.mem_cons_of_mem _ hx))
    have hdiv := Nat.succ_div i vpr
    have hmono : (i + 1) / vpr ≤ (i + 1 + rest.length) / vpr :=
      Nat.div_le_div_right (Nat.le_add_right _ _)
    have hlen : i + (v :: rest).length = i + 1 + rest.length := by
      simp only [List.length_cons]; omega
    have hcnt := count_sample (decimal v) hdig
    have hendl : endl.count 10 = 1 := by decide
    obtain ⟨ht1, ht2⟩ := splitTokens_sample (decimal v) body hne hdig
    rw [saveAsciiLoop, if_neg hv, toUnsigned_sample hvle]
    by_cases hm : (i + 1) % vpr = 0
    · have hdvd : vpr ∣ i + 1 := Nat.dvd_of_mod_eq_zero hm
      rw [if_pos hdvd] at hdiv
      rw [if_pos hm, saveAsciiLoop_append, hb]
      refine ⟨_, rfl, ?_, ?_⟩
      · unfold parseAsciiBody at hp ⊢
        rw [List.nil_append, ht2, List.map_cons, hread, hp]
      · rw [List.nil_append, List.count_append, List.count_append, hcnt, hendl, hc, hlen]
        omega
    · have hdvd : ¬ vpr ∣ i + 1 := fun h => hm (Nat.mod_eq_zero_of_dvd h)
      rw [if_neg hdvd] at hdiv
      rw [if_neg hm, saveAsciiLoop_append, hb]
      refine ⟨_, rfl, ?_, ?_⟩
      · unfold parseAsciiBody at hp ⊢
        rw [List.nil_append, ht1, List.map_cons, hread, hp]
      · rw [List.nil_append, List.count_append, hcnt, hc, hlen]
        omega

/-- Claim C35: for an ASCII-format buffer with the length invariant (and `uint8_t`
samples), splitting the body that `saveAscii` writes at spaces and line breaks and
reading every non-empty token as a decimal number gives the pixel data in storage
order; when the width is not zero the body holds exactly `height` line breaks. The
body of the 4 x 2 example reads back as `10 0 0 0 0 0 0 200`. -/
theorem C35_ascii_round_trip (e : PnmExporter) (hfmt : e.isBinFormat = false)
    (hlen : e.mPixelData.length = e.mWidth * e.mHeight * e.getNumberOfChannels)
    (hsize : e.mPixelData.length < SIZE_MOD)
    (hsample : ∀ v ∈ e.mPixelData, v ≤ CHANNEL_MAX) :
    ∃ body, (∀ output, e.saveAscii output = some (output ++ body))
      ∧ save e = some (e.saveHeader ++ body)
      ∧ parseAsciiBody body = e.mPixelData
      ∧ (0 < e.mWidth → body.count 10 = e.mHeight)
      ∧ parseAsciiBody (strBytes "10 0 0 0 \n0 0 0 200 \n") = [10, 0, 0, 0, 0, 0, 0, 200] := by
  have key : ∃ body, saveAsciiLoop (sizeT (e.mWidth * e.getNumberOfChannels)) 0
      e.mPixelData [] = some body ∧ parseAsciiBody body = e.mPixelData
      ∧ (0 < e.mWidth → body.count 10 = e.mHeight) := by
    by_cases hempty : e.mPixelData = []
    · refine ⟨[], by rw [hempty]; rfl, by rw [hempty]; rfl, fun hw => ?_⟩
      have h0 : e.mWidth * e.mHeight * e.getNumberOfChannels = 0 := by
        rw [← hlen, hempty]; rfl
      have hch := getNumberOfChannels_pos e
      rcases Nat.mul_eq_zero.mp h0 with h1 | h1
      · rcases Nat.mul_eq_zero.mp h1 with h2 | h2
        · omega
        · rw [h2]; rfl
      · omega
    · have hpos : 0 < e.mPixelData.length := List.length_pos.mpr hempty
      have hch := getNumberOfChannels_pos e
      have hlen2 : e.mPixelData.length = e.mWidth * e.getNumberOfChannels * e.mHeight := by
        rw [hlen, Nat.mul_right_comm]
      have hh : 0 < e.mHeight := by
        rcases Nat.eq_zero_or_pos e.mHeight with h | h
        · rw [hlen2, h] at hpos; simp at hpos
        · exact h
      have hvp : 0 < e.mWidth * e.getNumberOfChannels := by
        rcases Nat.eq_zero_or_pos (e.mWidth * e.getNumberOfChannels) with h | h
        · rw [hlen2, h] at hpos; simp at hpos
        · exact h
      have hle : e.mWidth * e.getNumberOfChannels ≤ e.mPixelData.length := by
        rw [hlen2]; exact Nat.le_mul_of_pos_right _ hh
      have hv : sizeT (e.mWidth * e.getNumberOfChannels) = e.mWidth * e.getNumberOfChannels :=
        Nat.mod_eq_of_lt (lt_of_le_of_lt hle hsize)
      obtain ⟨body, hb, hp, hc⟩ := saveAsciiLoop_parse (e.mWidth * e.getNumberOfChannels)
        (by omega) e.mPixelData 0 hsample
      refine ⟨body, by rw [hv]; exact hb, hp, fun _ => ?_⟩
      rw [hc, hlen2, Nat.zero_add, Nat.zero_div, Nat.sub_zero, Nat.mul_comm,
        Nat.mul_div_cancel _ hvp]
  obtain ⟨body, hb, hp, hc⟩ := key
  have main : ∀ output, e.saveAscii output = some (output ++ body) := by
    intro output
    unfold saveAscii
    rw [saveAsciiLoop_append, hb]
    rfl
  refine ⟨body, main, ?_, hp, hc, by decide⟩
  unfold save
  rw [hfmt]
  exact main _

/-- Witness of C35 on a 2 x 2 grayscale buffer. -/
theorem C35_ascii_round_trip_witness :
    ∃ body, (∀ output, saveAscii ⟨.PGM_ASCII, 2, 2, [10, 0, 7, 200]⟩ output =
        some (output ++ body))
      ∧ save ⟨.PGM_ASCII, 2, 2, [10, 0, 7, 200]⟩ =
        some (saveHeader ⟨.PGM_ASCII, 2, 2, [10, 0, 7, 200]⟩ ++ body)
      ∧ parseAsciiBody body = [10, 0, 7, 200]
      ∧ ((0 : Nat) < 2 → body.count 10 = 2)
      ∧ parseAsciiBody (strBytes "10 0 0 0 \n0 0 0 200 \n") = [10, 0, 0, 0, 0, 0, 0, 200] :=
  C35_ascii_round_trip ⟨.PGM_ASCII, 2, 2, [10, 0, 7, 200]⟩ (by decide) (by decide) (by decide)
    (by decide)

/-- With a row length that is not zero the loop of `saveAscii` is defined. -/
theorem saveAsciiLoop_isSome (vpr : Nat) (hv : vpr ≠ 0) (data : List Nat) :
    ∀ i output, (saveAsciiLoop vpr i data output).isSome = true := by
  induction data with
  | nil => intro i output; rfl
  | cons v rest ih =>
    intro i output
    rw [saveAsciiLoop, if_neg hv]
    split
    · exact ih _ _
    · exact ih _ _

/-- The innermost loop of `saveBinary` is undefined as soon as a read is outside the
pixel data or the write is outside `binData`. -/
theorem packLoop_unsafe (e : PnmExporter) (y x upperBound bdPos n k : Nat) (binData : List Nat)
    (h : e.mPixelData.length ≤ sizeT (sizeT (sizeT (y * e.mWidth) + x) + k)
      ∨ binData.length ≤ bdPos) :
    packLoop e y x upperBound bdPos (n + 1) k binData = none := by
  rw [packLoop]
  rcases h with h | h
  · rw [List.getElem?_eq_none h]
  · rw [List.getElem?_eq_none h]
    split <;> first | rfl | simp_all

/-- Claim C37: for a buffer with the length invariant, width or height 0 included,
`saveAscii` never takes the modulus by zero (where the loop runs, the row length
`width * channelCount` is not zero), and for `PBM_BIN` every read index
`y * width + x + k` of `saveBinary` is below the length of the pixel data and every
write index is below `ceil(width / 8) * height`: both encoders are defined. The
model makes a modulus by zero and an access outside the storage undefined. -/
theorem C37_encoder_accesses_safe (e : PnmExporter)
    (hlen : e.mPixelData.length = e.mWidth * e.mHeight * e.getNumberOfChannels)
    (hsz : e.mPixelData.length ≤ VECTOR_MAX_SIZE) :
    (e.mPixelData ≠ [] → sizeT (e.mWidth * e.getNumberOfChannels) ≠ 0)
    ∧ (∀ output, (e.saveAscii output).isSome = true)
    ∧ (e.mImageType = .PBM_BIN →
        (packBitmap e).isSome = true
        ∧ (∀ output, (e.saveBinary output).isSome = true)
        ∧ (∀ y g k, y < e.mHeight → 8 * g < e.mWidth →
            k < (if e.mWidth - 8 * g > 8 then 8 else e.mWidth - 8 * g) →
            y * e.mWidth + 8 * g + k < e.mPixelData.length)
        ∧ (∀ y g, y < e.mHeight → 8 * g < e.mWidth →
            y * ⌈(e.mWidth : ℚ) / 8⌉₊ + g < ⌈(e.mWidth : ℚ) / 8⌉₊ * e.mHeight))
    ∧ (∀ (i v : Nat) (rest output : List Nat), saveAsciiLoop 0 i (v :: rest) output = none)
    ∧ (∀ (s : PnmExporter) (y x upperBound bdPos n k : Nat) (binData : List Nat),
        s.mPixelData.length ≤ sizeT (sizeT (sizeT (y * s.mWidth) + x) + k)
          ∨ binData.length ≤ bdPos →
        packLoop s y x upperBound bdPos (n + 1) k binData = none)
    ∧ ((∃ b, create 0 2 .PGM_ASCII = .ok b ∧ saveAscii b [] = some [])
      ∧ (∃ b, create 2 0 .PPM_ASCII = .ok b ∧ saveAscii b [] = some [])
      ∧ (∃ b, create 0 2 .PBM_BIN = .ok b ∧ saveBinary b [] = some [])
      ∧ (∃ b, create 3 0 .PBM_BIN = .ok b ∧ saveBinary b [] = some [])) := by
  have hmax : VECTOR_MAX_SIZE < SIZE_MOD := by decide
  have hch := getNumberOfChannels_pos e
  have hdiv : e.mPixelData ≠ [] → sizeT (e.mWidth * e.getNumberOfChannels) ≠ 0 := by
    intro hne
    have hpos : 0 < e.mPixelData.length := List.length_pos.mpr hne
    have hlen2 : e.mPixelData.length = e.mWidth * e.getNumberOfChannels * e.mHeight := by
      rw [hlen, Nat.mul_right_comm]
    have hh : 0 < e.mHeight := by
      rcases Nat.eq_zero_or_pos e.mHeight with h | h
      · rw [hlen2, h] at hpos; simp at hpos
      · exact h
    have hvp : 0 < e.mWidth * e.getNumberOfChannels := by
      rcases Nat.eq_zero_or_pos (e.mWidth * e.getNumberOfChannels) with h | h
      · rw [hlen2, h] at hpos; simp at hpos
      · exact h
    have hle : e.mWidth * e.getNumberOfChannels ≤ e.mPixelData.length := by
      rw [hlen2]; exact Nat.le_mul_of_pos_right _ hh
    rw [sizeT_of_lt (by omega)]
    omega
  refine ⟨hdiv, fun output => ?_, fun hfmt => ?_, fun _ _ _ _ => rfl, packLoop_unsafe,
    ⟨⟨.PGM_ASCII, 0, 2, []⟩, by decide, by decide⟩,
    ⟨⟨.PPM_ASCII, 2, 0, []⟩, by decide, by decide⟩,
    ⟨⟨.PBM_BIN, 0, 2, []⟩, by decide, by decide⟩,
    ⟨⟨.PBM_BIN, 3, 0, []⟩, by decide, by decide⟩⟩
  · unfold saveAscii
    by_cases hempty : e.mPixelData = []
    · rw [hempty]; rfl
    · exact saveAsciiLoop_isSome _ (hdiv hempty) _ _ _
  · have hl1 := bitmap_length e hfmt hlen
    have hpack := packBitmap_eq e hsz hl1
    refine ⟨by rw [hpack]; rfl, fun output => ?_, fun y g k hy hg hk => ?_, fun y g hy hg => ?_⟩
    · rw [saveBinary_bitmap e hfmt _ hpack]; rfl
    · have hx : 8 * g + k < e.mWidth := by
        split at hk <;> omega
      have := rowMajor_lt hx hy
      rw [hl1]
      omega
    · rw [← rowBytes_eq_ceil]
      have hgr : g < rowBytes e := by
        have := (rowBytes_bounds e).1
        omega
      have := rowMajor_lt hgr hy
      omega

/-- Witness of C37 on the 10 x 1 bitmap. -/
theorem C37_encoder_accesses_safe_witness :
    ([1, 0, 1, 0, 1, 0, 1, 0, 1, 1] ≠ [] →
      sizeT (10 * getNumberOfChannels ⟨.PBM_BIN, 10, 1, [1, 0, 1, 0, 1, 0, 1, 0, 1, 1]⟩) ≠ 0)
    ∧ (∀ output, (saveAscii ⟨.PBM_BIN, 10, 1, [1, 0, 1, 0, 1, 0, 1, 0, 1, 1]⟩ output).isSome
        = true)
    ∧ (PnmImageType.PBM_BIN = .PBM_BIN →
        (packBitmap ⟨.PBM_BIN, 10, 1, [1, 0, 1, 0, 1, 0, 1, 0, 1, 1]⟩).isSome = true
        ∧ (∀ output,
            (saveBinary ⟨.PBM_BIN, 10, 1, [1, 0, 1, 0, 1, 0, 1, 0, 1, 1]⟩ output).isSome = true)
        ∧ (∀ y g k, y < 1 → 8 * g < 10 → k < (if 10 - 8 * g > 8 then 8 else 10 - 8 * g) →
            y * 10 + 8 * g + k < [1, 0, 1, 0, 1, 0, 1, 0, 1, 1].length)
        ∧ (∀ y g, y < 1 → 8 * g < 10 →
            y * ⌈((10 : Nat) : ℚ) / 8⌉₊ + g < ⌈((10 : Nat) : ℚ) / 8⌉₊ * 1)) :=
  have h := C37_encoder_accesses_safe ⟨.PBM_BIN, 10, 1, [1, 0, 1, 0, 1, 0, 1, 0, 1, 1]⟩
    (by decide) (by decide)
  ⟨h.1, h.2.1, h.2.2.1⟩

/-! ### The drawing operations never throw -/

/-- On a buffer with the length invariant the inner loop of `setPixels(pred, color)`
returns a buffer of the same shape, unless the predicate is undefined somewhere: it
never throws. -/
theorem setPixelsRow_no_throw (pred : Nat → Nat → Option Bool) (color : PixelColor)
    (y n : Nat) :
    ∀ (x : Nat) (e : PnmExporter), x + n ≤ e.mWidth → y < e.mHeight →
      e.mPixelData.length = e.mWidth * e.mHeight * e.getNumberOfChannels →
      e.mPixelData.length < SIZE_MOD →
      setPixelsRow pred color y n x e = .undefined
        ∨ ∃ s, setPixelsRow pred color y n x e = .ok s ∧ SameShape e s := by
  induction n with
  | zero =>
    intro x e _ _ _ _
    exact Or.inr ⟨e, rfl, sameShape_refl e⟩
  | succ n ih =>
    intro x e hx hy hlen hsz
    rw [setPixelsRow]
    cases hp : pred x y with
    | none => exact Or.inl rfl
    | some b =>
      cases b with
      | false => exact ih (x + 1) e (by omega) hy hlen hsz
      | true =>
        obtain ⟨s1, hs1, hshape1, _⟩ := setPixel_getPixel_same e hsz x y color
          (inStorage_of_inRange e hlen (by omega) hy)
        simp only [hs1, Outcome.andThen]
        rcases ih (x + 1) s1 (by rw [hshape1.2.1]; omega) (by rw [hshape1.2.2.1]; exact hy)
          (sameShape_exact hshape1 hlen) (by rw [hshape1.2.2.2]; exact hsz) with h | ⟨s, hs, hshape⟩
        · exact Or.inl h
        · exact Or.inr ⟨s, hs, sameShape_trans hshape1 hshape⟩

/-- On a buffer with the length invariant the outer loop of `setPixels(pred, color)`
returns a buffer of the same shape, unless the predicate is undefined somewhere: it
never throws. -/
theorem setPixelsRows_no_throw (pred : Nat → Nat → Option Bool) (color : PixelColor)
    (n : Nat) :
    ∀ (y : Nat) (e : PnmExporter), y + n ≤ e.mHeight →
      e.mPixelData.length = e.mWidth * e.mHeight * e.getNumberOfChannels →
      e.mPixelData.length < SIZE_MOD →
      setPixelsRows pred color n y e = .undefined
        ∨ ∃ s, setPixelsRows pred color n y e = .ok s ∧ SameShape e s := by
  induction n with
  | zero =>
    intro y e _ _ _
    exact Or.inr ⟨e, rfl, sameShape_refl e⟩
  | succ n ih =>
    intro y e hy hlen hsz
    rw [setPixelsRows]
    rcases setPixelsRow_no_throw pred color y e.mWidth 0 e (by omega) (by omega) hlen hsz
      with h | ⟨s1, hs1, hshape1⟩
    · rw [h]; exact Or.inl rfl
    · rw [hs1]
      simp only [Outcome.andThen]
      rcases ih (y + 1) s1 (by rw [hshape1.2.2.1]; omega) (sameShape_exact hshape1 hlen)
        (by rw [hshape1.2.2.2]; exact hsz) with h | ⟨s, hs, hshape⟩
      · exact Or.inl h
      · exact Or.inr ⟨s, hs, sameShape_trans hshape1 hshape⟩

/-- The member `setPixels(pred, color)` on a predicate that is defined on the image:
it returns, and exactly the pixels on which the predicate holds are written. -/
theorem setPixels_defined (e : PnmExporter)
    (hlen : e.mPixelData.length = e.mWidth * e.mHeight * e.getNumberOfChannels)
    (hsz : e.mPixelData.length < SIZE_MOD)
    (pred : Nat → Nat → Option Bool)
    (hp : ∀ x y, x < e.mWidth → y < e.mHeight → pred x y ≠ none) (color : PixelColor) :
    ∃ s, e.setPixels pred color = .ok s ∧ SameShape e s ∧
      ∀ x y, x < e.mWidth → y < e.mHeight →
        s.getPixel x y = if pred x y = some true then .value (storedColor e color)
          else e.getPixel x y := by
  have hsome : ∀ x y, x < e.mWidth → y < e.mHeight →
      pred x y = some ((pred x y).getD false) := by
    intro x y hx hy
    cases h : pred x y with
    | none => exact absurd h (hp x y hx hy)
    | some b => rfl
  obtain ⟨s, hs, hshape, hget⟩ := setPixels_char e hlen hsz pred
    (fun x y => (pred x y).getD false) hsome color
  refine ⟨s, hs, hshape, fun x y hx hy => ?_⟩
  rw [hget x y hx hy]
  have h := hsome x y hx hy
  by_cases hb : (pred x y).getD false = true
  · rw [if_pos hb, if_pos (by rw [h, hb])]
  · rw [if_neg hb, if_neg (fun h2 => hb (by rw [h2]; rfl))]

/-- Claim C36, amended: on a buffer with the length invariant, `setPixels(pred, color)`,
`addRectangle` and `addCircle` never throw `std::out_of_range`, whatever the
arguments: they return a buffer of the same shape, or the behaviour is undefined
(an `int` overflow). Where the predicate is defined on the image they return, and
exactly the pixels of the image on which it holds are written; for `addRectangle`
on an image of at most `2^31` columns and rows, with a corner that is an `int`, these
are the pixels of the image inside the rectangle. Shapes outside the image, partly
outside it, and negative sizes or radii are evaluated on the 2 x 2 buffer. -/
theorem C36_drawing_clipped (e : PnmExporter)
    (hlen : e.mPixelData.length = e.mWidth * e.mHeight * e.getNumberOfChannels)
    (hsz : e.mPixelData.length < SIZE_MOD) :
    (∀ (pred : Nat → Nat → Option Bool) (color : PixelColor),
      e.setPixels pred color = .undefined
        ∨ ∃ s, e.setPixels pred color = .ok s ∧ SameShape e s)
    ∧ (∀ (xLeft yTop width height : Int) (color : PixelColor),
      e.addRectangle xLeft yTop width height color = .undefined
        ∨ ∃ s, e.addRectangle xLeft yTop width height color = .ok s ∧ SameShape e s)
    ∧ (∀ (cx cy radius : Int) (color : PixelColor),
      e.addCircle cx cy radius color = .undefined
        ∨ ∃ s, e.addCircle cx cy radius color = .ok s ∧ SameShape e s)
    ∧ (∀ (pred : Nat → Nat → Option Bool) (color : PixelColor),
      (∀ x y, x < e.mWidth → y < e.mHeight → pred x y ≠ none) →
      ∃ s, e.setPixels pred color = .ok s ∧ SameShape e s ∧
        ∀ x y, x < e.mWidth → y < e.mHeight →
          s.getPixel x y = if pred x y = some true then .value (storedColor e color)
            else e.getPixel x y)
    ∧ (e.mWidth ≤ 2 ^ 31 → e.mHeight ≤ 2 ^ 31 →
      ∀ (xLeft yTop width height : Int) (color : PixelColor),
      -(2 : Int) ^ 31 ≤ xLeft + width ∧ xLeft + width < (2 : Int) ^ 31 →
      -(2 : Int) ^ 31 ≤ yTop + height ∧ yTop + height < (2 : Int) ^ 31 →
      ∃ s, e.addRectangle xLeft yTop width height color = .ok s ∧ SameShape e s ∧
        ∀ x y : Nat, x < e.mWidth → y < e.mHeight →
          s.getPixel x y =
            if xLeft ≤ (x : Int) ∧ (x : Int) ≤ xLeft + width ∧
                yTop ≤ (y : Int) ∧ (y : Int) ≤ yTop + height
            then .value (storedColor e color) else e.getPixel x y)
    ∧ (∀ (cx cy radius : Int) (color : PixelColor),
      (∀ x y, x < e.mWidth → y < e.mHeight → circlePred cx cy radius x y ≠ none) →
      ∃ s, e.addCircle cx cy radius color = .ok s ∧ SameShape e s ∧
        ∀ x y, x < e.mWidth → y < e.mHeight →
          s.getPixel x y = if circlePred cx cy radius x y = some true
            then .value (storedColor e color) else e.getPixel x y)
    ∧ (∃ b, create 2 2 .PGM_BIN = .ok b
      ∧ addRectangle b (-5) (-5) 2 2 (PixelColor.make 9 0 0) = .ok b
      ∧ addRectangle b 1 1 5 5 (PixelColor.make 9 0 0) =
        .ok ⟨.PGM_BIN, 2, 2, [0, 0, 0, 9]⟩
      ∧ addRectangle b 1 1 (-1) (-1) (PixelColor.make 9 0 0) = .ok b
      ∧ addCircle b 9 9 3 (PixelColor.make 9 0 0) = .ok b
      ∧ addCircle b 0 0 (-1) (PixelColor.make 9 0 0) =
        .ok ⟨.PGM_BIN, 2, 2, [9, 0, 0, 0]⟩) := by
  have hany : ∀ (pred : Nat → Nat → Option Bool) (color : PixelColor),
      e.setPixels pred color = .undefined
        ∨ ∃ s, e.setPixels pred color = .ok s ∧ SameShape e s :=
    fun pred color => setPixelsRows_no_throw pred color e.mHeight 0 e (by omega) hlen hsz
  refine ⟨hany, fun xLeft yTop width height color => ?_, fun cx cy radius color => hany _ _,
    fun pred color hp => setPixels_defined e hlen hsz pred hp color,
    fun hw hh xLeft yTop width height color hxr hyb => ?_,
    fun cx cy radius color hp => setPixels_defined e hlen hsz _ hp color,
    ⟨⟨.PGM_BIN, 2, 2, [0, 0, 0, 0]⟩, by decide, by decide, by decide, by decide, by decide,
      by decide⟩⟩
  · unfold addRectangle
    cases checkedInt (xLeft + width) with
    | none => exact Or.inl rfl
    | some xRight =>
      cases checkedInt (yTop + height) with
      | none => exact Or.inl rfl
      | some yBottom => exact hany _ _
  · unfold addRectangle
    rw [checkedInt_of_range hxr.1 hxr.2, checkedInt_of_range hyb.1 hyb.2]
    simp only []
    obtain ⟨s, hs, hshape, hget⟩ := setPixels_char e hlen hsz
      (rectanglePred xLeft yTop (xLeft + width) (yTop + height))
      (fun x y => decide (xLeft ≤ (x : Int) ∧ (x : Int) ≤ xLeft + width ∧ yTop ≤ (y : Int) ∧
        (y : Int) ≤ yTop + height))
      (fun x y hx hy => rectanglePred_small _ _ _ _ (by omega) (by omega)) color
    refine ⟨s, hs, hshape, fun x y hx hy => ?_⟩
    rw [hget x y hx hy]
    simp only [decide_eq_true_eq]

/-- Witness of C36 on a 2 x 2 grayscale buffer. -/
theorem C36_drawing_clipped_witness :
    (∀ (pred : Nat → Nat → Option Bool) (color : PixelColor),
      setPixels ⟨.PGM_BIN, 2, 2, [0, 0, 0, 0]⟩ pred color = .undefined
        ∨ ∃ s, setPixels ⟨.PGM_BIN, 2, 2, [0, 0, 0, 0]⟩ pred color = .ok s
          ∧ SameShape ⟨.PGM_BIN, 2, 2, [0, 0, 0, 0]⟩ s)
    ∧ (∀ (xLeft yTop width height : Int) (color : PixelColor),
      addRectangle ⟨.PGM_BIN, 2, 2, [0, 0, 0, 0]⟩ xLeft yTop width height color = .undefined
        ∨ ∃ s, addRectangle ⟨.PGM_BIN, 2, 2, [0, 0, 0, 0]⟩ xLeft yTop width height color = .ok s
          ∧ SameShape ⟨.PGM_BIN, 2, 2, [0, 0, 0, 0]⟩ s)
    ∧ (∀ (cx cy radius : Int) (color : PixelColor),
      addCircle ⟨.PGM_BIN, 2, 2, [0, 0, 0, 0]⟩ cx cy radius color = .undefined
        ∨ ∃ s, addCircle ⟨.PGM_BIN, 2, 2, [0, 0, 0, 0]⟩ cx cy radius color = .ok s
          ∧ SameShape ⟨.PGM_BIN, 2, 2, [0, 0, 0, 0]⟩ s) :=
  have h := C36_drawing_clipped ⟨.PGM_BIN, 2, 2, [0, 0, 0, 0]⟩ (by decide) (by decide)
  ⟨h.1, h.2.1, h.2.2.1⟩

/-- Counterexample to C36 as stated: `addCircle(0, 0, 65536, color)` overflows `int`
in `radius * radius`, which is undefined behaviour; and on a buffer of width `2^32`
the call `addRectangle(-5, 0, 2, 0, color)`, whose rectangle holds no pixel of the
image, writes the pixel `(2^32 - 4, 0)`, whose column converts to the `int` -4. -/
theorem C36_counterexample_outside_shape_written :
    (∃ b, create 1 1 .PGM_BIN = .ok b
      ∧ addCircle b 0 0 65536 (PixelColor.make 9 0 0) = .undefined)
    ∧ (∃ s, addRectangle ⟨.PGM_BIN, 2 ^ 32, 1, List.replicate (2 ^ 32) 0⟩ (-5) 0 2 0
          (PixelColor.make 9 0 0) = .ok s
        ∧ getPixel ⟨.PGM_BIN, 2 ^ 32, 1, List.replicate (2 ^ 32) 0⟩ (2 ^ 32 - 4) 0 =
          .value ⟨0, 0, 0, 0⟩
        ∧ s.getPixel (2 ^ 32 - 4) 0 = .value ⟨0, 0, 0, 9⟩)
    ∧ (∀ x : Nat, ¬ ((-5 : Int) ≤ (x : Int) ∧ (x : Int) ≤ -5 + 2)) := by
  refine ⟨⟨⟨.PGM_BIN, 1, 1, [0]⟩, by decide, by decide⟩, ?_, fun x h => by omega⟩
  have hlen : (List.replicate (2 ^ 32) 0).length =
      2 ^ 32 * 1 * getNumberOfChannels ⟨.PGM_BIN, 2 ^ 32, 1, List.replicate (2 ^ 32) 0⟩ := by
    rw [List.length_replicate]
    rfl
  have hsz : (List.replicate (2 ^ 32) 0).length < SIZE_MOD := by
    rw [List.length_replicate]
    decide
  have hadd : addRectangle ⟨.PGM_BIN, 2 ^ 32, 1, List.replicate (2 ^ 32) 0⟩ (-5) 0 2 0
      (PixelColor.make 9 0 0) =
      setPixels ⟨.PGM_BIN, 2 ^ 32, 1, List.replicate (2 ^ 32) 0⟩ (rectanglePred (-5) 0 (-3) 0)
        (PixelColor.make 9 0 0) := by
    have h1 : checkedInt ((-5 : Int) + 2) = some (-3) := by decide
    have h2 : checkedInt ((0 : Int) + 0) = some 0 := by decide
    unfold addRectangle
    rw [h1, h2]
  obtain ⟨s, hs, _, hget⟩ := setPixels_char
    ⟨.PGM_BIN, 2 ^ 32, 1, List.replicate (2 ^ 32) 0⟩ hlen hsz
    (rectanglePred (-5) 0 (-3) 0)
    (fun x y => decide (sizeToInt x ≥ -5) && decide (sizeToInt x ≤ -3) &&
      decide (sizeToInt y ≥ 0) && decide (sizeToInt y ≤ 0))
    (fun _ _ _ _ => rfl) (PixelColor.make 9 0 0)
  refine ⟨s, by rw [hadd]; exact hs, ?_, ?_⟩
  · rw [getPixel_mono_eq ⟨.PGM_BIN, 2 ^ 32, 1, List.replicate (2 ^ 32) 0⟩ (2 ^ 32 - 4) 0
      rfl (by decide), if_pos (by rw [hlen]; decide)]
    simp only [List.getD_eq_getElem?_getD]
    rw [List.getElem?_replicate_of_lt (by decide)]
    rfl
  · have h := hget (2 ^ 32 - 4) 0 (by decide) (by decide)
    rw [if_pos (by decide)] at h
    exact h

/-! ### Saving to a path that cannot be opened -/

/-- Two insertions in a row are the insertion of the concatenation. -/
theorem OfStream.insert_insert (s : OfStream) (a b : List Nat) :
    (s.insert a).insert b = s.insert (a ++ b) := by
  unfold OfStream.insert
  cases hf : s.failbit
  · simp [List.append_assoc]
  · simp [hf]

/-- On a buffer with the length invariant `saveAscii` is defined. -/
theorem saveAscii_defined (e : PnmExporter)
    (hlen : e.mPixelData.length = e.mWidth * e.mHeight * e.getNumberOfChannels)
    (hsz : e.mPixelData.length ≤ VECTOR_MAX_SIZE) (output : List Nat) :
    ∃ bytes, e.saveAscii output = some bytes := by
  have hmax : VECTOR_MAX_SIZE < SIZE_MOD := by decide
  apply Option.isSome_iff_exists.mp
  unfold saveAscii
  by_cases hempty : e.mPixelData = []
  · rw [hempty]; rfl
  · have hpos : 0 < e.mPixelData.length := List.length_pos.mpr hempty
    have hlen2 : e.mPixelData.length = e.mWidth * e.getNumberOfChannels * e.mHeight := by
      rw [hlen, Nat.mul_right_comm]
    have hh : 0 < e.mHeight := by
      rcases Nat.eq_zero_or_pos e.mHeight with h | h
      · rw [hlen2, h] at hpos; simp at hpos
      · exact h
    have hvp : 0 < e.mWidth * e.getNumberOfChannels := by
      rcases Nat.eq_zero_or_pos (e.mWidth * e.getNumberOfChannels) with h | h
      · rw [hlen2, h] at hpos; simp at hpos
      · exact h
    have hle : e.mWidth * e.getNumberOfChannels ≤ e.mPixelData.length := by
      rw [hlen2]; exact Nat.le_mul_of_pos_right _ hh
    have hdiv : sizeT (e.mWidth * e.getNumberOfChannels) ≠ 0 := by
      rw [sizeT_of_lt (by omega)]
      omega
    exact saveAsciiLoop_isSome _ hdiv _ _ _

/-- On a buffer with the length invariant `save` is defined: the encoder runs
into no undefined behaviour. -/
theorem save_defined (e : PnmExporter)
    (hlen : e.mPixelData.length = e.mWidth * e.mHeight * e.getNumberOfChannels)
    (hsz : e.mPixelData.length ≤ VECTOR_MAX_SIZE) :
    ∃ bytes, save e = some bytes := by
  unfold save
  cases hb : e.isBinFormat
  · simp only [Bool.not_false, if_true]
    exact saveAscii_defined e hlen hsz _
  · simp only [Bool.not_true, Bool.false_eq_true, if_false]
    by_cases hfmt : e.mImageType = .PBM_BIN
    · exact ⟨_, saveBinary_bitmap e hfmt _ (packBitmap_eq e hsz (bitmap_length e hfmt hlen)) _⟩
    · exact ⟨_, by unfold saveBinary; rw [if_neg hfmt]⟩

/-- Claim C23 (amended): for a buffer that satisfies the length invariant and a
path that cannot be opened for writing, `save` returns normally and reports no
error to its caller; no file is written, and the header and the body are still
inserted into the stream that failed to open, where the insertions have no
effect.  For every buffer, a call of `save` with such a path that returns reports
no error and writes no file. -/
theorem C23_save_unopened (e : PnmExporter)
    (hlen : e.mPixelData.length = e.mWidth * e.mHeight * e.getNumberOfChannels)
    (hsz : e.mPixelData.length ≤ VECTOR_MAX_SIZE) :
    (∃ bytes, save e = some bytes ∧
      e.saveToPath false = some ⟨false, none⟩ ∧
      e.saveToPath true = some ⟨false, some bytes⟩ ∧
      (OfStream.construct false).insert bytes = ⟨false, true, []⟩ ∧
      (OfStream.construct true).insert bytes = ⟨true, false, bytes⟩) ∧
    (∀ (s : PnmExporter) (r : SaveReport), s.saveToPath false = some r →
      r.error = false ∧ r.file = none) ∧
    (∀ a b : List Nat,
      ((OfStream.construct false).insert a).insert b = OfStream.construct false) := by
  obtain ⟨bytes, hbytes⟩ := save_defined e hlen hsz
  refine ⟨⟨bytes, hbytes, ?_, ?_, rfl, rfl⟩, fun s r hr => ?_, fun a b => rfl⟩
  · simp only [PnmExporter.saveToPath, hbytes]; rfl
  · simp only [PnmExporter.saveToPath, hbytes]; rfl
  · simp only [PnmExporter.saveToPath, Option.map_eq_some'] at hr
    obtain ⟨_, _, rfl⟩ := hr
    exact ⟨rfl, rfl⟩

/-- Witness of C23 on the 4 x 2 `PGM_ASCII` buffer. -/
theorem C23_save_unopened_witness :
    ∃ bytes, save ⟨.PGM_ASCII, 4, 2, [0, 0, 0, 0, 0, 0, 0, 0]⟩ = some bytes ∧
      saveToPath ⟨.PGM_ASCII, 4, 2, [0, 0, 0, 0, 0, 0, 0, 0]⟩ false = some ⟨false, none⟩ ∧
      saveToPath ⟨.PGM_ASCII, 4, 2, [0, 0, 0, 0, 0, 0, 0, 0]⟩ true =
        some ⟨false, some bytes⟩ ∧
      (OfStream.construct false).insert bytes = ⟨false, true, []⟩ ∧
      (OfStream.construct true).insert bytes = ⟨true, false, bytes⟩ :=
  (C23_save_unopened ⟨.PGM_ASCII, 4, 2, [0, 0, 0, 0, 0, 0, 0, 0]⟩ (by decide) (by decide)).1

/-- Counterexample to C23 as stated: saving the 4 x 2 `PGM_ASCII` buffer that the
constructor returns to a path that cannot be opened reports no error; the header
`P2\n4 2\n255\n` and the body are inserted into the unopened stream, which
drops them. -/
theorem C23_counterexample_no_error :
    ∃ b, create 4 2 .PGM_ASCII = .ok b
      ∧ saveToPath b false = some ⟨false, none⟩
      ∧ save b = some (strBytes "P2\n4 2\n255\n" ++ strBytes "0 0 0 0 \n0 0 0 0 \n")
      ∧ ((OfStream.construct false).insert (strBytes "P2\n4 2\n255\n")).insert
          (strBytes "0 0 0 0 \n0 0 0 0 \n") = ⟨false, true, []⟩ :=
  ⟨⟨.PGM_ASCII, 4, 2, [0, 0, 0, 0, 0, 0, 0, 0]⟩, by decide, by decide, by decide, by decide⟩

end protolib
